import Mathlib

/-!
# Andes solver: recursive assignment (`recassign`) and the expression tree

A shallow embedding of `Algebra/src/recassign.cpp` (and of the expression data
model it works on) together with theorems about it.

Conventions of the embedding.

* The C++ code works on `vector<binopexp *>`: a list of pointers to trees that
  the collaborators rewrite in place.  Here a list slot holds the tree that the
  pointer designates, so a collaborator call on `thiseq` / `eqexpr` is a
  function returning the rewritten tree, and the slot is updated with it.
  A tree that is not a `binopexp` is not the object a slot points to: where
  the code finds one (lines 91, 124, 174) it throws before the statement that
  stores the pointer (lines 97, 126, 176), and the list at that `throw` holds
  in that slot what it held before.
* The collaborators (`dimenchk`, `eqnumsimp`, `ordunknowns`, `numunknowns`,
  `solveknownvar`, `substin`, `flatten`) are not part of the sources; they are
  a parameter (`Collab`) of every definition.
* `while` loops take a fuel argument and answer `Outcome.hang` when it runs out;
  `for` loops with a fixed trip count recurse on that count.
* A C++ `throw` is `Outcome.thrown`, carrying the state at the throw.
-/

namespace Andes

/-! ## Data model -/

/-- Physical dimension `dimens`: five exponents, or one of the two sentinel
states (`unknp`, `inconsp`). -/
inductive dimens where
  | unknown
  | inconsistent
  | dims (lengthd massd timed charged tempd : ℚ)
deriving DecidableEq, Repr

/-- The node kind tag `etype`. -/
inductive exprtype where
  | numval
  | physvart
  | binop
  | function
  | n_op
deriving DecidableEq, Repr

/-- Operator kind `opty`; `equalse` is the equality relation of an equation. -/
inductive opertype where
  | equalse
  | grte
  | gree
  | pluse
  | minuse
  | multe
  | divbye
  | topowe
deriving DecidableEq, Repr

/-- An operator `oper`: its kind and its print name. -/
structure oper where
  opty : opertype
  printname : String
deriving DecidableEq, Repr

/-- A unary function symbol (`functexp::f`), known by its print name. -/
structure funct where
  printname : String
deriving DecidableEq, Repr

/-- Expression tree `expr` with its five node classes; every node carries its
dimension `MKS`. -/
inductive expr where
  | numvalexp (value : ℚ) (MKS : dimens)
  | physvarptr (varindex : Nat) (MKS : dimens)
  | binopexp (op : oper) (lhs rhs : expr) (MKS : dimens)
  | functexp (f : funct) (arg : expr) (MKS : dimens)
  | n_opexp (op : oper) (args : List expr) (MKS : dimens)

namespace expr

/-- The tag `etype` of a node. -/
def etype : expr → exprtype
  | numvalexp _ _ => .numval
  | physvarptr _ _ => .physvart
  | binopexp _ _ _ _ => .binop
  | functexp _ _ _ => .function
  | n_opexp _ _ _ => .n_op

/-- The dimension `MKS` of a node. -/
def MKS : expr → dimens
  | numvalexp _ d => d
  | physvarptr _ d => d
  | binopexp _ _ _ d => d
  | functexp _ _ d => d
  | n_opexp _ _ d => d

/-- The left operand `lhs` of a `binopexp` (no other node has one). -/
def lhs? : expr → Option expr
  | binopexp _ l _ _ => some l
  | _ => none

/-- The `varindex` of a `physvarptr` node. -/
def varindex? : expr → Option Nat
  | physvarptr v _ => some v
  | _ => none

end expr

mutual
/-- The variable indices referenced in a tree, in left-to-right order. -/
def expr.physvars : expr → List Nat
  | .numvalexp _ _ => []
  | .physvarptr v _ => [v]
  | .binopexp _ l r _ => l.physvars ++ r.physvars
  | .functexp _ a _ => a.physvars
  | .n_opexp _ args _ => physvarsList args
/-- The variable indices referenced in a sequence of trees. -/
def physvarsList : List expr → List Nat
  | [] => []
  | e :: es => e.physvars ++ physvarsList es
end

/-- The variable a solved equation defines: the `varindex` of its `lhs` when
that is a `physvarptr` (the test of lines 194-196). -/
def expr.lhsvar? (e : expr) : Option Nat :=
  e.lhs?.bind expr.varindex?

/-- A solved equation: an equality whose left side is a variable that does not
occur in its right side. -/
def expr.isAssign : expr → Bool
  | .binopexp op (.physvarptr v _) rhs _ => op.opty == .equalse && !(rhs.physvars.contains v)
  | _ => false

/-! ## Collaborators and outcomes -/

/-- The operations `recassign` calls and that live outside the sources.  An
operation that rewrites its argument in place returns the rewritten tree. -/
structure Collab where
  /-- `dimenchk(true, e)`: the first dimensionally inconsistent subterm, if any
  (a check, as section 6 of the specification gives it). -/
  dimenchk : expr → Option expr
  /-- `eqnumsimp(e, true)`: numeric simplification. -/
  eqnumsimp : expr → expr
  /-- `ordunknowns(e, false)`: order of `e` in its unknowns. -/
  ordunknowns : expr → Int
  /-- `numunknowns(e, varl, false)`: number of unknowns in `e`. -/
  numunknowns : expr → Int
  /-- `solveknownvar(e)`: whether it solved, and the tree it leaves. -/
  solveknownvar : expr → Bool × expr
  /-- `substin(target, assign)`: whether it replaced anything, and the tree it leaves. -/
  substin : expr → expr → Bool × expr
  /-- `flatten(e)`: whether it changed anything, and the tree it leaves. -/
  flatten : expr → Bool × expr

/-- Modelled from the spec: `copyexpr` (deep copy) is not part of the sources;
an independent copy of a tree is, as a value, the tree itself. -/
def copyexpr (e : expr) : expr := e

/-- The test `(k==1) && (q==1)` of line 79 on a simplified equation. -/
def linOne (C : Collab) (e : expr) : Prop :=
  C.ordunknowns e = 1 ∧ C.numunknowns e = 1

instance (C : Collab) (e : expr) : Decidable (linOne C e) := by
  unfold linOne; infer_instance

/-- The four `throw` sites of `recassign`. -/
inductive Fatal where
  /-- "Checkeqs: dimenchk returned inconsistency at " + the offending subterm -/
  | dimenchkInconsistency (inconst : expr)
  /-- "solveknownvar returned a non-binop equation!" -/
  | solveknownvarNonBinop
  /-- "substin/eqnumsimp/flatten gives a non-binop equation!" -/
  | substinNonBinop
  /-- "eqnumsimp gives a non-binop equation!" -/
  | eqnumsimpNonBinop

/-- How a piece of code ends: normally, by a `throw` (with the state reached),
or not at all within the fuel given to its `while` loops. -/
inductive Outcome (σ : Type) where
  | done (s : σ)
  | thrown (err : Fatal) (s : σ)
  | hang

namespace Outcome

/-- Transport the state of an outcome. -/
def map {σ τ : Type} (f : σ → τ) : Outcome σ → Outcome τ
  | done s => done (f s)
  | thrown err s => thrown err (f s)
  | hang => hang

end Outcome

/-- The variables of `recassign`: its three arguments and the local counter
`numsolved` (the solved region is `eqn[0 .. numsolved)`). -/
structure RState where
  eqn : List expr
  vars : List Nat
  soleqs : List expr
  numsolved : Nat

/-! ## `recassign` -/

/-- The loop `while (flatten(eqexpr));` (line 121). -/
def flattenLoop (C : Collab) : Nat → expr → Option expr
  | 0, _ => none
  | fuel + 1, eqexpr =>
    match C.flatten eqexpr with
    | (true, eqexpr1) => flattenLoop C fuel eqexpr1
    | (false, eqexpr1) => some eqexpr1

/-- Body of the substitution loop for one pending equation (lines 112-127). -/
def substStep (C : Collab) (fuel : Nat) (assign eqexpr : expr) : Outcome expr :=
  match C.substin eqexpr assign with
  | (true, eqexpr1) =>
    match flattenLoop C fuel (C.eqnumsimp eqexpr1) with
    | none => .hang
    | some eqexpr3 =>
      if eqexpr3.etype ≠ .binop then .thrown .substinNonBinop eqexpr3
      else .done eqexpr3
  | (false, eqexpr1) => .done eqexpr1

/-- The loop `for (q = numsolved; q < eqn->size(); q++)` (lines 110-128); `n`
counts the iterations left, `(*eqn)[numsolved-1]` is read at every iteration. -/
def substLoop (C : Collab) (fuel numsolved : Nat) : Nat → Nat → List expr → Outcome (List expr)
  | 0, _, eqn => .done eqn
  | n + 1, q, eqn =>
    match eqn[q]?, eqn[numsolved - 1]? with
    | some eqexpr, some assign =>
      match substStep C fuel assign eqexpr with
      | .done eqexpr1 => substLoop C fuel numsolved n (q + 1) (eqn.set q eqexpr1)
      -- line 124 throws before line 126 stores `eqexpr`
      | .thrown err _ => .thrown err eqn
      | .hang => .hang
    | _, _ => .done eqn

/-- The list after lines 89-90, `if (j != numsolved) (*eqn)[j] = (*eqn)[numsolved];`.
The tree `thiseq` that `solveknownvar` has left is not in the list yet: line 97
stores it, and until then every other slot holds what it held. -/
def swapped (s : RState) (j : Nat) : List expr :=
  if j ≠ s.numsolved then
    match s.eqn[s.numsolved]? with
    | some other => s.eqn.set j other
    | none => s.eqn
  else s.eqn

/-- Body of the scan loop for the equation at index `j` (lines 64-130). -/
def scanBody (C : Collab) (fuel j : Nat) (s : RState) : Outcome RState :=
  match s.eqn[j]? with
  | none => .done s
  | some thiseq0 =>
    match C.dimenchk thiseq0 with
    | some inconst => .thrown (.dimenchkInconsistency inconst) s
    | none =>
      let thiseq1 := C.eqnumsimp thiseq0
      let k := C.ordunknowns thiseq1
      let q := C.numunknowns thiseq1
      if k = 1 ∧ q = 1 then
        match C.solveknownvar thiseq1 with
        | (false, thiseq2) => .done { s with eqn := s.eqn.set j thiseq2 }
        | (true, thiseq2) =>
          let eqn1 := swapped s j
          if thiseq2.etype ≠ .binop then
            -- line 91 throws before line 97 stores `thiseq`
            .thrown .solveknownvarNonBinop { s with eqn := eqn1 }
          else
            -- lines 93-96: a second `dimenchk`, whose answer is only printed
            let _troub := C.dimenchk thiseq2
            let eqn2 := eqn1.set s.numsolved thiseq2
            let soleqs := s.soleqs ++ [copyexpr thiseq2]
            let numsolved := s.numsolved + 1
            (substLoop C fuel numsolved (eqn2.length - numsolved) numsolved eqn2).map
              fun eqn3 => { s with eqn := eqn3, soleqs := soleqs, numsolved := numsolved }
      else .done { s with eqn := s.eqn.set j thiseq1 }

/-- The loop `for (j = lastsolved; j < numeqs; j++)` (lines 62-131); `n` counts
the iterations left. -/
def scanLoop (C : Collab) (fuel : Nat) : Nat → Nat → RState → Outcome RState
  | 0, _, s => .done s
  | n + 1, j, s =>
    match scanBody C fuel j s with
    | .done s1 => scanLoop C fuel n (j + 1) s1
    | .thrown err s1 => .thrown err s1
    | .hang => .hang

/-- The loop `while (lastsolved != numsolved)` (lines 58-140).  The first test
compares -1 with 0, so the body always runs once; `p` is the fuel. -/
def passes (C : Collab) (fuel numeqs : Nat) : Nat → RState → Outcome RState
  | 0, _ => .hang
  | p + 1, s =>
    let lastsolved := s.numsolved
    match scanLoop C fuel (numeqs - lastsolved) lastsolved s with
    | .done s1 => if lastsolved ≠ s1.numsolved then passes C fuel numeqs p s1 else .done s1
    | .thrown err s1 => .thrown err s1
    | .hang => .hang

/-- The loop that drops the equations without unknowns (lines 155-178): `k`
stays put after a removal (`k--` then `k++`), so the loop is driven by fuel. -/
def discardLoop (C : Collab) : Nat → Nat → List expr → Outcome (List expr)
  | 0, _, _ => .hang
  | fuel + 1, k, eqn =>
    match eqn[k]? with
    | none => .done eqn
    | some eqexpr0 =>
      let eqexpr := C.eqnumsimp eqexpr0
      if C.ordunknowns eqexpr = 0 then
        let eqn0 := eqn.set k eqexpr
        match eqn0.getLast? with
        | some lastexpr => discardLoop C fuel k (eqn0.set k lastexpr).dropLast
        | none => .done eqn0
      -- line 174 throws before line 176 stores `eqexpr`
      else if eqexpr.etype ≠ .binop then .thrown .eqnumsimpNonBinop eqn
      else discardLoop C fuel (k + 1) (eqn.set k eqexpr)

/-- The inner loop over `q` (lines 193-201) for one solved variable `v`: at the
first `q` with `vars[q] = v`, `vars[q] = vars[last--]; pop_back; break`.  `last`
starts at `size - 1` and is decremented with every `pop_back`, so `vars[last]`
is the last element. -/
def removeVar (v : Nat) : Nat → Nat → List Nat → List Nat
  | 0, _, vars => vars
  | n + 1, q, vars =>
    match vars[q]?, vars.getLast? with
    | some w, some lastvar =>
      if v = w then (vars.set q lastvar).dropLast
      else removeVar v n (q + 1) vars
    | _, _ => vars

/-- The loop `for (k = 0; k < numsolved; k++)` (lines 192-201): a solved
equation whose `lhs` is a `physvarptr` has its variable removed from `vars`. -/
def removeSolvedVars (eqn : List expr) : Nat → Nat → List Nat → List Nat
  | 0, _, vars => vars
  | n + 1, k, vars =>
    match (eqn[k]?).bind expr.lhs? |>.bind expr.varindex? with
    | some v => removeSolvedVars eqn n (k + 1) (removeVar v vars.length 0 vars)
    | none => removeSolvedVars eqn n (k + 1) vars

/-- The loop `for (q = 0; q + numsolved < eqn->size(); q++)` (lines 209-210). -/
def shiftLoop (numsolved : Nat) : Nat → Nat → List expr → List expr
  | 0, _, eqn => eqn
  | n + 1, q, eqn =>
    match eqn[q + numsolved]? with
    | some e => shiftLoop numsolved n (q + 1) (eqn.set q e)
    | none => eqn

/-- The loop `for (q = 0; q < numsolved; q++) eqn->pop_back()` (lines 211-212). -/
def popLoop : Nat → List expr → List expr
  | 0, eqn => eqn
  | n + 1, eqn => popLoop n eqn.dropLast

/-- What follows the recursive assignments (lines 155-212): drop the equations
without unknowns, remove the solved variables, compact `eqn`. -/
def cleanup (C : Collab) (fuel : Nat) (s : RState) : Outcome RState :=
  match discardLoop C fuel s.numsolved s.eqn with
  | .hang => .hang
  | .thrown err eqn1 => .thrown err { s with eqn := eqn1 }
  | .done eqn1 =>
    let vars1 := removeSolvedVars eqn1 s.numsolved 0 s.vars
    let eqn2 := shiftLoop s.numsolved (eqn1.length - s.numsolved) 0 eqn1
    let eqn3 := popLoop s.numsolved eqn2
    .done { s with eqn := eqn3, vars := vars1 }

/-- The function `recassign(eqn, vars, soleqs)`; `fuel` bounds each `while`
loop.  The state returned also records the final `numsolved`. -/
def recassign (C : Collab) (fuel : Nat) (eqn : List expr) (vars : List Nat)
    (soleqs : List expr) : Outcome RState :=
  let numeqs := eqn.length
  match passes C fuel numeqs fuel { eqn := eqn, vars := vars, soleqs := soleqs, numsolved := 0 } with
  | .done s => cleanup C fuel s
  | .thrown err s => .thrown err s
  | .hang => .hang


/-! ## A small instance of the collaborators

Modelled from the spec: the collaborators of section 6 are not part of the
sources.  `Demo.C` is a small executable instance over linear equations, used
to run `recassign` on concrete systems. -/

namespace Demo

/-- The dimension of a pure number. -/
def nodim : dimens := .dims 0 0 0 0 0

mutual
/-- Replace every occurrence of variable `v` by `val`. -/
def subst (v : Nat) (val : expr) : expr → expr
  | .numvalexp c d => .numvalexp c d
  | .physvarptr w d => if w = v then val else .physvarptr w d
  | .binopexp op l r d => .binopexp op (subst v val l) (subst v val r) d
  | .functexp f a d => .functexp f (subst v val a) d
  | .n_opexp op args d => .n_opexp op (substList v val args) d
/-- Replace every occurrence of variable `v` by `val` in a sequence. -/
def substList (v : Nat) (val : expr) : List expr → List expr
  | [] => []
  | e :: es => subst v val e :: substList v val es
end

/-- Fold a sum, difference or product of two numbers. -/
def fold (op : oper) (l r : expr) (d : dimens) : expr :=
  match l, r with
  | .numvalexp a _, .numvalexp b _ =>
    match op.opty with
    | .pluse => .numvalexp (a + b) d
    | .minuse => .numvalexp (a - b) d
    | .multe => .numvalexp (a * b) d
    | _ => .binopexp op l r d
  | _, _ => .binopexp op l r d

/-- Modelled from the spec: `numeric_simplify`, constant folding bottom-up; the
two sides of an equality are folded, the equality itself is kept. -/
def eqnumsimp : expr → expr
  | .binopexp op l r d => fold op (eqnumsimp l) (eqnumsimp r) d
  | e => e

/-- The affine form of a tree built from numbers, variables, `+`, `-` and `=`
(`l = r` is read as `l - r`): coefficients and constant. -/
def lin : expr → Option (List (Nat × ℚ) × ℚ)
  | .numvalexp c _ => some ([], c)
  | .physvarptr v _ => some ([(v, 1)], 0)
  | .binopexp op l r _ =>
    match op.opty, lin l, lin r with
    | .pluse, some (tl, cl), some (tr, cr) => some (tl ++ tr, cl + cr)
    | .minuse, some (tl, cl), some (tr, cr) =>
      some (tl ++ tr.map (fun p => (p.1, -p.2)), cl - cr)
    | .equalse, some (tl, cl), some (tr, cr) =>
      some (tl ++ tr.map (fun p => (p.1, -p.2)), cl - cr)
    | _, _, _ => none
  | _ => none

/-- The coefficient of `v` in a coefficient list. -/
def coeff (v : Nat) (t : List (Nat × ℚ)) : ℚ :=
  ((t.filter (fun p => p.1 = v)).map Prod.snd).sum

/-- The equality operator. -/
def eqop : oper := ⟨.equalse, "="⟩

/-- Modelled from the spec: `solve_for_one_unknown`; an affine equation in one
variable with a non-zero coefficient is rewritten to `variable = number`,
anything else is declined and left as it is. -/
def solveknownvar (e : expr) : Bool × expr :=
  match e.physvars.dedup, lin e with
  | [v], some (t, c) =>
    if coeff v t = 0 then (false, e)
    else (true, .binopexp eqop (.physvarptr v nodim) (.numvalexp (-c / coeff v t) nodim) nodim)
  | _, _ => (false, e)

/-- Modelled from the spec: `substitute`; replaces the variable of the solved
equation by its value and reports whether the variable occurred. -/
def substin (target assign : expr) : Bool × expr :=
  match assign with
  | .binopexp _ (.physvarptr v _) val _ => (decide (v ∈ target.physvars), subst v val target)
  | _ => (false, target)

/-- Modelled from the spec: `order_in_unknowns`; 0 without variables, 1 for an
affine tree, 2 otherwise. -/
def ordunknowns (e : expr) : Int :=
  if e.physvars = [] then 0 else if (lin e).isSome then 1 else 2

/-- Modelled from the spec: `dimension_check`; the first subterm, left to right
and bottom-up, that adds, subtracts or equates two terms of different
dimensions. -/
def dimenchk : expr → Option expr
  | .binopexp op l r d =>
    match dimenchk l with
    | some bad => some bad
    | none =>
      match dimenchk r with
      | some bad => some bad
      | none =>
        if (op.opty = .pluse ∨ op.opty = .minuse ∨ op.opty = .equalse) ∧ l.MKS ≠ r.MKS then
          some (.binopexp op l r d)
        else none
  | _ => none

/-- The instance; there is nothing to flatten. -/
def C : Collab where
  dimenchk := dimenchk
  eqnumsimp := eqnumsimp
  ordunknowns := ordunknowns
  numunknowns := fun e => e.physvars.dedup.length
  solveknownvar := solveknownvar
  substin := substin
  flatten := fun e => (false, e)

/-- The variable `x` (index 0). -/
def X : expr := .physvarptr 0 nodim
/-- The variable `y` (index 1). -/
def Y : expr := .physvarptr 1 nodim
/-- The variable `z` (index 2). -/
def Z : expr := .physvarptr 2 nodim
/-- A pure number. -/
def num (c : ℚ) : expr := .numvalexp c nodim
/-- The tree `a + b`. -/
def plus (a b : expr) : expr := .binopexp ⟨.pluse, "+"⟩ a b nodim
/-- The tree `a - b`. -/
def minus (a b : expr) : expr := .binopexp ⟨.minuse, "-"⟩ a b nodim
/-- The equation `a = b`. -/
def eq (a b : expr) : expr := .binopexp eqop a b nodim

end Demo

/-! ## Contracts of the collaborators -/

/-- What the collaborators do to the variables of a tree, as section 6 of the
specification describes them: simplification and flattening introduce no
variable, a successful solve leaves `variable = expression` for a variable of
the equation with that variable gone from the right side, a declined solve
introduces no variable, and substitution of a solved equation removes its
variable. -/
structure VarContract (C : Collab) : Prop where
  eqnumsimp_vars : ∀ e, ∀ w ∈ (C.eqnumsimp e).physvars, w ∈ e.physvars
  flatten_vars : ∀ e, ∀ w ∈ (C.flatten e).2.physvars, w ∈ e.physvars
  solve_vars : ∀ e e1, C.solveknownvar e = (true, e1) →
    ∃ op v d rhs d1, e1 = .binopexp op (.physvarptr v d) rhs d1 ∧ v ∈ e.physvars ∧
      ∀ w ∈ rhs.physvars, w ∈ e.physvars ∧ w ≠ v
  decline_vars : ∀ e e1, C.solveknownvar e = (false, e1) →
    ∀ w ∈ e1.physvars, w ∈ e.physvars
  substin_vars : ∀ t op v d rhs d1,
    ∀ w ∈ (C.substin t (.binopexp op (.physvarptr v d) rhs d1)).2.physvars,
      (w ∈ t.physvars ∧ w ≠ v) ∨ w ∈ rhs.physvars

/-- The left-hand variables of the solved region `eqn[0 .. numsolved)`. -/
def solvedVars (s : RState) : List Nat :=
  (s.eqn.take s.numsolved).filterMap expr.lhsvar?

/-! ## Predicates used in the proofs -/

/-- One of six things happens in an iteration of the scan loop. -/
inductive BodyCase (C : Collab) (fuel : Nat) (j : Nat) (s : RState) : Outcome RState → Prop where
  | none (h : s.eqn[j]? = none) : BodyCase C fuel j s (.done s)
  | dimenchk (e0 bad : expr) (h : s.eqn[j]? = some e0) (hd : C.dimenchk e0 = some bad) :
      BodyCase C fuel j s (.thrown (.dimenchkInconsistency bad) s)
  | skip (e0 : expr) (h : s.eqn[j]? = some e0) (hd : C.dimenchk e0 = none)
      (hl : ¬ linOne C (C.eqnumsimp e0)) :
      BodyCase C fuel j s (.done { s with eqn := s.eqn.set j (C.eqnumsimp e0) })
  | decline (e0 e2 : expr) (h : s.eqn[j]? = some e0) (hd : C.dimenchk e0 = none)
      (hl : linOne C (C.eqnumsimp e0))
      (hs : C.solveknownvar (C.eqnumsimp e0) = (false, e2)) :
      BodyCase C fuel j s (.done { s with eqn := s.eqn.set j e2 })
  | nonbinop (e0 e2 : expr) (h : s.eqn[j]? = some e0) (hd : C.dimenchk e0 = none)
      (hl : linOne C (C.eqnumsimp e0))
      (hs : C.solveknownvar (C.eqnumsimp e0) = (true, e2)) (hb : e2.etype ≠ .binop) :
      BodyCase C fuel j s (.thrown .solveknownvarNonBinop { s with eqn := swapped s j })
  | solve (e0 e2 : expr) (h : s.eqn[j]? = some e0) (hd : C.dimenchk e0 = none)
      (hl : linOne C (C.eqnumsimp e0))
      (hs : C.solveknownvar (C.eqnumsimp e0) = (true, e2)) (hb : e2.etype = .binop) :
      BodyCase C fuel j s
        ((substLoop C fuel (s.numsolved + 1)
          (((swapped s j).set s.numsolved e2).length - (s.numsolved + 1)) (s.numsolved + 1)
          ((swapped s j).set s.numsolved e2)).map
          fun eqn3 => { s with eqn := eqn3, soleqs := s.soleqs ++ [copyexpr e2],
                               numsolved := s.numsolved + 1 })


/-- The part of the state that does not depend on what the collaborators
compute: the list keeps its length, `vars` is not touched, and the solved
region is what has been appended to `soleqs`, each entry a `binopexp` that
`solveknownvar` returned. -/
structure Core (C : Collab) (numeqs : Nat) (vars0 : List Nat) (soleqs0 : List expr)
    (s : RState) : Prop where
  len : s.eqn.length = numeqs
  le : s.numsolved ≤ numeqs
  vars : s.vars = vars0
  sol : s.soleqs = soleqs0 ++ s.eqn.take s.numsolved
  out : ∀ e ∈ s.eqn.take s.numsolved,
    e.etype = .binop ∧ ∃ e1, C.solveknownvar e1 = (true, e)


/-- The solved variables are distinct unknowns of the call, and no pending
equation refers to anything but unknowns that are not solved yet. -/
structure VarInv (vars0 : List Nat) (s : RState) : Prop where
  sub : ∀ v ∈ solvedVars s, v ∈ vars0
  nodup : (solvedVars s).Nodup
  pend : ∀ i e, s.numsolved ≤ i → s.eqn[i]? = some e →
    ∀ w ∈ e.physvars, w ∈ vars0 ∧ w ∉ solvedVars s


/-- The system `x - 3 = 0`, `y - (x + 2) = 0`. -/
def Demo.sys1 : List expr :=
  [Demo.eq (Demo.minus Demo.X (Demo.num 3)) (Demo.num 0),
   Demo.eq (Demo.minus Demo.Y (Demo.plus Demo.X (Demo.num 2))) (Demo.num 0)]


/-- What an iteration of the scan loop that solves nothing does to the equation
`x` it visits, leaving `y` in its slot: the dimension check passes, and either
the simplified equation fails the test of line 79, or it passes the test and
`solveknownvar` declines. -/
def Unsolved (C : Collab) (x y : expr) : Prop :=
  C.dimenchk x = none ∧
    ((¬ linOne C (C.eqnumsimp x) ∧ y = C.eqnumsimp x) ∨
     (linOne C (C.eqnumsimp x) ∧ C.solveknownvar (C.eqnumsimp x) = (false, y)))

/-- The equation `x - x = 3`: of order 1 in one unknown for `Demo.C`, yet not
solvable for it. -/
def Demo.unsolvable : expr :=
  Demo.eq (Demo.minus Demo.X Demo.X) (Demo.num 3)

/-- A computation that takes fuel ends: from some fuel on it gives one and the
same outcome, which is not `hang`. -/
def Stable {σ : Type} (f : Nat → Outcome σ) : Prop :=
  ∃ m o, o ≠ Outcome.hang ∧ ∀ m1, m ≤ m1 → f m1 = o

/-- The system `x + y = 5`, `z = 3`, `y - 2 = 0` in which `z` is a length and
3 a pure number. -/
def Demo.sysdim : List expr :=
  [Demo.eq (Demo.plus Demo.X Demo.Y) (Demo.num 5),
   Demo.eq (.physvarptr 2 (.dims 1 0 0 0 0)) (Demo.num 3),
   Demo.eq (Demo.minus Demo.Y (Demo.num 2)) (Demo.num 0)]

/-- The instance `Demo.C` with another solve step. -/
def Demo.withSolve (f : expr → Bool × expr) : Collab :=
  { Demo.C with solveknownvar := f }

/-- A faulty solve step: it reports success and leaves the difference `x - 3`,
a `binopexp` that is not an equality. -/
def Demo.solveMinus (_ : expr) : Bool × expr :=
  (true, Demo.minus Demo.X (Demo.num 3))

/-- A faulty solve step: it reports success and leaves the bare number 3. -/
def Demo.solveBare (_ : expr) : Bool × expr :=
  (true, Demo.num 3)

/-- The equation `x - 3 = 0`. -/
def Demo.eqX : expr := Demo.eq (Demo.minus Demo.X (Demo.num 3)) (Demo.num 0)

/-- The equation `x + y = 5`. -/
def Demo.eqXY : expr := Demo.eq (Demo.plus Demo.X Demo.Y) (Demo.num 5)

/-- The equation `z - 3 = 0`. -/
def Demo.eqZ : expr := Demo.eq (Demo.minus Demo.Z (Demo.num 3)) (Demo.num 0)

/-- The equation `5 = 5`. -/
def Demo.eq55 : expr := Demo.eq (Demo.num 5) (Demo.num 5)

/-- The equation `x + z = 1`. -/
def Demo.eqXZ : expr := Demo.eq (Demo.plus Demo.X Demo.Z) (Demo.num 1)


/-- The equation `5 = 3`, a numeric inconsistency. -/
def Demo.eq53 : expr := Demo.eq (Demo.num 5) (Demo.num 3)

/-- A faulty solve step: it reports success and leaves `z = 3` with `z` a
length and 3 a pure number, an equation that fails the dimension check. -/
def Demo.solveDimless (_ : expr) : Bool × expr :=
  (true, Demo.eq (.physvarptr 2 (.dims 1 0 0 0 0)) (Demo.num 3))

/-- The equation `z - 3 = 0` between lengths, which passes the dimension check. -/
def Demo.eqZlen : expr :=
  .binopexp Demo.eqop
    (.binopexp ⟨.minuse, "-"⟩ (.physvarptr 2 (.dims 1 0 0 0 0))
      (.numvalexp 3 (.dims 1 0 0 0 0)) (.dims 1 0 0 0 0))
    (.numvalexp 0 (.dims 1 0 0 0 0)) (.dims 1 0 0 0 0)

/-- The equation `y + z = 5`. -/
def Demo.eqYZ : expr := Demo.eq (Demo.plus Demo.Y Demo.Z) (Demo.num 5)

/-- The tree `b` is the tree `a` after some calls of the collaborators that
rewrite a tree in place (`eqnumsimp`, `solveknownvar`, `substin`, `flatten`). -/
inductive Rewr (C : Collab) : expr → expr → Prop where
  | refl (a : expr) : Rewr C a a
  | eqnumsimp {a b : expr} : Rewr C a b → Rewr C a (C.eqnumsimp b)
  | solveknownvar {a b : expr} : Rewr C a b → Rewr C a (C.solveknownvar b).2
  | substin {a b : expr} (assign : expr) : Rewr C a b → Rewr C a (C.substin b assign).2
  | flatten {a b : expr} : Rewr C a b → Rewr C a (C.flatten b).2

/-- The list `eqn` is a rearrangement of the list `eqn0`, up to rewriting: it
has the same length and there is a permutation `σ` of the slots such that slot
`i` holds the (rewritten) equation that slot `σ i` of `eqn0` held. -/
def Rearranged (C : Collab) (eqn0 eqn : List expr) : Prop :=
  eqn.length = eqn0.length ∧
  ∃ σ : Equiv.Perm Nat, (∀ i, eqn0.length ≤ i → σ i = i) ∧
    ∀ i e, eqn[i]? = some e → ∃ e0, eqn0[σ i]? = some e0 ∧ Rewr C e0 e

/-- The states of the main loop at its iteration boundaries, with the index `j`
the scan is about to visit: the state at entry, the state after an iteration
that ended normally, and the state at the start of a further pass. -/
inductive Reach (C : Collab) (fuel : Nat) (eqn : List expr) (vars : List Nat)
    (soleqs : List expr) : Nat → RState → Prop where
  | entry : Reach C fuel eqn vars soleqs 0
      { eqn := eqn, vars := vars, soleqs := soleqs, numsolved := 0 }
  | iteration {j : Nat} {s s1 : RState} : Reach C fuel eqn vars soleqs j s → j < eqn.length →
      scanBody C fuel j s = .done s1 → Reach C fuel eqn vars soleqs (j + 1) s1
  | pass {s : RState} : Reach C fuel eqn vars soleqs eqn.length s →
      Reach C fuel eqn vars soleqs s.numsolved s

/-- A faulty solve step: it reports success and leaves `x = x - 3`, an equality
whose left-hand variable occurs in its right side. -/
def Demo.solveSelf (_ : expr) : Bool × expr :=
  (true, Demo.eq Demo.X (Demo.minus Demo.X (Demo.num 3)))

/-- The instance `Demo.C` with a faulty substitution: it reports a change and
leaves the bare number 0. -/
def Demo.substBare : Collab :=
  { Demo.C with substin := fun _ _ => (true, Demo.num 0) }

/-! ## Printing (`exprp.cpp`) -/

/-- An entry `physvar` of the canonical variable table: its name and its
preferred unit (empty when it has none). -/
structure physvar where
  clipsname : String
  prefUnit : String
deriving DecidableEq, Repr

/-- What the printing code takes from outside the sources: the global pointer
`canonvars` (`none` when NULL), `unittable.match`, `getfromunits` (value and
dimension of a unit), `lookslikeint` (the integer a number looks like, if any),
the `sprintf` conversions of a number, and the compile-time flag `UNITENABLE`. -/
structure PrintEnv where
  canonvars : Option (List physvar)
  unittable_match : dimens → String
  getfromunits : String → ℚ × dimens
  lookslikeint : ℚ → Option Int
  /-- `"%d"` -/
  sprintf_d : Int → String
  /-- `"%.1lf"` -/
  sprintf_1lf : ℚ → String
  /-- `"%.17lf"` -/
  sprintf_17lf : ℚ → String
  /-- `"%.17lG"` -/
  sprintf_17lG : ℚ → String
  UNITENABLE : Bool

/-- How a printing function ends: with a string, by a `throw` of a message, or
with undefined behaviour: a read outside a vector or through a NULL pointer, or
a write past the end of a `char` buffer. -/
inductive PrintOutcome where
  | ok (str : String)
  | thrown (msg : String)
  | undefined
deriving DecidableEq, Repr

/-- `unitstr.erase(usl-1,1)`: the string without its last character. -/
def eraseLast (s : String) : String := ⟨s.data.dropLast⟩

/-- `unitstr[usl-1] == c`: the last character is `c`. -/
def lastIs (s : String) (c : Char) : Bool := s.data.getLast? == some c

/-- A call `sprintf(buf, ...)` into `char buf[size]`: the print and its closing
NUL have to fit.  A print of `size` characters or more is written past the end
of the buffer, and the call has no result (`none`).  The conversions print
one-byte characters, so the length counts the bytes. -/
def sprintfBuf (size : Nat) (print : String) : Option String :=
  if print.length < size then some print else none

/-- `if (cond) unitstr.append(piece);` where `piece` contains a result of
`ustrp`, which is called only when `cond` holds. -/
def appendIf (cond : Prop) [Decidable cond] (unitstr : String) (piece : Option String) :
    Option String :=
  if cond then piece.map (fun p => unitstr ++ p) else some unitstr

/-- The function `ustrp(dpow)` (lines 37-48): how an exponent is printed, into
`char buf[8]`; `none` when the print overflows the buffer. -/
def ustrp (G : PrintEnv) (dpow : ℚ) : Option String :=
  match G.lookslikeint dpow with
  | some q => if q = 1 then some "" else sprintfBuf 8 ("^" ++ G.sprintf_d q)
  | none => sprintfBuf 8 ("^" ++ G.sprintf_1lf dpow)

/-- The function `unitprint(dim)` (lines 57-111); `none` when a call of `ustrp`
overflows its buffer. -/
def unitprint (G : PrintEnv) (dim : dimens) : Option String :=
  let unitstr := G.unittable_match dim
  if unitstr = "None" then
    match dim with
    | .unknown => some "unknown_units"
    | .inconsistent => some "inconsistent_units"
    | .dims lengthd massd timed charged tempd =>
      -- do all numerators
      (appendIf (lengthd > 0) "" ((ustrp G lengthd).map fun p => "m" ++ p ++ ".")).bind fun u1 =>
      (appendIf (massd > 0) u1 ((ustrp G massd).map fun p => "kg" ++ p ++ ".")).bind fun u2 =>
      (appendIf (timed > 0) u2 ((ustrp G timed).map fun p => "s" ++ p ++ ".")).bind fun u3 =>
      (appendIf (charged > 0) u3 ((ustrp G charged).map fun p => "C" ++ p ++ ".")).bind fun u4 =>
      (appendIf (tempd > 0) u4 ((ustrp G tempd).map fun p => "K" ++ p ++ ".")).bind fun u5 =>
      if u5.length > 0 then
        -- add denominator to result
        let d0 := if lastIs u5 '.' then eraseLast u5 else u5
        (appendIf (lengthd < 0) d0 ((ustrp G (-lengthd)).map fun p => "/m" ++ p)).bind fun d1 =>
        (appendIf (massd < 0) d1 ((ustrp G (-massd)).map fun p => "/kg" ++ p)).bind fun d2 =>
        (appendIf (timed < 0) d2 ((ustrp G (-timed)).map fun p => "/s" ++ p)).bind fun d3 =>
        (appendIf (charged < 0) d3 ((ustrp G (-charged)).map fun p => "/C" ++ p)).bind fun d4 =>
        appendIf (tempd < 0) d4 ((ustrp G (-tempd)).map fun p => "/K" ++ p)
      else
        -- only denominator: use negative powers
        (appendIf (lengthd < 0) u5 ((ustrp G lengthd).map fun p => "m" ++ p ++ ".")).bind fun v1 =>
        (appendIf (massd < 0) v1 ((ustrp G massd).map fun p => "kg" ++ p ++ ".")).bind fun v2 =>
        (appendIf (timed < 0) v2 ((ustrp G timed).map fun p => "s" ++ p ++ ".")).bind fun v3 =>
        (appendIf (charged < 0) v3 ((ustrp G charged).map fun p => "C" ++ p ++ ".")).bind fun v4 =>
        (appendIf (tempd < 0) v4 ((ustrp G tempd).map fun p => "K" ++ p ++ ".")).bind fun v5 =>
        some (if v5.length > 0 ∧ lastIs v5 '.' then eraseLast v5 else v5)
  else some unitstr

/-- The code "repeated three times" that prints a value into `char valuenum[30]`
(lines 127-132, 203-208, 367-372).  The three conversions print at most 24
characters for a `double` and 11 for an `int`, so this buffer holds every
print. -/
def valuenum (G : PrintEnv) (value : ℚ) : String :=
  match (if value = 0 ∨ |value| > 1 / 2 then G.lookslikeint value else none) with
  | some q => G.sprintf_d q
  | none =>
    if |value| < 1 ∧ |value| > 1 / 1000 then G.sprintf_17lf value
    else G.sprintf_17lG value

mutual
/-- The method `getInfix()` of the five node classes (lines 119-149, 218-247);
`none` when a call of `ustrp` overflows its buffer. -/
def expr.getInfix (G : PrintEnv) : expr → Option String
  | .numvalexp value MKS =>
    if G.UNITENABLE then
      match unitprint G MKS with
      | none => none
      | some unitstr =>
        if unitstr.length = 0 then some (valuenum G value)
        else some ("(" ++ valuenum G value ++ " " ++ unitstr ++ ")")
    else some (valuenum G value)
  | .physvarptr varindex _ =>
    match G.canonvars with
    | none => some "no physvar list"
    | some cv =>
      match cv[varindex]? with
      | some pv => some pv.clipsname
      | none => some "physvarptr points to index greater than list size"
  | .binopexp op lhs rhs _ =>
    match lhs.getInfix G, rhs.getInfix G with
    | some l, some r => some ("(" ++ l ++ " " ++ op.printname ++ " " ++ r ++ ")")
    | _, _ => none
  | .functexp f arg _ =>
    match arg.getInfix G with
    | some a => some ("(" ++ f.printname ++ " (" ++ a ++ "))")
    | none => none
  | .n_opexp op args _ =>
    if args.length = 0 then some ("( " ++ (op.printname ++ ")"))
    else getInfixArgs G op "( " args
/-- The loop of `n_opexp::getInfix` over the arguments and the final `append`
(lines 242-244); `ans` is the string built so far. -/
def getInfixArgs (G : PrintEnv) (op : oper) : String → List expr → Option String
  | ans, [] => some ans
  | ans, a :: rest =>
    match a.getInfix G with
    | none => none
    | some x =>
      match rest with
      | [] => some (ans ++ (x ++ ")"))
      | _ :: _ => getInfixArgs G op (ans ++ (x ++ " " ++ op.printname ++ " ")) rest
end

mutual
/-- The method `getLisp(withbarp)` of the five node classes (lines 360-421);
`none` when it reads outside the argument vector or when a call of `ustrp`
overflows its buffer. -/
def expr.getLisp (G : PrintEnv) (withbarp : Bool) : expr → Option String
  | .numvalexp value MKS =>
    if G.UNITENABLE then
      match unitprint G MKS with
      | none => none
      | some unitstr =>
        if unitstr.length = 0 then some ("( " ++ valuenum G value ++ " )")
        else some ("(DNUM " ++ valuenum G value ++
          (if withbarp then " |" ++ unitstr ++ "|)" else " " ++ unitstr ++ ")"))
    else some (valuenum G value)
  | .physvarptr varindex _ =>
    match G.canonvars with
    | none => some "no physvar list"
    | some cv =>
      match cv[varindex]? with
      | some pv => if withbarp then some ("|" ++ pv.clipsname ++ "|") else some pv.clipsname
      | none => some "physvarptr points to index greater than list size"
  | .binopexp op lhs rhs _ =>
    match lhs.getLisp G withbarp, rhs.getLisp G withbarp with
    | some l, some r => some ("(" ++ op.printname ++ " " ++ l ++ " " ++ r ++ ")")
    | _, _ => none
  | .functexp f arg _ =>
    match arg.getLisp G withbarp with
    | some a => some ("(" ++ f.printname ++ " " ++ a ++ ")")
    | none => none
  | .n_opexp op args _ => getLispArgs G withbarp ("(" ++ (op.printname ++ " ")) args
/-- The loop of `n_opexp::getLisp` over the arguments and the final `append`
(lines 417-419); with no argument the final `append` reads `args[0]` of an
empty vector. -/
def getLispArgs (G : PrintEnv) (withbarp : Bool) : String → List expr → Option String
  | _, [] => none
  | ans, a :: rest =>
    match a.getLisp G withbarp with
    | none => none
    | some x =>
      match rest with
      | [] => some (ans ++ (x ++ ")"))
      | _ :: _ => getLispArgs G withbarp (ans ++ (x ++ " ")) rest
end

/-- The end of `solprint` (lines 199-215): the value is printed and the
solution string assembled. -/
def solstring (G : PrintEnv) (forhelp : Bool) (clipsname : String) (value : ℚ)
    (unitstr : String) : String :=
  if forhelp then
    "(= |" ++ clipsname ++ "| (DNUM " ++ valuenum G value ++ " |" ++ unitstr ++ "|))"
  else "(SVAR " ++ clipsname ++ " " ++ valuenum G value ++ " " ++ unitstr ++ " )"

/-- The method `binopexp::solprint(forhelp)` (lines 164-216) of the node with
fields `op`, `lhs`, `rhs`, `MKS`; `numsols` is the global solved-value table
(`none` when the pointer is NULL), returned as the call leaves it.  The outcome
is `undefined` when line 181 reads `canonvars` outside its bounds or through a
NULL pointer, and when `unitprint` (line 195) or the `getInfix` of the message
(line 187) overflows the buffer of `ustrp`. -/
def solprint (G : PrintEnv) (numsols : Option (List ℚ)) (forhelp : Bool) (op : oper)
    (lhs rhs : expr) (MKS : dimens) : PrintOutcome × Option (List ℚ) :=
  if op.opty ≠ .equalse then
    (.thrown "Tried to write a solution that is not an equation", numsols)
  else
    match lhs with
    | .physvarptr varidx _ =>
      match rhs with
      | .numvalexp value rhsMKS =>
        match numsols with
        | none => (.thrown "solprint called without numsols existing", numsols)
        | some table =>
          if table.length ≤ varidx then
            (.thrown "solprint called with numsols too small", numsols)
          else
            let numsols1 := some (table.set varidx value)
            match G.canonvars.bind (fun cv => cv[varidx]?) with
            | none => (.undefined, numsols1)
            | some pv =>
              if pv.prefUnit ≠ "" then
                let denom := G.getfromunits pv.prefUnit
                if ¬ (rhsMKS = denom.2) then
                  match (expr.binopexp op lhs rhs MKS).getInfix G with
                  | some eqstr =>
                    (.thrown (eqstr ++
                      " inconsistent with preferred units for " ++ pv.clipsname), numsols1)
                  | none => (.undefined, numsols1)
                else
                  (.ok (solstring G forhelp pv.clipsname (value / denom.1) pv.prefUnit),
                    numsols1)
              else
                match unitprint G rhsMKS with
                | some unitstr =>
                  (.ok (solstring G forhelp pv.clipsname value unitstr), numsols1)
                | none => (.undefined, numsols1)
      | _ => (.thrown "Tried to write a solution with rhs not a value", numsols)
    | _ => (.thrown "Tried to write a solution with lhs not a variable", numsols)

/-! ### A small printing environment -/

/-- The decimal digits of `n`, most significant first (`fuel` bounds their number). -/
def Demo.natstrAux : Nat → Nat → String
  | 0, _ => ""
  | fuel + 1, n =>
    (if n < 10 then "" else Demo.natstrAux fuel (n / 10)) ++
      String.singleton (Nat.digitChar (n % 10))

/-- The decimal numeral of `n`. -/
def Demo.natstr (n : Nat) : String := Demo.natstrAux (n + 1) n

/-- A stand-in for `sprintf("%d")`. -/
def Demo.sprintf_d (q : Int) : String :=
  (if q < 0 then "-" else "") ++ Demo.natstr q.natAbs

/-- A stand-in for `sprintf("%.<n>lf")`: `n` decimals, rounded half up. -/
def Demo.fixed (n : Nat) (q : ℚ) : String :=
  let r := (|q| * 10 ^ n + 1 / 2).floor.natAbs
  (if q < 0 then "-" else "") ++ Demo.natstr (r / 10 ^ n) ++ "." ++
    Demo.natstr ((r % 10 ^ n) / 10 ^ (n - 1)) ++
    (if n ≤ 1 then "" else Demo.natstr (10 ^ (n - 1) + r % 10 ^ (n - 1))).drop 1

/-- A printing environment: three variables `x`, `y` (preferred unit `cm`) and
`z`; no named units but `cm` (a hundredth of a metre); a number looks like an
integer when it is one. -/
def Demo.G : PrintEnv where
  canonvars := some [⟨"x", ""⟩, ⟨"y", "cm"⟩, ⟨"z", ""⟩]
  unittable_match := fun _ => "None"
  getfromunits := fun u => if u = "cm" then (1 / 100, .dims 1 0 0 0 0) else (1, Demo.nodim)
  lookslikeint := fun q => if q.den = 1 then some q.num else none
  sprintf_d := Demo.sprintf_d
  sprintf_1lf := Demo.fixed 1
  sprintf_17lf := Demo.fixed 17
  sprintf_17lG := Demo.fixed 17
  UNITENABLE := true

/-! ### The unit string as the specification words it -/

/-- The five base units in their fixed order, each with its exponent in the
dimension `dims lengthd massd timed charged tempd`. -/
def baseUnits (lengthd massd timed charged tempd : ℚ) : List (String × ℚ) :=
  [("m", lengthd), ("kg", massd), ("s", timed), ("C", charged), ("K", tempd)]

/-- The unit string of a dimension that matches no named unit, written after
the words of the specification and not after the code: the sentinel names; for
exponents, the base units with a positive exponent joined by `.` and followed by
each unit with a negative exponent as `/`, the unit and the absolute value of
its exponent; when no exponent is positive, the units with a negative exponent
and their negative powers joined by `.`.  How one exponent is written is the
parameter `pw`. -/
def unitprintSpec (pw : ℚ → String) : dimens → String
  | .unknown => "unknown_units"
  | .inconsistent => "inconsistent_units"
  | .dims lengthd massd timed charged tempd =>
    let units := baseUnits lengthd massd timed charged tempd
    let pos := units.filter (fun u => 0 < u.2)
    let neg := units.filter (fun u => u.2 < 0)
    if pos.isEmpty then ".".intercalate (neg.map (fun u => u.1 ++ pw u.2))
    else ".".intercalate (pos.map (fun u => u.1 ++ pw u.2)) ++
      String.join (neg.map (fun u => "/" ++ u.1 ++ pw |u.2|))

/-! # Theorems -/

/-! ## The cases of the scan body -/

section ScanBody
variable (C : Collab) (fuel : Nat)

theorem scanBody_none {j : Nat} {s : RState} (h : s.eqn[j]? = none) :
    scanBody C fuel j s = .done s := by
  simp [scanBody, h]

theorem scanBody_dimenchk {j : Nat} {s : RState} {e0 bad : expr}
    (h : s.eqn[j]? = some e0) (hd : C.dimenchk e0 = some bad) :
    scanBody C fuel j s = .thrown (.dimenchkInconsistency bad) s := by
  simp [scanBody, h, hd]

theorem scanBody_skip {j : Nat} {s : RState} {e0 : expr}
    (h : s.eqn[j]? = some e0) (hd : C.dimenchk e0 = none)
    (hl : ¬ linOne C (C.eqnumsimp e0)) :
    scanBody C fuel j s = .done { s with eqn := s.eqn.set j (C.eqnumsimp e0) } := by
  unfold linOne at hl
  simp [scanBody, h, hd, hl]

theorem scanBody_decline {j : Nat} {s : RState} {e0 e2 : expr}
    (h : s.eqn[j]? = some e0) (hd : C.dimenchk e0 = none)
    (hl : linOne C (C.eqnumsimp e0))
    (hs : C.solveknownvar (C.eqnumsimp e0) = (false, e2)) :
    scanBody C fuel j s = .done { s with eqn := s.eqn.set j e2 } := by
  unfold linOne at hl
  simp [scanBody, h, hd, hl, hs]

theorem scanBody_nonbinop {j : Nat} {s : RState} {e0 e2 : expr}
    (h : s.eqn[j]? = some e0) (hd : C.dimenchk e0 = none)
    (hl : linOne C (C.eqnumsimp e0))
    (hs : C.solveknownvar (C.eqnumsimp e0) = (true, e2)) (hb : e2.etype ≠ .binop) :
    scanBody C fuel j s = .thrown .solveknownvarNonBinop { s with eqn := swapped s j } := by
  unfold linOne at hl
  simp [scanBody, h, hd, hl, hs, hb]

theorem scanBody_solve {j : Nat} {s : RState} {e0 e2 : expr}
    (h : s.eqn[j]? = some e0) (hd : C.dimenchk e0 = none)
    (hl : linOne C (C.eqnumsimp e0))
    (hs : C.solveknownvar (C.eqnumsimp e0) = (true, e2)) (hb : e2.etype = .binop) :
    scanBody C fuel j s =
      (substLoop C fuel (s.numsolved + 1)
        (((swapped s j).set s.numsolved e2).length - (s.numsolved + 1)) (s.numsolved + 1)
        ((swapped s j).set s.numsolved e2)).map
        fun eqn3 => { s with eqn := eqn3, soleqs := s.soleqs ++ [copyexpr e2],
                             numsolved := s.numsolved + 1 } := by
  unfold linOne at hl
  simp [scanBody, h, hd, hl, hs, hb]

theorem scanBody_case (j : Nat) (s : RState) : BodyCase C fuel j s (scanBody C fuel j s) := by
  cases h : s.eqn[j]? with
  | none => rw [scanBody_none C fuel h]; exact .none h
  | some e0 =>
    cases hd : C.dimenchk e0 with
    | some bad => rw [scanBody_dimenchk C fuel h hd]; exact .dimenchk e0 bad h hd
    | none =>
      by_cases hl : linOne C (C.eqnumsimp e0)
      · rcases hs : C.solveknownvar (C.eqnumsimp e0) with ⟨b, e2⟩
        cases b with
        | false => rw [scanBody_decline C fuel h hd hl hs]; exact .decline e0 e2 h hd hl hs
        | true =>
          by_cases hb : e2.etype = .binop
          · rw [scanBody_solve C fuel h hd hl hs hb]; exact .solve e0 e2 h hd hl hs hb
          · rw [scanBody_nonbinop C fuel h hd hl hs hb]; exact .nonbinop e0 e2 h hd hl hs hb
      · rw [scanBody_skip C fuel h hd hl]; exact .skip e0 h hd hl

end ScanBody

/-! ## Loop invariants -/

section Loops
variable (C : Collab) (fuel : Nat)

theorem Outcome.map_eq_done {σ τ : Type} {f : σ → τ} {o : Outcome σ} {t : τ}
    (h : o.map f = .done t) : ∃ s, o = .done s ∧ f s = t := by
  cases o <;> simp [Outcome.map] at h
  exact ⟨_, rfl, h⟩

theorem Outcome.map_eq_thrown {σ τ : Type} {f : σ → τ} {o : Outcome σ} {err : Fatal} {t : τ}
    (h : o.map f = .thrown err t) : ∃ s, o = .thrown err s ∧ f s = t := by
  cases o <;> simp [Outcome.map] at h
  exact ⟨_, by rw [h.1], h.2⟩

theorem Outcome.map_eq_hang {σ τ : Type} {f : σ → τ} {o : Outcome σ}
    (h : o.map f = .hang) : o = .hang := by
  cases o <;> simp [Outcome.map] at h
  rfl

/-- A property kept by every iteration that ends normally holds when the scan
loop ends normally. -/
theorem scanLoop_done_inv (P : Nat → RState → Prop)
    (hbody : ∀ j s s1, P j s → scanBody C fuel j s = .done s1 → P (j + 1) s1) :
    ∀ n j s s1, P j s → scanLoop C fuel n j s = .done s1 → P (j + n) s1 := by
  intro n
  induction n with
  | zero => intro j s s1 hP h; simp [scanLoop] at h; subst h; simpa using hP
  | succ n ih =>
    intro j s s1 hP h
    rw [scanLoop] at h
    cases hb : scanBody C fuel j s with
    | done s2 =>
      rw [hb] at h
      have := ih (j + 1) s2 s1 (hbody j s s2 hP hb) h
      rwa [show j + (n + 1) = j + 1 + n by omega]
    | thrown err s2 => rw [hb] at h; simp at h
    | hang => rw [hb] at h; simp at h

/-- A property of the state at a `throw` of the scan loop, from the iterations. -/
theorem scanLoop_thrown_inv (P : Nat → RState → Prop) (Q : Fatal → RState → Prop)
    (hbody : ∀ j s s1, P j s → scanBody C fuel j s = .done s1 → P (j + 1) s1)
    (hthrow : ∀ j s err s1, P j s → scanBody C fuel j s = .thrown err s1 → Q err s1) :
    ∀ n j s err s1, P j s → scanLoop C fuel n j s = .thrown err s1 → Q err s1 := by
  intro n
  induction n with
  | zero => intro j s err s1 _ h; simp [scanLoop] at h
  | succ n ih =>
    intro j s err s1 hP h
    rw [scanLoop] at h
    cases hb : scanBody C fuel j s with
    | done s2 => rw [hb] at h; exact ih (j + 1) s2 err s1 (hbody j s s2 hP hb) h
    | thrown err2 s2 =>
      rw [hb] at h
      simp at h
      obtain ⟨h1, h2⟩ := h
      subst h1 h2
      exact hthrow j s _ _ hP hb
    | hang => rw [hb] at h; simp at h


/-- A property kept by every scan that ends normally holds when the `while`
loop ends normally; the last scan made no progress. -/
theorem passes_done_inv (numeqs : Nat) (I : RState → Prop)
    (hscan : ∀ s s1, I s →
      scanLoop C fuel (numeqs - s.numsolved) s.numsolved s = .done s1 → I s1) :
    ∀ p s s1, I s → passes C fuel numeqs p s = .done s1 →
      I s1 ∧ ∃ s0, I s0 ∧ s0.numsolved = s1.numsolved ∧
        scanLoop C fuel (numeqs - s0.numsolved) s0.numsolved s0 = .done s1 := by
  intro p
  induction p with
  | zero => intro s s1 _ h; simp [passes] at h
  | succ p ih =>
    intro s s1 hI h
    rw [passes] at h
    cases hsc : scanLoop C fuel (numeqs - s.numsolved) s.numsolved s with
    | done s2 =>
      rw [hsc] at h
      simp only at h
      by_cases hprog : s.numsolved = s2.numsolved
      · simp [hprog] at h
        subst h
        exact ⟨hscan s s2 hI hsc, s, hI, hprog, hsc⟩
      · simp [hprog] at h
        exact ih s2 s1 (hscan s s2 hI hsc) h
    | thrown err s2 => rw [hsc] at h; simp at h
    | hang => rw [hsc] at h; simp at h

/-- A property of the state at a `throw` of the `while` loop, from the scans. -/
theorem passes_thrown_inv (numeqs : Nat) (I : RState → Prop) (Q : Fatal → RState → Prop)
    (hscan : ∀ s s1, I s →
      scanLoop C fuel (numeqs - s.numsolved) s.numsolved s = .done s1 → I s1)
    (hthrow : ∀ s err s1, I s →
      scanLoop C fuel (numeqs - s.numsolved) s.numsolved s = .thrown err s1 → Q err s1) :
    ∀ p s err s1, I s → passes C fuel numeqs p s = .thrown err s1 → Q err s1 := by
  intro p
  induction p with
  | zero => intro s err s1 _ h; simp [passes] at h
  | succ p ih =>
    intro s err s1 hI h
    rw [passes] at h
    cases hsc : scanLoop C fuel (numeqs - s.numsolved) s.numsolved s with
    | done s2 =>
      rw [hsc] at h
      simp only at h
      by_cases hprog : s.numsolved = s2.numsolved
      · simp [hprog] at h
      · simp [hprog] at h
        exact ih s2 err s1 (hscan s s2 hI hsc) h
    | thrown err2 s2 =>
      rw [hsc] at h
      simp at h
      obtain ⟨h1, h2⟩ := h
      subst h1 h2
      exact hthrow s _ _ hI hsc
    | hang => rw [hsc] at h; simp at h

/-! ## The substitution loop -/

/-- An outcome of the substitution loop other than `hang` keeps the length of
the list and the slots below `q`. -/
theorem substLoop_frame (ns : Nat) :
    ∀ n q eqn,
      (∀ eqn1, substLoop C fuel ns n q eqn = .done eqn1 →
        eqn1.length = eqn.length ∧ ∀ i, i < q → eqn1[i]? = eqn[i]?) ∧
      (∀ err eqn1, substLoop C fuel ns n q eqn = .thrown err eqn1 →
        eqn1.length = eqn.length ∧ ∀ i, i < q → eqn1[i]? = eqn[i]?) := by
  intro n
  induction n with
  | zero =>
    intro q eqn
    constructor
    · intro eqn1 h; simp [substLoop] at h; subst h; simp
    · intro err eqn1 h; simp [substLoop] at h
  | succ n ih =>
    intro q eqn
    rw [substLoop]
    cases hq : eqn[q]? with
    | none => simp
    | some e =>
      cases ha : eqn[ns - 1]? with
      | none => simp
      | some assign =>
        simp only
        cases hst : substStep C fuel assign e with
        | done e1 =>
          simp only
          obtain ⟨ih1, ih2⟩ := ih (q + 1) (eqn.set q e1)
          constructor
          · intro eqn1 h
            obtain ⟨hlen, hpre⟩ := ih1 eqn1 h
            refine ⟨by simpa using hlen, fun i hi => ?_⟩
            rw [hpre i (by omega), List.getElem?_set_ne (by omega)]
          · intro err eqn1 h
            obtain ⟨hlen, hpre⟩ := ih2 err eqn1 h
            refine ⟨by simpa using hlen, fun i hi => ?_⟩
            rw [hpre i (by omega), List.getElem?_set_ne (by omega)]
        | thrown err e1 =>
          simp only
          constructor
          · intro eqn1 h; simp at h
          · intro err1 eqn1 h
            simp at h
            obtain ⟨_, h2⟩ := h
            subst h2
            exact ⟨rfl, fun i _ => rfl⟩
        | hang => simp

/-- When the substitution loop ends normally, every slot from `q` on holds the
result of `substStep` on what it held before. -/
theorem substLoop_done (ns : Nat) :
    ∀ n q eqn assign eqn1, eqn[ns - 1]? = some assign → ns - 1 < q →
      substLoop C fuel ns n q eqn = .done eqn1 →
      (∀ i e, q ≤ i → i < q + n → eqn[i]? = some e →
        ∃ e1, eqn1[i]? = some e1 ∧ substStep C fuel assign e = .done e1) ∧
      (∀ i, q + n ≤ i → eqn1[i]? = eqn[i]?) := by
  intro n
  induction n with
  | zero =>
    intro q eqn assign eqn1 _ _ h
    simp [substLoop] at h
    subst h
    exact ⟨fun i e h1 h2 => by omega, fun i _ => rfl⟩
  | succ n ih =>
    intro q eqn assign eqn1 ha hq h
    rw [substLoop] at h
    cases hqe : eqn[q]? with
    | none =>
      rw [hqe] at h
      simp at h
      subst h
      refine ⟨fun i e h1 _ he => ?_, fun i _ => rfl⟩
      have hlen : eqn.length ≤ q := by simpa using hqe
      have : eqn[i]? = none := by simp; omega
      rw [this] at he
      cases he
    | some e0 =>
      rw [hqe, ha] at h
      simp only at h
      cases hst : substStep C fuel assign e0 with
      | done e1 =>
        rw [hst] at h
        simp only at h
        have ha1 : (eqn.set q e1)[ns - 1]? = some assign := by
          rw [List.getElem?_set_ne (by omega)]; exact ha
        obtain ⟨ih1, ih2⟩ := ih (q + 1) (eqn.set q e1) assign eqn1 ha1 (by omega) h
        have hfr := ((substLoop_frame C fuel ns n (q + 1) (eqn.set q e1)).1 eqn1 h).2
        constructor
        · intro i e hi1 hi2 hie
          by_cases hiq : i = q
          · subst hiq
            rw [hqe] at hie
            cases hie
            refine ⟨e1, ?_, hst⟩
            rw [hfr i (by omega)]
            have hlt : i < eqn.length := by
              rcases Nat.lt_or_ge i eqn.length with h | h
              · exact h
              · have : eqn[i]? = none := by simp; omega
                rw [this] at hqe; cases hqe
            simp [hlt]
          · have := ih1 i e (by omega) (by omega)
              (by rw [List.getElem?_set_ne (by omega)]; exact hie)
            exact this
        · intro i hi
          rw [ih2 i (by omega), List.getElem?_set_ne (by omega)]
      | thrown err e1 => rw [hst] at h; simp at h
      | hang => rw [hst] at h; simp at h


/-! ## The solved region -/

theorem take_congr_getElem? {α : Type} {l l1 : List α} {n : Nat}
    (h : ∀ i, i < n → l1[i]? = l[i]?) : l1.take n = l.take n := by
  apply List.ext_getElem?
  intro i
  simp only [List.getElem?_take]
  split
  · exact h i (by assumption)
  · rfl

theorem swapped_length (s : RState) (j : Nat) :
    (swapped s j).length = s.eqn.length := by
  unfold swapped
  split
  · split <;> simp
  · rfl

theorem swapped_getElem?_ne (s : RState) (j : Nat) {i : Nat} (h : i ≠ j) :
    (swapped s j)[i]? = s.eqn[i]? := by
  unfold swapped
  split
  · split
    · rw [List.getElem?_set_ne (by omega)]
    · rfl
  · rfl

theorem swapped_getElem?_self (s : RState) (j : Nat)
    (hne : j ≠ s.numsolved) (hj : j < s.eqn.length) (hns : s.numsolved < s.eqn.length) :
    (swapped s j)[j]? = s.eqn[s.numsolved]? := by
  unfold swapped
  rw [if_pos hne]
  have : s.eqn[s.numsolved]? = some (s.eqn[s.numsolved]) := List.getElem?_eq_getElem hns
  rw [this]
  simp [hj]

theorem Core.set_pending {numeqs : Nat} {vars0 : List Nat} {soleqs0 : List expr} {s : RState}
    (h : Core C numeqs vars0 soleqs0 s) {j : Nat} (hj : s.numsolved ≤ j) (e : expr) :
    Core C numeqs vars0 soleqs0 { s with eqn := s.eqn.set j e } := by
  have ht : (s.eqn.set j e).take s.numsolved = s.eqn.take s.numsolved :=
    take_congr_getElem? fun i hi => List.getElem?_set_ne (by omega)
  exact ⟨by simpa using h.len, h.le, h.vars, by simpa [ht] using h.sol, by simpa [ht] using h.out⟩

theorem Core.of_swapped {numeqs : Nat} {vars0 : List Nat} {soleqs0 : List expr} {s : RState}
    (h : Core C numeqs vars0 soleqs0 s) {j : Nat} (hj : s.numsolved ≤ j) :
    Core C numeqs vars0 soleqs0 { s with eqn := swapped s j } := by
  have ht : (swapped s j).take s.numsolved = s.eqn.take s.numsolved := by
    apply take_congr_getElem?
    intro i hi
    by_cases hij : i = j
    · omega
    · exact swapped_getElem?_ne s j hij
  exact ⟨by simpa [swapped_length] using h.len, h.le, h.vars, by simpa [ht] using h.sol,
    by simpa [ht] using h.out⟩

/-- The solved region after a successful solve at `j` and any outcome of the
substitution loop that keeps the slots below `numsolved + 1`. -/
theorem Core.solve {numeqs : Nat} {vars0 : List Nat} {soleqs0 : List expr} {s : RState}
    (h : Core C numeqs vars0 soleqs0 s) {j : Nat} (hj : s.numsolved ≤ j)
    (hjlt : j < s.eqn.length) {e1 e2 : expr} (hs : C.solveknownvar e1 = (true, e2))
    (hb : e2.etype = .binop) {eqn3 : List expr}
    (hlen : eqn3.length = ((swapped s j).set s.numsolved e2).length)
    (hpre : ∀ i, i < s.numsolved + 1 →
      eqn3[i]? = ((swapped s j).set s.numsolved e2)[i]?) :
    Core C numeqs vars0 soleqs0
      { s with eqn := eqn3, soleqs := s.soleqs ++ [copyexpr e2],
               numsolved := s.numsolved + 1 } := by
  have hl := h.len
  have ht : eqn3.take (s.numsolved + 1) = s.eqn.take s.numsolved ++ [e2] := by
    apply List.ext_getElem?
    intro i
    rw [List.getElem?_take]
    split
    · rename_i hi
      rw [hpre i hi]
      by_cases hin : i = s.numsolved
      · subst hin
        have hmin : min s.numsolved s.eqn.length = s.numsolved := by omega
        rw [List.getElem?_set_self (by rw [swapped_length]; omega)]
        rw [List.getElem?_append_right (by rw [List.length_take, hmin])]
        simp [List.length_take, hmin]
      · rw [List.getElem?_set_ne (by omega), swapped_getElem?_ne s j (by omega)]
        rw [List.getElem?_append_left (by simp; omega)]
        rw [List.getElem?_take_of_lt (by omega)]
    · rename_i hi
      symm
      simp
      omega
  refine ⟨?_, ?_, h.vars, ?_, ?_⟩
  · simp only [hlen, List.length_set, swapped_length]; exact hl
  · show s.numsolved + 1 ≤ numeqs
    omega
  · show s.soleqs ++ [copyexpr e2] = soleqs0 ++ eqn3.take (s.numsolved + 1)
    rw [ht, h.sol, copyexpr, List.append_assoc]
  · show ∀ e ∈ eqn3.take (s.numsolved + 1), _
    rw [ht]
    intro e he
    rcases List.mem_append.1 he with he | he
    · exact h.out e he
    · simp at he
      subst he
      exact ⟨hb, e1, hs⟩

/-- Every iteration of the scan loop that ends normally keeps `Core`, and the
solved count stays at most the next index. -/
theorem scanBody_core {numeqs : Nat} {vars0 : List Nat} {soleqs0 : List expr}
    {j : Nat} {s s1 : RState}
    (h : Core C numeqs vars0 soleqs0 s ∧ s.numsolved ≤ j)
    (hb : scanBody C fuel j s = .done s1) :
    Core C numeqs vars0 soleqs0 s1 ∧ s1.numsolved ≤ j + 1 := by
  obtain ⟨hc, hj⟩ := h
  have hcase := scanBody_case C fuel j s
  rw [hb] at hcase
  generalize hgen : Outcome.done s1 = o at hcase
  cases hcase with
  | none h0 => cases hgen; exact ⟨hc, by omega⟩
  | dimenchk e0 bad h0 hd => cases hgen
  | skip e0 h0 hd hl => cases hgen; exact ⟨hc.set_pending C hj _, by show s.numsolved ≤ j + 1; omega⟩
  | decline e0 e2 h0 hd hl hs =>
    cases hgen; exact ⟨hc.set_pending C hj _, by show s.numsolved ≤ j + 1; omega⟩
  | nonbinop e0 e2 h0 hd hl hs hb2 => cases hgen
  | solve e0 e2 h0 hd hl hs hb2 =>
    obtain ⟨eqn3, hsub, hst⟩ := Outcome.map_eq_done hgen.symm
    subst hst
    have hjlt : j < s.eqn.length := by
      rcases Nat.lt_or_ge j s.eqn.length with h | h
      · exact h
      · have : s.eqn[j]? = none := by simp; omega
        rw [this] at h0; cases h0
    obtain ⟨hlen, hpre⟩ := (substLoop_frame C fuel _ _ _ _).1 eqn3 hsub
    exact ⟨hc.solve C hj hjlt hs hb2 hlen hpre, by show s.numsolved + 1 ≤ j + 1; omega⟩


theorem scanLoop_core {numeqs : Nat} {vars0 : List Nat} {soleqs0 : List expr}
    {n j : Nat} {s s1 : RState}
    (h : Core C numeqs vars0 soleqs0 s ∧ s.numsolved ≤ j)
    (hb : scanLoop C fuel n j s = .done s1) :
    Core C numeqs vars0 soleqs0 s1 ∧ s1.numsolved ≤ j + n :=
  scanLoop_done_inv C fuel (fun j s => Core C numeqs vars0 soleqs0 s ∧ s.numsolved ≤ j)
    (fun _ _ _ hP hbody => scanBody_core C fuel hP hbody) n j s s1 h hb

theorem passes_core {numeqs : Nat} {vars0 : List Nat} {soleqs0 : List expr}
    {p : Nat} {s s1 : RState} (h : Core C numeqs vars0 soleqs0 s)
    (hb : passes C fuel numeqs p s = .done s1) : Core C numeqs vars0 soleqs0 s1 :=
  (passes_done_inv C fuel numeqs (Core C numeqs vars0 soleqs0)
    (fun _ _ hI hsc => (scanLoop_core C fuel ⟨hI, Nat.le_refl _⟩ hsc).1) p s s1 h hb).1

theorem core_init (eqn : List expr) (vars : List Nat) (soleqs : List expr) :
    Core C eqn.length vars soleqs
      { eqn := eqn, vars := vars, soleqs := soleqs, numsolved := 0 } :=
  ⟨rfl, Nat.zero_le _, rfl, by simp, by simp⟩

/-- A normal return of `recassign` comes from a normal end of the `while` loop
followed by a normal end of the cleanup. -/
theorem recassign_done {eqn : List expr} {vars : List Nat} {soleqs : List expr} {s : RState}
    (h : recassign C fuel eqn vars soleqs = .done s) :
    ∃ s1, passes C fuel eqn.length fuel
        { eqn := eqn, vars := vars, soleqs := soleqs, numsolved := 0 } = .done s1 ∧
      cleanup C fuel s1 = .done s := by
  unfold recassign at h
  simp only at h
  split at h
  · exact ⟨_, by assumption, h⟩
  · cases h
  · cases h

theorem cleanup_done {s s2 : RState} (h : cleanup C fuel s = .done s2) :
    ∃ eqn1, discardLoop C fuel s.numsolved s.eqn = .done eqn1 ∧
      s2 = { s with
        eqn := popLoop s.numsolved (shiftLoop s.numsolved (eqn1.length - s.numsolved) 0 eqn1),
        vars := removeSolvedVars eqn1 s.numsolved 0 s.vars } := by
  unfold cleanup at h
  split at h
  · cases h
  · cases h
  · simp only [Outcome.done.injEq] at h
    exact ⟨_, by assumption, h.symm⟩

/-- What `recassign` has appended to `soleqs` on a normal return: `binopexp`
trees that `solveknownvar` returned with `true`. -/
theorem recassign_appended {eqn : List expr} {vars : List Nat} {soleqs : List expr}
    {s : RState} (h : recassign C fuel eqn vars soleqs = .done s) :
    ∃ new, s.soleqs = soleqs ++ new ∧
      ∀ e ∈ new, e.etype = .binop ∧ ∃ e1, C.solveknownvar e1 = (true, e) := by
  obtain ⟨s1, hp, hc⟩ := recassign_done C fuel h
  have hcore := passes_core C fuel (core_init C eqn vars soleqs) hp
  obtain ⟨eqn1, _, hs⟩ := cleanup_done C fuel hc
  subst hs
  exact ⟨_, hcore.sol, hcore.out⟩

theorem isAssign_iff (e : expr) :
    e.isAssign = true ↔ ∃ op v d rhs d1,
      e = .binopexp op (.physvarptr v d) rhs d1 ∧ op.opty = .equalse ∧ v ∉ rhs.physvars := by
  constructor
  · intro h
    cases e with
    | binopexp op l rhs d1 =>
      cases l with
      | physvarptr v d =>
        simp [expr.isAssign] at h
        exact ⟨op, v, d, rhs, d1, rfl, h.1, h.2⟩
      | _ => simp [expr.isAssign] at h
    | _ => simp [expr.isAssign] at h
  · rintro ⟨op, v, d, rhs, d1, rfl, h1, h2⟩
    simp [expr.isAssign, h1, h2]

end Loops

theorem Demo.solveknownvar_isAssign (e e1 : expr)
    (h : Demo.C.solveknownvar e = (true, e1)) : e1.isAssign = true := by
  simp only [Demo.C, Demo.solveknownvar] at h
  split at h
  · split at h
    · cases h
    · simp only [Prod.mk.injEq, true_and] at h
      subst h
      simp [expr.isAssign, Demo.eqop, expr.physvars]
  · cases h

/-- C1 (as stated) fails: `recassign` does not look at what a successful solve
leaves beyond its `etype` (line 91).  With a solve step that leaves `x = x - 3`
the call returns normally and has appended that equation, whose left-hand
variable occurs in its right side. -/
theorem recassign_appends_unsolved_counterexample :
    recassign (Demo.withSolve Demo.solveSelf) 5 [Demo.eqX] [0] [] =
      .done ⟨[], [], [Demo.eq Demo.X (Demo.minus Demo.X (Demo.num 3))], 1⟩ ∧
    (Demo.withSolve Demo.solveSelf).solveknownvar
        ((Demo.withSolve Demo.solveSelf).eqnumsimp Demo.eqX) =
      (true, .binopexp Demo.eqop (.physvarptr 0 Demo.nodim)
        (Demo.minus Demo.X (Demo.num 3)) Demo.nodim) ∧
    0 ∈ (Demo.minus Demo.X (Demo.num 3)).physvars ∧
    (Demo.eq Demo.X (Demo.minus Demo.X (Demo.num 3))).isAssign = false :=
  ⟨by with_unfolding_all rfl, rfl, by simp [Demo.minus, Demo.X, Demo.num, expr.physvars],
    by with_unfolding_all rfl⟩

/-- C1 (amended). On a normal return of `recassign`, the final `soleqs` is the
initial one followed by appended equations; every appended equation is a
`binopexp` tree that `solveknownvar` returned with success, appended as it was
returned; so the appended equations are equalities whose left side is a
variable reference absent from the right side whenever the solve step leaves
such a tree on success, which `recassign` itself does not check. -/
theorem recassign_solutions_solved (C : Collab) (fuel : Nat) (eqn : List expr)
    (vars : List Nat) (soleqs : List expr) (s : RState)
    (h : recassign C fuel eqn vars soleqs = .done s) :
    ∃ new, s.soleqs = soleqs ++ new ∧
      (∀ e ∈ new, e.etype = .binop ∧ ∃ e1, C.solveknownvar e1 = (true, e)) ∧
      ((∀ e e1, C.solveknownvar e = (true, e1) → e1.isAssign = true) →
        ∀ e ∈ new, ∃ op v d rhs d1,
          e = .binopexp op (.physvarptr v d) rhs d1 ∧ op.opty = .equalse ∧
            v ∉ rhs.physvars) := by
  obtain ⟨new, h1, h2⟩ := recassign_appended C fuel h
  refine ⟨new, h1, h2, fun hsolve e he => ?_⟩
  obtain ⟨_, e1, hs⟩ := h2 e he
  exact (isAssign_iff e).1 (hsolve e1 e hs)

/-- C1 (amended) at a concrete input: the system `x - 3 = 0`, `y - (x + 2) = 0`
with the instance `Demo.C`, whose solve step leaves solved equations; the call
returns `soleqs = [x = 3, y = 5]`. -/
theorem recassign_solutions_solved_witness :
    ∃ new, [Demo.eq Demo.X (Demo.num 3), Demo.eq Demo.Y (Demo.num 5)] = [] ++ new ∧
      (∀ e ∈ new, e.etype = .binop ∧ ∃ e1, Demo.C.solveknownvar e1 = (true, e)) ∧
      ∀ e ∈ new, ∃ op v d rhs d1,
        e = .binopexp op (.physvarptr v d) rhs d1 ∧ op.opty = .equalse ∧ v ∉ rhs.physvars :=
  (recassign_solutions_solved Demo.C 5 Demo.sys1 [0, 1] []
    ⟨[], [], [Demo.eq Demo.X (Demo.num 3), Demo.eq Demo.Y (Demo.num 5)], 2⟩
    (by with_unfolding_all rfl)).imp
    fun _ hn => ⟨hn.1, hn.2.1, hn.2.2 Demo.solveknownvar_isAssign⟩


/-! ## Removing the solved variables -/

theorem eq_nil_or_snoc {α : Type} (B : List α) : B = [] ∨ ∃ B1 l, B = B1 ++ [l] := by
  rcases List.eq_nil_or_concat B with h | ⟨B1, l, h⟩
  · exact Or.inl h
  · exact Or.inr ⟨B1, l, by simpa using h⟩

/-- The inner loop finds the first occurrence of `v` and overwrites it with
the last element before dropping the last slot. -/
theorem removeVar_found (v : Nat) (A B : List Nat) (hA : v ∉ A) :
    ∀ n q, q ≤ A.length → A.length < q + n →
      removeVar v n q (A ++ v :: B) =
        match B.getLast? with
        | none => A
        | some l => A ++ l :: B.dropLast := by
  intro n
  induction n with
  | zero => intro q h1 h2; omega
  | succ n ih =>
    intro q h1 h2
    rw [removeVar]
    by_cases hq : q = A.length
    · subst hq
      have hget : (A ++ v :: B)[A.length]? = some v := by
        rw [List.getElem?_append_right (Nat.le_refl _)]; simp
      rw [hget]
      rcases eq_nil_or_snoc B with hB | ⟨B1, l, hB⟩
      · subst hB
        simp
      · subst hB
        have hlast : (A ++ v :: (B1 ++ [l])).getLast? = some l := by
          rw [show A ++ v :: (B1 ++ [l]) = (A ++ v :: B1) ++ [l] by simp]
          exact List.getLast?_concat _
        rw [hlast]
        simp only [if_true]
        have hl2 : (B1 ++ [l]).getLast? = some l := List.getLast?_concat _
        rw [hl2]
        simp only [List.dropLast_concat]
        rw [List.set_append_right _ _ (Nat.le_refl _)]
        simp only [Nat.sub_self, List.set_cons_zero]
        rw [show A ++ l :: (B1 ++ [l]) = (A ++ l :: B1) ++ [l] by simp]
        rw [List.dropLast_concat]
    · have hlt : q < A.length := by omega
      have hget : (A ++ v :: B)[q]? = some A[q] := by
        rw [List.getElem?_append_left hlt]; exact List.getElem?_eq_getElem hlt
      rw [hget]
      have hne : v ≠ A[q] := fun h => hA (h ▸ List.getElem_mem hlt)
      cases hlast : (A ++ v :: B).getLast? with
      | none => simp at hlast
      | some lastvar =>
        simp only [if_neg hne]
        exact ih (q + 1) (by omega) (by omega)

theorem removeVar_absent (v : Nat) (vars : List Nat) (h : v ∉ vars) :
    ∀ n q, removeVar v n q vars = vars := by
  intro n
  induction n with
  | zero => intro q; rfl
  | succ n ih =>
    intro q
    rw [removeVar]
    split
    · rename_i w lastvar hw _
      have hmem : w ∈ vars := List.getElem?_mem hw
      have hne : v ≠ w := fun hvw => h (hvw ▸ hmem)
      simp only [if_neg hne]
      exact ih (q + 1)
    · rfl

/-- On a list without repetition, the inner loop removes `v` and nothing else. -/
theorem removeVar_mem (v : Nat) (vars : List Nat) (hnd : vars.Nodup) :
    (removeVar v vars.length 0 vars).Nodup ∧
      ∀ w, w ∈ removeVar v vars.length 0 vars ↔ w ∈ vars ∧ w ≠ v := by
  by_cases hv : v ∈ vars
  · obtain ⟨A, B, hAB, hA⟩ := List.eq_append_cons_of_mem hv
    subst hAB
    rw [removeVar_found v A B hA _ 0 (Nat.zero_le _) (by simp)]
    have hndA : A.Nodup := (List.nodup_append.1 hnd).1
    have hndB : (v :: B).Nodup := (List.nodup_append.1 hnd).2.1
    have hdis := (List.nodup_append.1 hnd).2.2
    have hvB : v ∉ B := (List.nodup_cons.1 hndB).1
    rcases eq_nil_or_snoc B with hB | ⟨B1, l, hB⟩
    · subst hB
      simp only [List.getLast?_nil]
      refine ⟨hndA, fun w => ?_⟩
      constructor
      · intro hw; exact ⟨by simp [hw], fun h => hA (h ▸ hw)⟩
      · rintro ⟨hw, hne⟩
        simp at hw
        rcases hw with hw | hw
        · exact hw
        · exact absurd hw hne
    · subst hB
      have hl2 : (B1 ++ [l]).getLast? = some l := List.getLast?_concat _
      rw [hl2]
      simp only [List.dropLast_concat]
      have hperm : List.Perm (A ++ l :: B1) (A ++ (B1 ++ [l])) := by
        apply List.Perm.append_left
        exact (List.perm_append_singleton l B1).symm
      have hnd2 : (A ++ (B1 ++ [l])).Nodup := by
        rw [List.nodup_append]
        refine ⟨hndA, (List.nodup_cons.1 hndB).2, ?_⟩
        intro a ha hb
        exact hdis ha (List.mem_cons_of_mem _ hb)
      refine ⟨hperm.nodup_iff.2 hnd2, fun w => ?_⟩
      rw [hperm.mem_iff]
      constructor
      · intro hw
        rcases List.mem_append.1 hw with hw | hw
        · exact ⟨by simp [hw], fun h => hA (h ▸ hw)⟩
        · exact ⟨by simp only [List.mem_append, List.mem_cons]; right; right
                    simpa using hw, fun h => hvB (h ▸ hw)⟩
      · rintro ⟨hw, hne⟩
        rcases List.mem_append.1 hw with hw | hw
        · exact List.mem_append_left _ hw
        · rcases List.mem_cons.1 hw with hw | hw
          · exact absurd hw hne
          · exact List.mem_append_right _ hw
  · rw [removeVar_absent v vars hv]
    exact ⟨hnd, fun w => ⟨fun hw => ⟨hw, fun h => hv (h ▸ hw)⟩, fun hw => hw.1⟩⟩

/-- The loop over the solved region removes from a list without repetition
exactly the left-hand variables of `eqn[k .. k+n)`. -/
theorem removeSolvedVars_mem (eqn : List expr) :
    ∀ n k vars, vars.Nodup →
      (removeSolvedVars eqn n k vars).Nodup ∧
      ∀ w, w ∈ removeSolvedVars eqn n k vars ↔
        w ∈ vars ∧ w ∉ ((eqn.drop k).take n).filterMap expr.lhsvar? := by
  intro n
  induction n with
  | zero => intro k vars hnd; simp [removeSolvedVars, hnd]
  | succ n ih =>
    intro k vars hnd
    rw [removeSolvedVars]
    have hdrop : (eqn.drop k).take (n + 1) = (eqn[k]?).toList ++ (eqn.drop (k + 1)).take n := by
      cases hk : eqn[k]? with
      | none =>
        have : eqn.length ≤ k := by simpa using hk
        simp [List.drop_eq_nil_of_le this, List.drop_eq_nil_of_le (Nat.le_succ_of_le this)]
      | some e =>
        have hlt : k < eqn.length := by
          rcases Nat.lt_or_ge k eqn.length with h | h
          · exact h
          · have : eqn[k]? = none := by simp; omega
            rw [this] at hk; cases hk
        rw [List.drop_eq_getElem_cons hlt]
        have : eqn[k] = e := by
          have := List.getElem?_eq_getElem hlt
          rw [hk] at this; exact (Option.some.inj this).symm
        simp [this]
    rw [hdrop]
    cases hk : eqn[k]? with
    | none =>
      simp only [Option.bind_none, Option.none_bind, Option.toList_none, List.nil_append]
      exact ih (k + 1) vars hnd
    | some e =>
      simp only [Option.some_bind, Option.toList_some, List.singleton_append]
      have hl : (e.lhs?.bind expr.varindex?) = e.lhsvar? := rfl
      rw [hl, List.filterMap_cons]
      cases hv : e.lhsvar? with
      | none => simp only; exact ih (k + 1) vars hnd
      | some v =>
        simp only
        obtain ⟨hnd1, hmem1⟩ := removeVar_mem v vars hnd
        obtain ⟨hnd2, hmem2⟩ := ih (k + 1) _ hnd1
        refine ⟨hnd2, fun w => ?_⟩
        rw [hmem2 w, hmem1 w]
        simp only [List.mem_cons, not_or]
        tauto


/-! ## Variables of the pending and of the solved equations -/

section Vars
variable (C : Collab) (fuel : Nat)

theorem getElem?_lt {α : Type} {l : List α} {i : Nat} {a : α} (h : l[i]? = some a) :
    i < l.length := by
  rcases Nat.lt_or_ge i l.length with h1 | h1
  · exact h1
  · have : l[i]? = none := by simp; omega
    rw [this] at h; cases h

theorem flattenLoop_vars (hC : VarContract C) :
    ∀ f e e1, flattenLoop C f e = some e1 → ∀ w ∈ e1.physvars, w ∈ e.physvars := by
  intro f
  induction f with
  | zero => intro e e1 h; simp [flattenLoop] at h
  | succ f ih =>
    intro e e1 h w hw
    rw [flattenLoop] at h
    have hfl := hC.flatten_vars e
    rcases hfe : C.flatten e with ⟨b, e2⟩
    rw [hfe] at h hfl
    cases b with
    | true => exact hfl w (ih e2 e1 h w hw)
    | false =>
      simp only [Option.some.injEq] at h
      subst h
      exact hfl w hw

theorem substStep_vars (hC : VarContract C) {op : oper} {v : Nat} {d : dimens} {rhs : expr}
    {d1 : dimens} {e e1 : expr}
    (h : substStep C fuel (.binopexp op (.physvarptr v d) rhs d1) e = .done e1) :
    ∀ w ∈ e1.physvars, (w ∈ e.physvars ∧ w ≠ v) ∨ w ∈ rhs.physvars := by
  intro w hw
  unfold substStep at h
  have hsub := hC.substin_vars e op v d rhs d1
  rcases hse : C.substin e (.binopexp op (.physvarptr v d) rhs d1) with ⟨b, e2⟩
  rw [hse] at h hsub
  cases b with
  | true =>
    simp only at h
    cases hfl : flattenLoop C fuel (C.eqnumsimp e2) with
    | none => rw [hfl] at h; cases h
    | some e3 =>
      rw [hfl] at h
      simp only at h
      split at h
      · cases h
      · simp only [Outcome.done.injEq] at h
        subst h
        exact hsub w (hC.eqnumsimp_vars e2 w (flattenLoop_vars C hC _ _ _ hfl w hw))
  | false =>
    simp only [Outcome.done.injEq] at h
    subst h
    exact hsub w hw

theorem VarInv.set_pending_vars {vars0 : List Nat} {s : RState} (h : VarInv vars0 s)
    {j : Nat} (hj : s.numsolved ≤ j) {e0 e : expr} (h0 : s.eqn[j]? = some e0)
    (he : ∀ w ∈ e.physvars, w ∈ e0.physvars) :
    VarInv vars0 { s with eqn := s.eqn.set j e } := by
  have ht : (s.eqn.set j e).take s.numsolved = s.eqn.take s.numsolved :=
    take_congr_getElem? fun i hi => List.getElem?_set_ne (by omega)
  have hsv : solvedVars { s with eqn := s.eqn.set j e } = solvedVars s := by
    simp only [solvedVars, ht]
  refine ⟨by rw [hsv]; exact h.sub, by rw [hsv]; exact h.nodup, ?_⟩
  intro i x hi hx w hw
  rw [hsv]
  by_cases hij : i = j
  · subst hij
    have hlt := getElem?_lt h0
    have hx' : (s.eqn.set i e)[i]? = some x := hx
    rw [List.getElem?_set_self hlt] at hx'
    cases hx'
    exact h.pend i e0 hj h0 w (he w hw)
  · have hx' : (s.eqn.set j e)[i]? = some x := hx
    rw [List.getElem?_set_ne (by omega)] at hx'
    exact h.pend i x hi hx' w hw

/-- The solved region after a successful solve at `j`. -/
theorem solve_take {s : RState} {j : Nat} (hj : s.numsolved ≤ j)
    (hjlt : j < s.eqn.length) {e2 : expr} {eqn3 : List expr}
    (hpre : ∀ i, i < s.numsolved + 1 →
      eqn3[i]? = ((swapped s j).set s.numsolved e2)[i]?) :
    eqn3.take (s.numsolved + 1) = s.eqn.take s.numsolved ++ [e2] := by
  apply List.ext_getElem?
  intro i
  rw [List.getElem?_take]
  split
  · rename_i hi
    rw [hpre i hi]
    by_cases hin : i = s.numsolved
    · subst hin
      have hmin : min s.numsolved s.eqn.length = s.numsolved := by omega
      rw [List.getElem?_set_self (by rw [swapped_length]; omega)]
      rw [List.getElem?_append_right (by rw [List.length_take, hmin])]
      simp [List.length_take, hmin]
    · rw [List.getElem?_set_ne (by omega), swapped_getElem?_ne s j (by omega)]
      rw [List.getElem?_append_left (by simp; omega)]
      rw [List.getElem?_take_of_lt (by omega)]
  · rename_i hi
    symm
    simp
    omega

theorem scanBody_varInv (hC : VarContract C) {vars0 : List Nat} {j : Nat} {s s1 : RState}
    (h : VarInv vars0 s ∧ s.numsolved ≤ j)
    (hb : scanBody C fuel j s = .done s1) :
    VarInv vars0 s1 ∧ s1.numsolved ≤ j + 1 := by
  obtain ⟨hv, hj⟩ := h
  have hcase := scanBody_case C fuel j s
  rw [hb] at hcase
  generalize hgen : Outcome.done s1 = o at hcase
  cases hcase with
  | none h0 => cases hgen; exact ⟨hv, by omega⟩
  | dimenchk e0 bad h0 hd => cases hgen
  | skip e0 h0 hd hl =>
    cases hgen
    exact ⟨hv.set_pending_vars hj h0 (hC.eqnumsimp_vars e0), by show s.numsolved ≤ j + 1; omega⟩
  | decline e0 e2 h0 hd hl hs =>
    cases hgen
    refine ⟨hv.set_pending_vars hj h0 fun w hw => ?_, by show s.numsolved ≤ j + 1; omega⟩
    exact hC.eqnumsimp_vars e0 w (hC.decline_vars _ _ hs w hw)
  | nonbinop e0 e2 h0 hd hl hs hb2 => cases hgen
  | solve e0 e2 h0 hd hl hs hb2 =>
    obtain ⟨eqn3, hsub, hst⟩ := Outcome.map_eq_done hgen.symm
    subst hst
    have hjlt : j < s.eqn.length := getElem?_lt h0
    obtain ⟨hlen, hpre⟩ := (substLoop_frame C fuel _ _ _ _).1 eqn3 hsub
    have ht := solve_take hj hjlt hpre
    obtain ⟨op, v, d, rhs, d1, he2, hvin, hrhs⟩ := hC.solve_vars _ _ hs
    have hlv : e2.lhsvar? = some v := by subst he2; rfl
    have hnew : solvedVars
        { s with eqn := eqn3, soleqs := s.soleqs ++ [copyexpr e2],
                 numsolved := s.numsolved + 1 } = solvedVars s ++ [v] := by
      simp only [solvedVars, ht, List.filterMap_append, List.filterMap_cons, hlv,
        List.filterMap_nil]
    have hv0 := hv.pend j e0 hj h0 v (hC.eqnumsimp_vars e0 v hvin)
    have hassign : ((swapped s j).set s.numsolved e2)[s.numsolved + 1 - 1]? = some e2 := by
      rw [Nat.add_sub_cancel, List.getElem?_set_self (by rw [swapped_length]; omega)]
    have hdone := substLoop_done C fuel _ _ _ _ e2 eqn3 hassign (by omega) hsub
    refine ⟨⟨?_, ?_, ?_⟩, by show s.numsolved + 1 ≤ j + 1; omega⟩
    · rw [hnew]
      intro w hw
      rcases List.mem_append.1 hw with hw | hw
      · exact hv.sub w hw
      · simp at hw; subst hw; exact hv0.1
    · rw [hnew]
      rw [List.nodup_append]
      refine ⟨hv.nodup, by simp, ?_⟩
      intro a ha hb
      simp at hb
      subst hb
      exact hv0.2 ha
    · intro i x hi hx w hw
      rw [hnew]
      have hi' : s.numsolved + 1 ≤ i := hi
      have hx' : eqn3[i]? = some x := hx
      have hilt : i < eqn3.length := getElem?_lt hx'
      rw [hlen] at hilt
      have hilt2 : i < s.eqn.length := by
        simpa [swapped_length] using hilt
      -- what slot `i` held before the substitution
      have hold : ∃ y, ((swapped s j).set s.numsolved e2)[i]? = some y ∧
          ∃ i0, s.numsolved ≤ i0 ∧ s.eqn[i0]? = some y := by
        rw [List.getElem?_set_ne (by omega)]
        by_cases hij : i = j
        · subst hij
          rw [swapped_getElem?_self s i (by omega) hilt2 (by omega)]
          exact ⟨s.eqn[s.numsolved], List.getElem?_eq_getElem (by omega), s.numsolved,
            Nat.le_refl _, List.getElem?_eq_getElem (by omega)⟩
        · rw [swapped_getElem?_ne s j hij]
          exact ⟨s.eqn[i], List.getElem?_eq_getElem hilt2, i, by omega,
            List.getElem?_eq_getElem hilt2⟩
      obtain ⟨y, hy, i0, hi0, hy0⟩ := hold
      obtain ⟨x1, hx1, hstep⟩ := hdone.1 i y hi' (by
        have : ((swapped s j).set s.numsolved e2).length = s.eqn.length := by
          simp [swapped_length]
        omega) hy
      rw [hx'] at hx1
      cases hx1
      subst he2
      have hyv := hv.pend i0 y hi0 hy0
      rcases substStep_vars C fuel hC hstep w hw with ⟨hwy, hne⟩ | hwr
      · refine ⟨(hyv w hwy).1, fun hmem => ?_⟩
        rcases List.mem_append.1 hmem with hm | hm
        · exact (hyv w hwy).2 hm
        · simp at hm; exact hne hm
      · have hw0 := hrhs w hwr
        have hwv := hv.pend j e0 hj h0 w (hC.eqnumsimp_vars e0 w hw0.1)
        refine ⟨hwv.1, fun hmem => ?_⟩
        rcases List.mem_append.1 hmem with hm | hm
        · exact hwv.2 hm
        · simp at hm; exact hw0.2 hm

theorem passes_varInv (hC : VarContract C) {numeqs : Nat} {vars0 : List Nat}
    {p : Nat} {s s1 : RState} (h : VarInv vars0 s)
    (hb : passes C fuel numeqs p s = .done s1) : VarInv vars0 s1 :=
  (passes_done_inv C fuel numeqs (VarInv vars0)
    (fun s s1 hI hsc =>
      (scanLoop_done_inv C fuel (fun j s => VarInv vars0 s ∧ s.numsolved ≤ j)
        (fun _ _ _ hP hbody => scanBody_varInv C fuel hC hP hbody)
        _ _ s s1 ⟨hI, Nat.le_refl _⟩ hsc).1) p s s1 h hb).1

end Vars


/-! ## The cleanup -/

section Cleanup
variable (C : Collab)

/-- An outcome of the discard loop other than `hang` keeps the slots below `k`. -/
theorem discardLoop_frame :
    ∀ fuel k eqn,
      (∀ eqn1, discardLoop C fuel k eqn = .done eqn1 → ∀ i, i < k → eqn1[i]? = eqn[i]?) ∧
      (∀ err eqn1, discardLoop C fuel k eqn = .thrown err eqn1 →
        ∀ i, i < k → eqn1[i]? = eqn[i]?) := by
  intro fuel
  induction fuel with
  | zero => intro k eqn; simp [discardLoop]
  | succ fuel ih =>
    intro k eqn
    rw [discardLoop]
    cases hk : eqn[k]? with
    | none => simp
    | some e0 =>
      have hklt := getElem?_lt hk
      simp only
      split
      · -- the equation has no unknowns and is dropped
        cases hlast : ((eqn.set k (C.eqnumsimp e0)).getLast?) with
        | none =>
          simp only
          constructor
          · intro eqn1 h i hi
            simp only [Outcome.done.injEq] at h
            subst h
            rw [List.getElem?_set_ne (by omega)]
          · intro err eqn1 h; cases h
        | some lastexpr =>
          simp only
          have hfr : ∀ i, i < k →
              (((eqn.set k (C.eqnumsimp e0)).set k lastexpr).dropLast)[i]? = eqn[i]? := by
            intro i hi
            rw [List.getElem?_dropLast]
            simp only [List.length_set]
            rw [if_pos (by omega), List.getElem?_set_ne (by omega),
              List.getElem?_set_ne (by omega)]
          obtain ⟨ih1, ih2⟩ := ih k (((eqn.set k (C.eqnumsimp e0)).set k lastexpr).dropLast)
          exact ⟨fun eqn1 h i hi => by rw [ih1 eqn1 h i hi, hfr i hi],
            fun err eqn1 h i hi => by rw [ih2 err eqn1 h i hi, hfr i hi]⟩
      · split
        · constructor
          · intro eqn1 h; cases h
          · intro err eqn1 h i hi
            simp only [Outcome.thrown.injEq] at h
            obtain ⟨_, h⟩ := h
            subst h
            rfl
        · obtain ⟨ih1, ih2⟩ := ih (k + 1) (eqn.set k (C.eqnumsimp e0))
          exact ⟨fun eqn1 h i hi => by
              rw [ih1 eqn1 h i (by omega), List.getElem?_set_ne (by omega)],
            fun err eqn1 h i hi => by
              rw [ih2 err eqn1 h i (by omega), List.getElem?_set_ne (by omega)]⟩

end Cleanup

/-- C2 (as stated) fails.  With `x` listed twice in `vars` the removal loop
(lines 192-201) drops one occurrence only (`break` after the first match): the
call returns normally with `x` solved and still in `vars`.  With `x` not listed
in `vars` the call solves it all the same, and the solved variable is not one
of the original `vars`. -/
theorem recassign_unknowns_partition_counterexample :
    recassign Demo.C 5 [Demo.eqX] [0, 0, 1] [] =
      .done ⟨[], [1, 0], [Demo.eq Demo.X (Demo.num 3)], 1⟩ ∧
    (0 ∈ [Demo.eq Demo.X (Demo.num 3)].filterMap expr.lhsvar? ∧ 0 ∈ [1, 0]) ∧
    recassign Demo.C 5 [Demo.eqX] [1, 2] [] =
      .done ⟨[], [1, 2], [Demo.eq Demo.X (Demo.num 3)], 1⟩ ∧
    (0 ∈ [Demo.eq Demo.X (Demo.num 3)].filterMap expr.lhsvar? ∧ 0 ∉ [1, 2]) :=
  ⟨by with_unfolding_all rfl, ⟨by with_unfolding_all decide, by decide⟩,
    by with_unfolding_all rfl, ⟨by with_unfolding_all decide, by decide⟩⟩

/-- C2 (amended). On a normal return of `recassign` called with an empty
`soleqs`, a list `vars` without repetition and equations that refer to
variables of `vars` only, and with collaborators that treat variables as their
contracts say (`VarContract`), the left-hand variables of the equations in
`soleqs` and the final `vars` together are exactly the original `vars`, and no
variable is in both. -/
theorem recassign_unknowns_partition (C : Collab) (fuel : Nat) (eqn : List expr)
    (vars : List Nat) (s : RState) (hC : VarContract C) (hnodup : vars.Nodup)
    (hvars : ∀ e ∈ eqn, ∀ w ∈ e.physvars, w ∈ vars)
    (h : recassign C fuel eqn vars [] = .done s) :
    (∀ v, v ∈ vars ↔ (v ∈ s.soleqs.filterMap expr.lhsvar? ∨ v ∈ s.vars)) ∧
    (∀ v, v ∈ s.soleqs.filterMap expr.lhsvar? → v ∉ s.vars) := by
  obtain ⟨s1, hp, hc⟩ := recassign_done C fuel h
  have hcore := passes_core C fuel (core_init C eqn vars []) hp
  have hinit : VarInv vars { eqn := eqn, vars := vars, soleqs := [], numsolved := 0 } := by
    refine ⟨by simp [solvedVars], by simp [solvedVars], ?_⟩
    intro i e _ hie w hw
    exact ⟨hvars e (List.getElem?_mem hie) w hw, by simp [solvedVars]⟩
  have hvi := passes_varInv C fuel hC hinit hp
  obtain ⟨eqn1, hd, hs⟩ := cleanup_done C fuel hc
  subst hs
  have hsol : s1.soleqs = s1.eqn.take s1.numsolved := by simpa using hcore.sol
  have htake : eqn1.take s1.numsolved = s1.eqn.take s1.numsolved :=
    take_congr_getElem? ((discardLoop_frame C fuel _ _).1 eqn1 hd)
  have hrem := removeSolvedVars_mem eqn1 s1.numsolved 0 s1.vars (by rw [hcore.vars]; exact hnodup)
  simp only [List.drop_zero, htake] at hrem
  have hsv : s1.soleqs.filterMap expr.lhsvar? = solvedVars s1 := by
    rw [hsol]; rfl
  show (∀ v, v ∈ vars ↔ (v ∈ s1.soleqs.filterMap expr.lhsvar? ∨
      v ∈ removeSolvedVars eqn1 s1.numsolved 0 s1.vars)) ∧
    (∀ v, v ∈ s1.soleqs.filterMap expr.lhsvar? →
      v ∉ removeSolvedVars eqn1 s1.numsolved 0 s1.vars)
  rw [hsv]
  have hmem : ∀ w, w ∈ removeSolvedVars eqn1 s1.numsolved 0 s1.vars ↔
      w ∈ vars ∧ w ∉ solvedVars s1 := by
    intro w
    rw [hrem.2 w, hcore.vars]
    rfl
  constructor
  · intro v
    rw [hmem v]
    constructor
    · intro hv
      by_cases hin : v ∈ solvedVars s1
      · exact Or.inl hin
      · exact Or.inr ⟨hv, hin⟩
    · rintro (hv | hv)
      · exact hvi.sub v hv
      · exact hv.1
  · intro v hv hv2
    exact ((hmem v).1 hv2).2 hv


/-! ## The small instance meets the contracts -/

theorem Demo.fold_vars (op : oper) (l r : expr) (d : dimens) :
    ∀ w ∈ (Demo.fold op l r d).physvars, w ∈ l.physvars ++ r.physvars := by
  intro w hw
  unfold Demo.fold at hw
  split at hw
  · split at hw <;> simp [expr.physvars] at hw
  · simpa [expr.physvars] using hw

theorem Demo.eqnumsimp_vars : ∀ e w, w ∈ (Demo.eqnumsimp e).physvars → w ∈ e.physvars
  | .binopexp op l r d, w, h => by
    rw [Demo.eqnumsimp] at h
    have := Demo.fold_vars op _ _ d w h
    rw [expr.physvars]
    rcases List.mem_append.1 this with h1 | h1
    · exact List.mem_append_left _ (Demo.eqnumsimp_vars l w h1)
    · exact List.mem_append_right _ (Demo.eqnumsimp_vars r w h1)
  | .numvalexp _ _, _, h => by simpa [Demo.eqnumsimp] using h
  | .physvarptr _ _, _, h => by simpa [Demo.eqnumsimp] using h
  | .functexp _ _ _, _, h => by simpa [Demo.eqnumsimp] using h
  | .n_opexp _ _ _, _, h => by simpa [Demo.eqnumsimp] using h

mutual
theorem Demo.subst_vars (v : Nat) (val : expr) :
    ∀ e w, w ∈ (Demo.subst v val e).physvars → (w ∈ e.physvars ∧ w ≠ v) ∨ w ∈ val.physvars
  | .numvalexp _ _, w, h => by simp [Demo.subst, expr.physvars] at h
  | .physvarptr u _, w, h => by
    rw [Demo.subst] at h
    split at h
    · exact Or.inr h
    · simp only [expr.physvars, List.mem_singleton] at h ⊢
      subst h
      exact Or.inl ⟨rfl, by assumption⟩
  | .binopexp _ l r _, w, h => by
    rw [Demo.subst, expr.physvars] at h
    rw [expr.physvars]
    rcases List.mem_append.1 h with h1 | h1
    · rcases Demo.subst_vars v val l w h1 with h2 | h2
      · exact Or.inl ⟨List.mem_append_left _ h2.1, h2.2⟩
      · exact Or.inr h2
    · rcases Demo.subst_vars v val r w h1 with h2 | h2
      · exact Or.inl ⟨List.mem_append_right _ h2.1, h2.2⟩
      · exact Or.inr h2
  | .functexp _ a _, w, h => by
    rw [Demo.subst, expr.physvars] at h
    rw [expr.physvars]
    exact Demo.subst_vars v val a w h
  | .n_opexp _ args _, w, h => by
    rw [Demo.subst, expr.physvars] at h
    rw [expr.physvars]
    exact Demo.substList_vars v val args w h
theorem Demo.substList_vars (v : Nat) (val : expr) :
    ∀ es w, w ∈ physvarsList (Demo.substList v val es) →
      (w ∈ physvarsList es ∧ w ≠ v) ∨ w ∈ val.physvars
  | [], w, h => by simp [Demo.substList, physvarsList] at h
  | e :: es, w, h => by
    rw [Demo.substList, physvarsList] at h
    rw [physvarsList]
    rcases List.mem_append.1 h with h1 | h1
    · rcases Demo.subst_vars v val e w h1 with h2 | h2
      · exact Or.inl ⟨List.mem_append_left _ h2.1, h2.2⟩
      · exact Or.inr h2
    · rcases Demo.substList_vars v val es w h1 with h2 | h2
      · exact Or.inl ⟨List.mem_append_right _ h2.1, h2.2⟩
      · exact Or.inr h2
end

theorem Demo.solveknownvar_true (e e1 : expr) (h : Demo.solveknownvar e = (true, e1)) :
    ∃ v c, e1 = .binopexp Demo.eqop (.physvarptr v Demo.nodim) (.numvalexp c Demo.nodim)
      Demo.nodim ∧ e.physvars.dedup = [v] := by
  unfold Demo.solveknownvar at h
  split at h
  · rename_i v t c hd _
    split at h
    · cases h
    · simp only [Prod.mk.injEq, true_and] at h
      exact ⟨v, _, h.symm, hd⟩
  · cases h

theorem Demo.solveknownvar_false (e e1 : expr) (h : Demo.solveknownvar e = (false, e1)) :
    e1 = e := by
  unfold Demo.solveknownvar at h
  split at h
  · split at h
    · simp only [Prod.mk.injEq, true_and] at h; exact h.symm
    · cases h
  · simp only [Prod.mk.injEq, true_and] at h; exact h.symm

theorem Demo.varContract : VarContract Demo.C where
  eqnumsimp_vars := fun e w hw => Demo.eqnumsimp_vars e w hw
  flatten_vars := fun e w hw => hw
  solve_vars := by
    intro e e1 h
    obtain ⟨v, c, he1, hd⟩ := Demo.solveknownvar_true e e1 h
    refine ⟨Demo.eqop, v, Demo.nodim, _, Demo.nodim, he1, ?_, ?_⟩
    · have : v ∈ e.physvars.dedup := by rw [hd]; simp
      exact List.mem_dedup.1 this
    · intro w hw
      simp [expr.physvars] at hw
  decline_vars := by
    intro e e1 h w hw
    rw [Demo.solveknownvar_false e e1 h] at hw
    exact hw
  substin_vars := by
    intro t op v d rhs d1 w hw
    exact Demo.subst_vars v rhs t w hw

/-- C2 (amended) at a concrete input: the system `x - 3 = 0`, `y - (x + 2) = 0` with
unknowns `[x, y]` and the instance `Demo.C`. -/
theorem recassign_unknowns_partition_witness :
    (∀ v, v ∈ [0, 1] ↔
      (v ∈ [Demo.eq Demo.X (Demo.num 3), Demo.eq Demo.Y (Demo.num 5)].filterMap expr.lhsvar? ∨
        v ∈ ([] : List Nat))) ∧
    (∀ v, v ∈ [Demo.eq Demo.X (Demo.num 3), Demo.eq Demo.Y (Demo.num 5)].filterMap expr.lhsvar? →
      v ∉ ([] : List Nat)) :=
  recassign_unknowns_partition Demo.C 5 Demo.sys1 [0, 1]
    ⟨[], [], [Demo.eq Demo.X (Demo.num 3), Demo.eq Demo.Y (Demo.num 5)], 2⟩
    Demo.varContract (by decide)
    (by simp [Demo.sys1, Demo.eq, Demo.minus, Demo.plus, Demo.num, Demo.X, Demo.Y, expr.physvars])
    (by with_unfolding_all rfl)


/-! ## Compaction -/

theorem popLoop_eq (n : Nat) : ∀ eqn : List expr, popLoop n eqn = eqn.take (eqn.length - n) := by
  induction n with
  | zero => intro eqn; simp [popLoop]
  | succ n ih =>
    intro eqn
    rw [popLoop, ih, List.dropLast_eq_take, List.take_take]
    simp only [List.length_take]
    congr 1
    omega

theorem shiftLoop_spec (ns : Nat) (eqn0 : List expr) :
    ∀ n q eqn, eqn.length = eqn0.length → q + n + ns = eqn0.length →
      (∀ i, i < q → eqn[i]? = eqn0[i + ns]?) → (∀ i, q ≤ i → eqn[i]? = eqn0[i]?) →
      (shiftLoop ns n q eqn).length = eqn0.length ∧
      ∀ i, i < q + n → (shiftLoop ns n q eqn)[i]? = eqn0[i + ns]? := by
  intro n
  induction n with
  | zero =>
    intro q eqn hlen _ h1 _
    exact ⟨hlen, fun i hi => h1 i hi⟩
  | succ n ih =>
    intro q eqn hlen hq h1 h2
    rw [shiftLoop]
    have hlt : q + ns < eqn.length := by omega
    rw [List.getElem?_eq_getElem hlt]
    simp only
    have hval : some eqn[q + ns] = eqn0[q + ns]? := by
      rw [← List.getElem?_eq_getElem hlt]; exact h2 _ (by omega)
    have := ih (q + 1) (eqn.set q eqn[q + ns]) (by simpa using hlen) (by omega)
      (fun i hi => by
        by_cases hiq : i = q
        · subst hiq
          rw [List.getElem?_set_self (by omega)]; exact hval
        · rw [List.getElem?_set_ne (by omega)]; exact h1 i (by omega))
      (fun i hi => by rw [List.getElem?_set_ne (by omega)]; exact h2 i (by omega))
    refine ⟨this.1, fun i hi => this.2 i (by omega)⟩

/-- The two compaction loops leave the pending region, in its order. -/
theorem compact_eq (ns : Nat) (eqn : List expr) (h : ns ≤ eqn.length) :
    popLoop ns (shiftLoop ns (eqn.length - ns) 0 eqn) = eqn.drop ns := by
  obtain ⟨hlen, hget⟩ := shiftLoop_spec ns eqn (eqn.length - ns) 0 eqn rfl (by omega)
    (fun i hi => by omega) (fun i _ => rfl)
  rw [popLoop_eq, hlen]
  apply List.ext_getElem?
  intro i
  rw [List.getElem?_take, List.getElem?_drop]
  split
  · rw [hget i (by omega), Nat.add_comm]
  · symm
    simp
    omega

/-! ## The discard loop -/

section Discard
variable (C : Collab)

/-- The pending equations that the discard loop keeps, as a list function:
an equation without unknowns is replaced by the last one. -/
theorem discardLoop_spec :
    ∀ fuel pre L eqn1, discardLoop C fuel pre.length (pre ++ L) = .done eqn1 →
      ∃ R, eqn1 = pre ++ R ∧
        R.Perm ((L.map C.eqnumsimp).filter fun y => decide (C.ordunknowns y ≠ 0)) ∧
        (∀ y ∈ R, y.etype = .binop) ∧
        ((∀ x ∈ L, C.ordunknowns (C.eqnumsimp x) ≠ 0) → R = L.map C.eqnumsimp) := by
  intro fuel
  induction fuel with
  | zero => intro pre L eqn1 h; simp [discardLoop] at h
  | succ fuel ih =>
    intro pre L eqn1 h
    rw [discardLoop] at h
    cases L with
    | nil =>
      simp at h
      subst h
      exact ⟨[], by simp, by simp, by simp, by simp⟩
    | cons x rest =>
      have hget : (pre ++ x :: rest)[pre.length]? = some x := by
        rw [List.getElem?_append_right (Nat.le_refl _)]; simp
      rw [hget] at h
      simp only at h
      have hset : (pre ++ x :: rest).set pre.length (C.eqnumsimp x) =
          pre ++ C.eqnumsimp x :: rest := by
        rw [List.set_append_right _ _ (Nat.le_refl _)]; simp
      rw [hset] at h
      by_cases hord : C.ordunknowns (C.eqnumsimp x) = 0
      · rw [if_pos hord] at h
        rcases eq_nil_or_snoc rest with hr | ⟨r, l, hr⟩
        · subst hr
          have hlast : (pre ++ [C.eqnumsimp x]).getLast? = some (C.eqnumsimp x) :=
            List.getLast?_concat _
          rw [hlast] at h
          simp only at h
          have hnew : ((pre ++ [C.eqnumsimp x]).set pre.length (C.eqnumsimp x)).dropLast
              = pre ++ [] := by
            rw [List.set_append_right _ _ (Nat.le_refl _)]
            simp
          rw [hnew] at h
          obtain ⟨R, h1, h2, h3, h4⟩ := ih pre [] eqn1 h
          refine ⟨R, h1, ?_, h3, fun hall => absurd hord (hall x (by simp))⟩
          simpa [hord] using h2
        · subst hr
          have hlast : (pre ++ C.eqnumsimp x :: (r ++ [l])).getLast? = some l := by
            rw [show pre ++ C.eqnumsimp x :: (r ++ [l]) = (pre ++ C.eqnumsimp x :: r) ++ [l]
              by simp]
            exact List.getLast?_concat _
          rw [hlast] at h
          simp only at h
          have hnew : ((pre ++ C.eqnumsimp x :: (r ++ [l])).set pre.length l).dropLast
              = pre ++ l :: r := by
            rw [List.set_append_right _ _ (Nat.le_refl _)]
            simp only [Nat.sub_self, List.set_cons_zero]
            rw [show pre ++ l :: (r ++ [l]) = (pre ++ l :: r) ++ [l] by simp]
            exact List.dropLast_concat
          rw [hnew] at h
          obtain ⟨R, h1, h2, h3, h4⟩ := ih pre (l :: r) eqn1 h
          refine ⟨R, h1, ?_, h3, fun hall => absurd hord (hall x (by simp))⟩
          refine h2.trans ?_
          have hp : (l :: r).Perm (r ++ [l]) := (List.perm_append_singleton l r).symm
          have hp2 := (hp.map C.eqnumsimp).filter fun y => decide (C.ordunknowns y ≠ 0)
          refine hp2.trans ?_
          simp [List.filter_cons, hord]
      · rw [if_neg hord] at h
        by_cases hb : (C.eqnumsimp x).etype = .binop
        · simp only [hb, ne_eq, not_true_eq_false, if_false] at h
          have hpre : pre ++ C.eqnumsimp x :: rest = (pre ++ [C.eqnumsimp x]) ++ rest := by simp
          have hl : pre.length + 1 = (pre ++ [C.eqnumsimp x]).length := by simp
          rw [hpre, hl] at h
          obtain ⟨R, h1, h2, h3, h4⟩ := ih (pre ++ [C.eqnumsimp x]) rest eqn1 h
          refine ⟨C.eqnumsimp x :: R, by simp [h1], ?_, ?_, ?_⟩
          · simp only [List.map_cons, List.filter_cons, hord, ne_eq, not_false_eq_true,
              decide_True, if_true]
            exact List.Perm.cons _ h2
          · intro y hy
            rcases List.mem_cons.1 hy with hy | hy
            · subst hy; exact hb
            · exact h3 y hy
          · intro hall
            rw [h4 fun x1 hx1 => hall x1 (List.mem_cons_of_mem _ hx1)]
            simp
        · simp only [ne_eq, hb, not_false_eq_true, if_true] at h
          cases h

/-- The discard loop ends normally when it has fuel for every slot and every
equation it keeps is still a `binopexp`. -/
theorem discardLoop_total :
    ∀ fuel pre L, L.length < fuel →
      (∀ x ∈ L, C.ordunknowns (C.eqnumsimp x) ≠ 0 → (C.eqnumsimp x).etype = .binop) →
      ∃ eqn1, discardLoop C fuel pre.length (pre ++ L) = .done eqn1 := by
  intro fuel
  induction fuel with
  | zero => intro pre L h; omega
  | succ fuel ih =>
    intro pre L hfuel hall
    rw [discardLoop]
    cases L with
    | nil => simp
    | cons x rest =>
      have hget : (pre ++ x :: rest)[pre.length]? = some x := by
        rw [List.getElem?_append_right (Nat.le_refl _)]; simp
      rw [hget]
      simp only
      have hset : (pre ++ x :: rest).set pre.length (C.eqnumsimp x) =
          pre ++ C.eqnumsimp x :: rest := by
        rw [List.set_append_right _ _ (Nat.le_refl _)]; simp
      rw [hset]
      by_cases hord : C.ordunknowns (C.eqnumsimp x) = 0
      · rw [if_pos hord]
        rcases eq_nil_or_snoc rest with hr | ⟨r, l, hr⟩
        · subst hr
          have hlast : (pre ++ [C.eqnumsimp x]).getLast? = some (C.eqnumsimp x) :=
            List.getLast?_concat _
          rw [hlast]
          simp only
          have hnew : ((pre ++ [C.eqnumsimp x]).set pre.length (C.eqnumsimp x)).dropLast
              = pre ++ [] := by
            rw [List.set_append_right _ _ (Nat.le_refl _)]
            simp
          rw [hnew]
          exact ih pre [] (by simp at hfuel ⊢; omega) (by simp)
        · subst hr
          have hlast : (pre ++ C.eqnumsimp x :: (r ++ [l])).getLast? = some l := by
            rw [show pre ++ C.eqnumsimp x :: (r ++ [l]) = (pre ++ C.eqnumsimp x :: r) ++ [l]
              by simp]
            exact List.getLast?_concat _
          rw [hlast]
          simp only
          have hnew : ((pre ++ C.eqnumsimp x :: (r ++ [l])).set pre.length l).dropLast
              = pre ++ l :: r := by
            rw [List.set_append_right _ _ (Nat.le_refl _)]
            simp only [Nat.sub_self, List.set_cons_zero]
            rw [show pre ++ l :: (r ++ [l]) = (pre ++ l :: r) ++ [l] by simp]
            exact List.dropLast_concat
          rw [hnew]
          refine ih pre (l :: r) (by simp at hfuel ⊢; omega) ?_
          intro y hy
          apply hall
          simp only [List.mem_cons, List.mem_append, List.mem_singleton] at hy ⊢
          tauto
      · rw [if_neg hord]
        have hb := hall x (by simp) hord
        simp only [hb, ne_eq, not_true_eq_false, if_false]
        have hpre : pre ++ C.eqnumsimp x :: rest = (pre ++ [C.eqnumsimp x]) ++ rest := by simp
        have hl : pre.length + 1 = (pre ++ [C.eqnumsimp x]).length := by simp
        rw [hpre, hl]
        exact ih (pre ++ [C.eqnumsimp x]) rest (by simp at hfuel ⊢; omega)
          fun y hy => hall y (List.mem_cons_of_mem _ hy)

end Discard

/-! ## A scan that solves nothing -/

section NoProgress
variable (C : Collab) (fuel : Nat)

theorem scanBody_numsolved {j : Nat} {s s1 : RState} (h : scanBody C fuel j s = .done s1) :
    s1.numsolved = s.numsolved ∨ s1.numsolved = s.numsolved + 1 := by
  have hcase := scanBody_case C fuel j s
  rw [h] at hcase
  generalize hgen : Outcome.done s1 = o at hcase
  cases hcase with
  | none h0 => cases hgen; exact Or.inl rfl
  | dimenchk e0 bad h0 hd => cases hgen
  | skip e0 h0 hd hl => cases hgen; exact Or.inl rfl
  | decline e0 e2 h0 hd hl hs => cases hgen; exact Or.inl rfl
  | nonbinop e0 e2 h0 hd hl hs hb2 => cases hgen
  | solve e0 e2 h0 hd hl hs hb2 =>
    obtain ⟨eqn3, _, hst⟩ := Outcome.map_eq_done hgen.symm
    subst hst
    exact Or.inr rfl

theorem scanLoop_numsolved_mono {n j : Nat} {s s1 : RState}
    (h : scanLoop C fuel n j s = .done s1) : s.numsolved ≤ s1.numsolved :=
  scanLoop_done_inv C fuel (fun _ s2 => s.numsolved ≤ s2.numsolved)
    (fun j s2 s3 hP hb => by
      rcases scanBody_numsolved C fuel hb with h | h <;> omega)
    n j s s1 (Nat.le_refl _) h

/-- An iteration that ends normally without advancing `numsolved` rewrites
the slot `j` only, as `Unsolved` says. -/
theorem scanBody_unsolved {j : Nat} {s s1 : RState} (h : scanBody C fuel j s = .done s1)
    (hns : s1.numsolved = s.numsolved) :
    (s.eqn[j]? = none ∧ s1 = s) ∨
    ∃ x y, s.eqn[j]? = some x ∧ Unsolved C x y ∧ s1 = { s with eqn := s.eqn.set j y } := by
  have hcase := scanBody_case C fuel j s
  rw [h] at hcase
  generalize hgen : Outcome.done s1 = o at hcase
  cases hcase with
  | none h0 => cases hgen; exact Or.inl ⟨h0, rfl⟩
  | dimenchk e0 bad h0 hd => cases hgen
  | skip e0 h0 hd hl =>
    cases hgen; exact Or.inr ⟨e0, _, h0, ⟨hd, Or.inl ⟨hl, rfl⟩⟩, rfl⟩
  | decline e0 e2 h0 hd hl hs =>
    cases hgen; exact Or.inr ⟨e0, e2, h0, ⟨hd, Or.inr ⟨hl, hs⟩⟩, rfl⟩
  | nonbinop e0 e2 h0 hd hl hs hb2 => cases hgen
  | solve e0 e2 h0 hd hl hs hb2 =>
    obtain ⟨eqn3, _, hst⟩ := Outcome.map_eq_done hgen.symm
    subst hst
    simp at hns

/-- A scan that ends normally without advancing `numsolved` leaves `vars` and
`soleqs` alone and rewrites the slots it visits as `Unsolved` says. -/
theorem scanLoop_unsolved :
    ∀ n j s s1, scanLoop C fuel n j s = .done s1 → s1.numsolved = s.numsolved →
      s1.vars = s.vars ∧ s1.soleqs = s.soleqs ∧ s1.eqn.length = s.eqn.length ∧
      (∀ i, i < j ∨ j + n ≤ i → s1.eqn[i]? = s.eqn[i]?) ∧
      (∀ i x, j ≤ i → i < j + n → s.eqn[i]? = some x →
        ∃ y, s1.eqn[i]? = some y ∧ Unsolved C x y) := by
  intro n
  induction n with
  | zero =>
    intro j s s1 h _
    simp [scanLoop] at h
    subst h
    exact ⟨rfl, rfl, rfl, fun _ _ => rfl, fun i x h1 h2 => by omega⟩
  | succ n ih =>
    intro j s s1 h hns
    rw [scanLoop] at h
    cases hb : scanBody C fuel j s with
    | thrown err s2 => rw [hb] at h; cases h
    | hang => rw [hb] at h; cases h
    | done s2 =>
      rw [hb] at h
      simp only at h
      have hm1 := scanLoop_numsolved_mono C fuel h
      have hns2 : s2.numsolved = s.numsolved := by
        rcases scanBody_numsolved C fuel hb with h1 | h1 <;> omega
      obtain ⟨hv, hso, hlen, hout, hin⟩ := ih (j + 1) s2 s1 h (by omega)
      rcases scanBody_unsolved C fuel hb hns2 with ⟨h0, hs2⟩ | ⟨x, y, h0, hun, hs2⟩
      · subst hs2
        refine ⟨hv, hso, hlen, fun i hi => hout i (by omega), ?_⟩
        intro i x1 hi1 hi2 hx1
        by_cases hij : i = j
        · subst hij; rw [h0] at hx1; cases hx1
        · exact hin i x1 (by omega) (by omega) hx1
      · subst hs2
        have hjlt := getElem?_lt h0
        refine ⟨hv, hso, by simpa using hlen, ?_, ?_⟩
        · intro i hi
          rw [hout i (by omega)]
          exact List.getElem?_set_ne (by omega)
        · intro i x1 hi1 hi2 hx1
          by_cases hij : i = j
          · subst hij
            rw [h0] at hx1
            cases hx1
            refine ⟨y, ?_, hun⟩
            rw [hout i (by omega)]
            exact List.getElem?_set_self hjlt
          · exact hin i x1 (by omega) (by omega)
              (by show (s.eqn.set j y)[i]? = some x1
                  rw [List.getElem?_set_ne (by omega)]; exact hx1)

end NoProgress

/-! ## The state at a normal return -/

section Return
variable (C : Collab) (fuel : Nat)

/-- A normal return of `recassign`: the `while` loop ended in a state `s1`
whose last scan solved nothing, the discard loop kept the list `R` of the
pending region, and `R` is what is left in `eqn`. -/
theorem recassign_done_shape {eqn : List expr} {vars : List Nat} {soleqs : List expr}
    {s : RState} (h : recassign C fuel eqn vars soleqs = .done s) :
    ∃ s0 s1,
      passes C fuel eqn.length fuel
        { eqn := eqn, vars := vars, soleqs := soleqs, numsolved := 0 } = .done s1 ∧
      Core C eqn.length vars soleqs s0 ∧ Core C eqn.length vars soleqs s1 ∧
      s0.numsolved = s1.numsolved ∧
      scanLoop C fuel (eqn.length - s0.numsolved) s0.numsolved s0 = .done s1 ∧
      s.soleqs = s1.soleqs ∧ s.numsolved = s1.numsolved ∧
      s.vars = removeSolvedVars (s1.eqn.take s1.numsolved ++ s.eqn) s1.numsolved 0 vars ∧
      s.eqn.Perm (((s1.eqn.drop s1.numsolved).map C.eqnumsimp).filter
        fun y => decide (C.ordunknowns y ≠ 0)) ∧
      (∀ y ∈ s.eqn, y.etype = .binop) ∧
      ((∀ x ∈ s1.eqn.drop s1.numsolved, C.ordunknowns (C.eqnumsimp x) ≠ 0) →
        s.eqn = (s1.eqn.drop s1.numsolved).map C.eqnumsimp) := by
  obtain ⟨s1, hp, hc⟩ := recassign_done C fuel h
  obtain ⟨hcore1, s0, hcore0, hns, hscan⟩ :=
    passes_done_inv C fuel eqn.length (Core C eqn.length vars soleqs)
      (fun _ _ hI hsc => (scanLoop_core C fuel ⟨hI, Nat.le_refl _⟩ hsc).1)
      fuel _ s1 (core_init C eqn vars soleqs) hp
  obtain ⟨eqn1, hd, hs⟩ := cleanup_done C fuel hc
  have hle : s1.numsolved ≤ s1.eqn.length := by rw [hcore1.len]; exact hcore1.le
  have hplen : (s1.eqn.take s1.numsolved).length = s1.numsolved := by
    rw [List.length_take]; omega
  have hd2 : discardLoop C fuel (s1.eqn.take s1.numsolved).length
      (s1.eqn.take s1.numsolved ++ s1.eqn.drop s1.numsolved) = .done eqn1 := by
    rw [hplen, List.take_append_drop]; exact hd
  obtain ⟨R, hR, hperm, hbin, hmap⟩ := discardLoop_spec C fuel _ _ eqn1 hd2
  have hcomp : popLoop s1.numsolved (shiftLoop s1.numsolved (eqn1.length - s1.numsolved) 0 eqn1)
      = R := by
    rw [compact_eq _ _ (by rw [hR, List.length_append, hplen]; omega), hR]
    rw [List.drop_append_of_le_length (by omega), List.drop_of_length_le (by omega)]
    simp [hplen]
  rw [hcomp] at hs
  subst hs
  refine ⟨s0, s1, hp, hcore0, hcore1, hns, hscan, rfl, rfl, ?_, hperm, hbin, hmap⟩
  show removeSolvedVars eqn1 s1.numsolved 0 s1.vars = _
  rw [hR, hcore1.vars]

end Return

/-- C3 (amended). On a normal return of `recassign`, with a simplification that
does not change a simplified equation and a solve step that leaves an equation
it declines as it was, every equation left in `eqn` that is of order 1 in
exactly one unknown is an equation that `solveknownvar` declines. -/
theorem recassign_pending_declined (C : Collab) (fuel : Nat) (eqn : List expr)
    (vars : List Nat) (soleqs : List expr) (s : RState)
    (hidem : ∀ e, C.eqnumsimp (C.eqnumsimp e) = C.eqnumsimp e)
    (hdecl : ∀ e e1, C.solveknownvar e = (false, e1) → e1 = e)
    (h : recassign C fuel eqn vars soleqs = .done s) :
    ∀ e ∈ s.eqn, linOne C e → C.solveknownvar e = (false, e) := by
  obtain ⟨s0, s1, _, hcore0, hcore1, hns, hscan, _, _, _, hperm, _, _⟩ :=
    recassign_done_shape C fuel h
  intro e he hlin
  have he2 := hperm.mem_iff.1 he
  rw [List.mem_filter, List.mem_map] at he2
  obtain ⟨⟨y, hy, hye⟩, _⟩ := he2
  obtain ⟨i, hi⟩ := List.mem_iff_getElem?.1 hy
  rw [List.getElem?_drop] at hi
  obtain ⟨_, _, hlen, _, hin⟩ := scanLoop_unsolved C fuel _ _ s0 s1 hscan hns.symm
  have hilt : s1.numsolved + i < s0.eqn.length := by rw [← hlen]; exact getElem?_lt hi
  obtain ⟨y1, hy1, hun⟩ := hin (s1.numsolved + i) _ (by omega)
    (by rw [hcore0.len] at hilt; have := hcore0.le; omega) (List.getElem?_eq_getElem hilt)
  rw [hi] at hy1
  cases hy1
  rcases hun.2 with ⟨hnl, hyx⟩ | ⟨_, hsv⟩
  · rw [hyx, hidem] at hye
    rw [← hye] at hlin
    exact absurd hlin hnl
  · have := hdecl _ _ hsv
    rw [this, hidem] at hye
    rw [← hye]
    rw [this] at hsv
    exact hsv

/-- C3 (as stated) fails: `recassign` returns normally on the single equation
`x - x = 3`, which the solve step declines, and leaves it pending although it
is of order 1 in exactly one unknown. -/
theorem recassign_pending_linOne_counterexample :
    recassign Demo.C 5 [Demo.unsolvable] [0] [] =
      .done ⟨[Demo.unsolvable], [0], [], 0⟩ ∧
    linOne Demo.C Demo.unsolvable :=
  ⟨by with_unfolding_all rfl, by with_unfolding_all decide⟩

theorem Demo.fold_cases (op : oper) (l r : expr) (d : dimens) :
    Demo.fold op l r d = .binopexp op l r d ∨ ∃ c, Demo.fold op l r d = .numvalexp c d := by
  unfold Demo.fold
  split
  · split
    · exact Or.inr ⟨_, rfl⟩
    · exact Or.inr ⟨_, rfl⟩
    · exact Or.inr ⟨_, rfl⟩
    · exact Or.inl rfl
  · exact Or.inl rfl

theorem Demo.eqnumsimp_fold_idem (op : oper) (l r : expr) (d : dimens)
    (hl : Demo.eqnumsimp l = l) (hr : Demo.eqnumsimp r = r) :
    Demo.eqnumsimp (Demo.fold op l r d) = Demo.fold op l r d := by
  rcases Demo.fold_cases op l r d with h | ⟨c, h⟩
  · rw [h, Demo.eqnumsimp, hl, hr, h]
  · rw [h, Demo.eqnumsimp]
    intro _ _ _ _ hc
    cases hc

theorem Demo.eqnumsimp_idem : ∀ e, Demo.eqnumsimp (Demo.eqnumsimp e) = Demo.eqnumsimp e
  | .binopexp op l r d => by
    rw [Demo.eqnumsimp]
    exact Demo.eqnumsimp_fold_idem op _ _ d (Demo.eqnumsimp_idem l) (Demo.eqnumsimp_idem r)
  | .numvalexp _ _ => by simp [Demo.eqnumsimp]
  | .physvarptr _ _ => by simp [Demo.eqnumsimp]
  | .functexp _ _ _ => by simp [Demo.eqnumsimp]
  | .n_opexp _ _ _ => by simp [Demo.eqnumsimp]

/-- C3 (amended) at a concrete input: the call on `x - x = 3`, which leaves that
equation pending; the solve step declines it. -/
theorem recassign_pending_declined_witness :
    Demo.C.solveknownvar Demo.unsolvable = (false, Demo.unsolvable) :=
  recassign_pending_declined Demo.C 5 [Demo.unsolvable] [0] []
    ⟨[Demo.unsolvable], [0], [], 0⟩ Demo.eqnumsimp_idem Demo.solveknownvar_false
    (by with_unfolding_all rfl) Demo.unsolvable (List.mem_singleton.2 rfl)
    (by with_unfolding_all decide)

/-! ## Termination -/

section Termination

theorem Stable.const {σ : Type} {o : Outcome σ} (h : o ≠ .hang) : Stable fun _ => o :=
  ⟨0, o, h, fun _ _ => rfl⟩

theorem Stable.comp {σ τ : Type} {f : Nat → Outcome σ} {k : Outcome σ → Nat → Outcome τ}
    (hf : Stable f) (hk : ∀ o, o ≠ .hang → Stable (k o)) : Stable fun m => k (f m) m := by
  obtain ⟨m1, o, ho, h1⟩ := hf
  obtain ⟨m2, o2, ho2, h2⟩ := hk o ho
  refine ⟨max m1 m2, o2, ho2, fun m hm => ?_⟩
  show k (f m) m = o2
  rw [h1 m (by omega), h2 m (by omega)]

theorem Stable.map {σ τ : Type} {f : Nat → Outcome σ} (g : σ → τ) (hf : Stable f) :
    Stable fun m => (f m).map g := by
  obtain ⟨m1, o, ho, h1⟩ := hf
  refine ⟨m1, o.map g, ?_, fun m hm => by show (f m).map g = _; rw [h1 m hm]⟩
  cases o <;> simp [Outcome.map] at ho ⊢

variable (C : Collab)

theorem flattenLoop_mono :
    ∀ m e r, flattenLoop C m e = some r → ∀ m1, m ≤ m1 → flattenLoop C m1 e = some r := by
  intro m
  induction m with
  | zero => intro e r h; simp [flattenLoop] at h
  | succ m ih =>
    intro e r h m1 hm
    obtain ⟨m2, rfl⟩ : ∃ m2, m1 = m2 + 1 := ⟨m1 - 1, by omega⟩
    rw [flattenLoop] at h ⊢
    rcases hfe : C.flatten e with ⟨b, e2⟩
    rw [hfe] at h
    cases b with
    | true => exact ih e2 r h m2 (by omega)
    | false => exact h

variable (hflat : ∀ e, ∃ m, (flattenLoop C m e).isSome)
include hflat

theorem substStep_stable (assign eqexpr : expr) :
    Stable fun m => substStep C m assign eqexpr := by
  rcases hse : C.substin eqexpr assign with ⟨b, e1⟩
  cases b with
  | false =>
    refine ⟨0, .done e1, by simp, fun m _ => ?_⟩
    simp [substStep, hse]
  | true =>
    obtain ⟨m, hm⟩ := hflat (C.eqnumsimp e1)
    obtain ⟨r, hr⟩ := Option.isSome_iff_exists.1 hm
    by_cases hb : r.etype = .binop
    · refine ⟨m, .done r, by simp, fun m1 hm1 => ?_⟩
      simp [substStep, hse, flattenLoop_mono C m _ r hr m1 hm1, hb]
    · refine ⟨m, .thrown .substinNonBinop r, by simp, fun m1 hm1 => ?_⟩
      simp [substStep, hse, flattenLoop_mono C m _ r hr m1 hm1, hb]

theorem substLoop_stable (ns : Nat) :
    ∀ n q eqn, Stable fun m => substLoop C m ns n q eqn := by
  intro n
  induction n with
  | zero => intro q eqn; exact ⟨0, .done eqn, by simp, fun m _ => rfl⟩
  | succ n ih =>
    intro q eqn
    cases hq : eqn[q]? with
    | none => exact ⟨0, .done eqn, by simp, fun m _ => by simp [substLoop, hq]⟩
    | some eqexpr =>
      cases ha : eqn[ns - 1]? with
      | none => exact ⟨0, .done eqn, by simp, fun m _ => by simp [substLoop, hq, ha]⟩
      | some assign =>
        have hk := Stable.comp (substStep_stable C hflat assign eqexpr)
          (k := fun o m => match o with
            | .done eqexpr1 => substLoop C m ns n (q + 1) (eqn.set q eqexpr1)
            | .thrown err _ => .thrown err eqn
            | .hang => .hang)
          (fun o ho => by
            cases o with
            | done e1 => exact ih (q + 1) _
            | thrown err e1 => exact Stable.const (by simp)
            | hang => exact absurd rfl ho)
        obtain ⟨m, o, ho, h⟩ := hk
        refine ⟨m, o, ho, fun m1 hm1 => ?_⟩
        show substLoop C m1 ns (n + 1) q eqn = o
        rw [substLoop, hq, ha]
        exact h m1 hm1

theorem scanBody_stable (j : Nat) (s : RState) : Stable fun m => scanBody C m j s := by
  cases h : s.eqn[j]? with
  | none => exact ⟨0, _, by simp, fun m _ => scanBody_none C m h⟩
  | some e0 =>
    cases hd : C.dimenchk e0 with
    | some bad => exact ⟨0, _, by simp, fun m _ => scanBody_dimenchk C m h hd⟩
    | none =>
      by_cases hl : linOne C (C.eqnumsimp e0)
      · rcases hs : C.solveknownvar (C.eqnumsimp e0) with ⟨b, e2⟩
        cases b with
        | false => exact ⟨0, _, by simp, fun m _ => scanBody_decline C m h hd hl hs⟩
        | true =>
          by_cases hb : e2.etype = .binop
          · obtain ⟨m, o, ho, hst⟩ := Stable.map
              (fun eqn3 =>
                ({ s with eqn := eqn3, soleqs := s.soleqs ++ [copyexpr e2],
                          numsolved := s.numsolved + 1 } : RState))
              (substLoop_stable C hflat (s.numsolved + 1)
                (((swapped s j).set s.numsolved e2).length - (s.numsolved + 1))
                (s.numsolved + 1) ((swapped s j).set s.numsolved e2))
            exact ⟨m, o, ho, fun m1 hm1 => by
              show scanBody C m1 j s = o
              rw [scanBody_solve C m1 h hd hl hs hb]; exact hst m1 hm1⟩
          · exact ⟨0, _, by simp, fun m _ => scanBody_nonbinop C m h hd hl hs hb⟩
      · exact ⟨0, _, by simp, fun m _ => scanBody_skip C m h hd hl⟩

theorem scanLoop_stable : ∀ n j s, Stable fun m => scanLoop C m n j s := by
  intro n
  induction n with
  | zero => intro j s; exact ⟨0, .done s, by simp, fun m _ => rfl⟩
  | succ n ih =>
    intro j s
    have hk := Stable.comp (scanBody_stable C hflat j s)
      (k := fun o m => match o with
        | .done s1 => scanLoop C m n (j + 1) s1
        | .thrown err s1 => .thrown err s1
        | .hang => .hang)
      (fun o ho => by
        cases o with
        | done s1 => exact ih (j + 1) s1
        | thrown err s1 => exact Stable.const (by simp)
        | hang => exact absurd rfl ho)
    obtain ⟨m, o, ho, h⟩ := hk
    exact ⟨m, o, ho, fun m1 hm1 => by
      show scanLoop C m1 (n + 1) j s = o
      rw [scanLoop]; exact h m1 hm1⟩

/-- The `while` loop ends whenever its fuel exceeds the number of equations
still pending: every scan but the last one advances `numsolved`, which never
exceeds `numeqs`. -/
theorem passes_stable (numeqs : Nat) (vars0 : List Nat) (soleqs0 : List expr) :
    ∀ d s, Core C numeqs vars0 soleqs0 s → numeqs - s.numsolved ≤ d →
      ∃ m o, o ≠ Outcome.hang ∧
        ∀ m1 p, m ≤ m1 → numeqs - s.numsolved < p → passes C m1 numeqs p s = o := by
  intro d
  induction d with
  | zero =>
    intro s hcore hd
    obtain ⟨m, o, ho, h0⟩ := scanLoop_stable C hflat (numeqs - s.numsolved) s.numsolved s
    have h : ∀ m1, m ≤ m1 → scanLoop C m1 (numeqs - s.numsolved) s.numsolved s = o := h0
    clear h0
    cases o with
    | hang => exact absurd rfl ho
    | thrown err s1 =>
      refine ⟨m, .thrown err s1, by simp, fun m1 p hm1 hp => ?_⟩
      obtain ⟨p0, rfl⟩ : ∃ p0, p = p0 + 1 := ⟨p - 1, by omega⟩
      rw [passes, h m1 hm1]
    | done s1 =>
      have hscan := h m (Nat.le_refl _)
      have hc1 := scanLoop_core C m ⟨hcore, Nat.le_refl _⟩ hscan
      have hmono := scanLoop_numsolved_mono C m hscan
      have hle := hc1.1.le
      have hle0 := hcore.le
      have heq : s.numsolved = s1.numsolved := by omega
      refine ⟨m, .done s1, by simp, fun m1 p hm1 hp => ?_⟩
      obtain ⟨p0, rfl⟩ : ∃ p0, p = p0 + 1 := ⟨p - 1, by omega⟩
      rw [passes, h m1 hm1]
      simp [heq]
  | succ d ih =>
    intro s hcore hd
    obtain ⟨m, o, ho, h0⟩ := scanLoop_stable C hflat (numeqs - s.numsolved) s.numsolved s
    have h : ∀ m1, m ≤ m1 → scanLoop C m1 (numeqs - s.numsolved) s.numsolved s = o := h0
    clear h0
    cases o with
    | hang => exact absurd rfl ho
    | thrown err s1 =>
      refine ⟨m, .thrown err s1, by simp, fun m1 p hm1 hp => ?_⟩
      obtain ⟨p0, rfl⟩ : ∃ p0, p = p0 + 1 := ⟨p - 1, by omega⟩
      rw [passes, h m1 hm1]
    | done s1 =>
      have hscan := h m (Nat.le_refl _)
      have hc1 := scanLoop_core C m ⟨hcore, Nat.le_refl _⟩ hscan
      have hmono := scanLoop_numsolved_mono C m hscan
      have hle := hc1.1.le
      by_cases heq : s.numsolved = s1.numsolved
      · refine ⟨m, .done s1, by simp, fun m1 p hm1 hp => ?_⟩
        obtain ⟨p0, rfl⟩ : ∃ p0, p = p0 + 1 := ⟨p - 1, by omega⟩
        rw [passes, h m1 hm1]
        simp [heq]
      · obtain ⟨m2, o2, ho2, h2⟩ := ih s1 hc1.1 (by omega)
        refine ⟨max m m2, o2, ho2, fun m1 p hm1 hp => ?_⟩
        obtain ⟨p0, rfl⟩ : ∃ p0, p = p0 + 1 := ⟨p - 1, by omega⟩
        rw [passes, h m1 (by omega)]
        simp only [ne_eq, heq, not_false_eq_true, if_true]
        exact h2 m1 p0 (by omega) (by omega)

omit hflat

/-- The discard loop ends, with the same outcome, for every fuel above the
number of slots it has to visit. -/
theorem discardLoop_stable :
    ∀ n pre L, L.length ≤ n → ∃ o, o ≠ Outcome.hang ∧
      ∀ f, n < f → discardLoop C f pre.length (pre ++ L) = o := by
  intro n
  induction n with
  | zero =>
    intro pre L hL
    have : L = [] := List.eq_nil_of_length_eq_zero (by omega)
    subst this
    refine ⟨.done (pre ++ []), by simp, fun f hf => ?_⟩
    obtain ⟨f0, rfl⟩ : ∃ f0, f = f0 + 1 := ⟨f - 1, by omega⟩
    simp [discardLoop]
  | succ n ih =>
    intro pre L hL
    cases L with
    | nil =>
      refine ⟨.done (pre ++ []), by simp, fun f hf => ?_⟩
      obtain ⟨f0, rfl⟩ : ∃ f0, f = f0 + 1 := ⟨f - 1, by omega⟩
      simp [discardLoop]
    | cons x rest =>
      have hget : (pre ++ x :: rest)[pre.length]? = some x := by
        rw [List.getElem?_append_right (Nat.le_refl _)]; simp
      have hset : (pre ++ x :: rest).set pre.length (C.eqnumsimp x) =
          pre ++ C.eqnumsimp x :: rest := by
        rw [List.set_append_right _ _ (Nat.le_refl _)]; simp
      by_cases hord : C.ordunknowns (C.eqnumsimp x) = 0
      · rcases eq_nil_or_snoc rest with hr | ⟨r, l, hr⟩
        · subst hr
          have hlast : (pre ++ [C.eqnumsimp x]).getLast? = some (C.eqnumsimp x) :=
            List.getLast?_concat _
          have hnew : ((pre ++ [C.eqnumsimp x]).set pre.length (C.eqnumsimp x)).dropLast
              = pre ++ [] := by
            rw [List.set_append_right _ _ (Nat.le_refl _)]
            simp
          obtain ⟨o, ho, h⟩ := ih pre [] (by simp)
          refine ⟨o, ho, fun f hf => ?_⟩
          obtain ⟨f0, rfl⟩ : ∃ f0, f = f0 + 1 := ⟨f - 1, by omega⟩
          rw [discardLoop, hget]
          simp only
          rw [hset, if_pos hord, hlast]
          simp only
          rw [hnew]
          exact h f0 (by omega)
        · subst hr
          have hlast : (pre ++ C.eqnumsimp x :: (r ++ [l])).getLast? = some l := by
            rw [show pre ++ C.eqnumsimp x :: (r ++ [l]) = (pre ++ C.eqnumsimp x :: r) ++ [l]
              by simp]
            exact List.getLast?_concat _
          have hnew : ((pre ++ C.eqnumsimp x :: (r ++ [l])).set pre.length l).dropLast
              = pre ++ l :: r := by
            rw [List.set_append_right _ _ (Nat.le_refl _)]
            simp only [Nat.sub_self, List.set_cons_zero]
            rw [show pre ++ l :: (r ++ [l]) = (pre ++ l :: r) ++ [l] by simp]
            exact List.dropLast_concat
          obtain ⟨o, ho, h⟩ := ih pre (l :: r) (by simp at hL ⊢; omega)
          refine ⟨o, ho, fun f hf => ?_⟩
          obtain ⟨f0, rfl⟩ : ∃ f0, f = f0 + 1 := ⟨f - 1, by omega⟩
          rw [discardLoop, hget]
          simp only
          rw [hset, if_pos hord, hlast]
          simp only
          rw [hnew]
          exact h f0 (by omega)
      · by_cases hb : (C.eqnumsimp x).etype = .binop
        · have hpre : pre ++ C.eqnumsimp x :: rest = (pre ++ [C.eqnumsimp x]) ++ rest := by
            simp
          have hl : pre.length + 1 = (pre ++ [C.eqnumsimp x]).length := by simp
          obtain ⟨o, ho, h⟩ := ih (pre ++ [C.eqnumsimp x]) rest (by simp at hL ⊢; omega)
          refine ⟨o, ho, fun f hf => ?_⟩
          obtain ⟨f0, rfl⟩ : ∃ f0, f = f0 + 1 := ⟨f - 1, by omega⟩
          rw [discardLoop, hget]
          simp only
          rw [hset, if_neg hord]
          simp only [hb, ne_eq, not_true_eq_false, if_false]
          rw [hpre, hl]
          exact h f0 (by omega)
        · refine ⟨.thrown .eqnumsimpNonBinop (pre ++ x :: rest), by simp,
            fun f hf => ?_⟩
          obtain ⟨f0, rfl⟩ : ∃ f0, f = f0 + 1 := ⟨f - 1, by omega⟩
          rw [discardLoop, hget]
          simp only
          rw [hset, if_neg hord]
          simp only [ne_eq, hb, not_false_eq_true, if_true]

end Termination

section Bounds
variable (C : Collab)

/-- At a `throw` of an iteration of the scan loop the solved count is at most
the number of equations. -/
theorem scanBody_thrown_le {fuel numeqs : Nat} {vars0 : List Nat} {soleqs0 : List expr}
    {j : Nat} {s s1 : RState} {err : Fatal}
    (h : Core C numeqs vars0 soleqs0 s ∧ s.numsolved ≤ j)
    (hb : scanBody C fuel j s = .thrown err s1) : s1.numsolved ≤ numeqs := by
  obtain ⟨hc, hj⟩ := h
  have hcase := scanBody_case C fuel j s
  rw [hb] at hcase
  generalize hgen : Outcome.thrown err s1 = o at hcase
  cases hcase with
  | none h0 => cases hgen
  | dimenchk e0 bad h0 hd => cases hgen; exact hc.le
  | skip e0 h0 hd hl => cases hgen
  | decline e0 e2 h0 hd hl hs => cases hgen
  | nonbinop e0 e2 h0 hd hl hs hb2 => cases hgen; exact hc.le
  | solve e0 e2 h0 hd hl hs hb2 =>
    obtain ⟨eqn3, _, hst⟩ := Outcome.map_eq_thrown hgen.symm
    subst hst
    have := getElem?_lt h0
    have := hc.len
    show s.numsolved + 1 ≤ numeqs
    omega

theorem recassign_numsolved_le {fuel : Nat} {eqn : List expr} {vars : List Nat}
    {soleqs : List expr} {st : RState}
    (h : recassign C fuel eqn vars soleqs = .done st ∨
      ∃ err, recassign C fuel eqn vars soleqs = .thrown err st) :
    st.numsolved ≤ eqn.length := by
  rcases h with h | ⟨err, h⟩
  · obtain ⟨s1, hp, hc⟩ := recassign_done C fuel h
    have hcore := passes_core C fuel (core_init C eqn vars soleqs) hp
    obtain ⟨eqn1, _, hs⟩ := cleanup_done C fuel hc
    subst hs
    exact hcore.le
  · unfold recassign at h
    simp only at h
    split at h
    · rename_i s1 hp
      have hcore := passes_core C fuel (core_init C eqn vars soleqs) hp
      unfold cleanup at h
      split at h
      · cases h
      · simp only [Outcome.thrown.injEq] at h
        rw [← h.2]
        exact hcore.le
      · cases h
    · rename_i err1 s1 hp
      simp only [Outcome.thrown.injEq] at h
      rw [← h.2]
      exact passes_thrown_inv C fuel eqn.length (Core C eqn.length vars soleqs)
        (fun _ st => st.numsolved ≤ eqn.length)
        (fun _ _ hI hsc => (scanLoop_core C fuel ⟨hI, Nat.le_refl _⟩ hsc).1)
        (fun s err2 s2 hI hsc =>
          scanLoop_thrown_inv C fuel
            (fun j s => Core C eqn.length vars soleqs s ∧ s.numsolved ≤ j)
            (fun _ st => st.numsolved ≤ eqn.length)
            (fun _ _ _ hP hbody => scanBody_core C fuel hP hbody)
            (fun _ _ _ _ hP hbody => scanBody_thrown_le C hP hbody)
            _ _ s err2 s2 ⟨hI, Nat.le_refl _⟩ hsc)
        fuel _ err1 s1 (core_init C eqn vars soleqs) hp
    · cases h

/-- A pass of the `while` loop that ends normally either advanced `numsolved`,
and the loop goes on, or is the last one. -/
theorem passes_step {fuel numeqs p : Nat} {s s2 : RState}
    (h : scanLoop C fuel (numeqs - s.numsolved) s.numsolved s = .done s2) :
    (s.numsolved < s2.numsolved ∧
      passes C fuel numeqs (p + 1) s = passes C fuel numeqs p s2) ∨
    (s2.numsolved = s.numsolved ∧ passes C fuel numeqs (p + 1) s = .done s2) := by
  have hmono := scanLoop_numsolved_mono C fuel h
  rw [passes, h]
  by_cases heq : s.numsolved = s2.numsolved
  · right; simp [heq]
  · left
    simp only [ne_eq, heq, not_false_eq_true, if_true]
    exact ⟨by omega, trivial⟩

theorem discardLoop_ends (k : Nat) (eqn1 : List expr) :
    ∃ o, o ≠ Outcome.hang ∧ ∀ f, eqn1.length - k < f → discardLoop C f k eqn1 = o := by
  by_cases hk : k ≤ eqn1.length
  · have hlen : (eqn1.take k).length = k := by rw [List.length_take]; omega
    obtain ⟨o, ho, h⟩ := discardLoop_stable C (eqn1.length - k) (eqn1.take k) (eqn1.drop k)
      (by simp)
    rw [hlen, List.take_append_drop] at h
    exact ⟨o, ho, h⟩
  · refine ⟨.done eqn1, by simp, fun f hf => ?_⟩
    obtain ⟨f0, rfl⟩ : ∃ f0, f = f0 + 1 := ⟨f - 1, by omega⟩
    have : eqn1[k]? = none := by simp; omega
    rw [discardLoop, this]

theorem cleanup_stable (s : RState) : Stable fun fuel => cleanup C fuel s := by
  obtain ⟨o, ho, h⟩ := discardLoop_ends C s.numsolved s.eqn
  cases o with
  | hang => exact absurd rfl ho
  | thrown err eqn1 =>
    exact ⟨s.eqn.length - s.numsolved + 1, .thrown err { s with eqn := eqn1 }, by simp,
      fun f hf => by show cleanup C f s = _; rw [cleanup, h f (by omega)]⟩
  | done eqn1 =>
    exact ⟨s.eqn.length - s.numsolved + 1,
      .done { s with
        eqn := popLoop s.numsolved (shiftLoop s.numsolved (eqn1.length - s.numsolved) 0 eqn1),
        vars := removeSolvedVars eqn1 s.numsolved 0 s.vars }, by simp,
      fun f hf => by show cleanup C f s = _; rw [cleanup, h f (by omega)]⟩

theorem recassign_stable (hflat : ∀ e, ∃ m, (flattenLoop C m e).isSome)
    (eqn : List expr) (vars : List Nat) (soleqs : List expr) :
    Stable fun fuel => recassign C fuel eqn vars soleqs := by
  obtain ⟨m, o, ho, h⟩ := passes_stable C hflat eqn.length vars soleqs eqn.length
    { eqn := eqn, vars := vars, soleqs := soleqs, numsolved := 0 }
    (core_init C eqn vars soleqs) (by simp)
  cases o with
  | hang => exact absurd rfl ho
  | thrown err s1 =>
    refine ⟨max m (eqn.length + 1), .thrown err s1, by simp, fun f hf => ?_⟩
    show recassign C f eqn vars soleqs = _
    unfold recassign
    simp only
    rw [h f f (by omega) (by simp; omega)]
  | done s1 =>
    obtain ⟨m2, o2, ho2, h2⟩ := cleanup_stable C s1
    refine ⟨max (max m (eqn.length + 1)) m2, o2, ho2, fun f hf => ?_⟩
    show recassign C f eqn vars soleqs = _
    unfold recassign
    simp only
    rw [h f f (by omega) (by simp; omega)]
    exact h2 f (by omega)

end Bounds

/-- C4. Provided every `flatten` loop ends (for each tree some number of
iterations is enough), `recassign` terminates: from some fuel on it gives one
and the same outcome, a normal return or a `throw`, never `hang`.  Moreover the
solved count in the state it ends in is at most the number of equations, every
pass that ends normally either advanced the solved count (and the `while` loop
goes on) or is the last one, and the discard loop ends with any fuel above the
number of slots it visits.  (The compaction loops recurse on their trip count.) -/
theorem recassign_terminates (C : Collab) (eqn : List expr) (vars : List Nat)
    (soleqs : List expr) (hflat : ∀ e, ∃ m, (flattenLoop C m e).isSome) :
    (∃ fuel0 o, o ≠ Outcome.hang ∧
      ∀ fuel, fuel0 ≤ fuel → recassign C fuel eqn vars soleqs = o) ∧
    (∀ fuel st, (recassign C fuel eqn vars soleqs = .done st ∨
        ∃ err, recassign C fuel eqn vars soleqs = .thrown err st) →
      st.numsolved ≤ eqn.length) ∧
    (∀ fuel p s s2,
      scanLoop C fuel (eqn.length - s.numsolved) s.numsolved s = .done s2 →
      (s.numsolved < s2.numsolved ∧
        passes C fuel eqn.length (p + 1) s = passes C fuel eqn.length p s2) ∨
      (s2.numsolved = s.numsolved ∧ passes C fuel eqn.length (p + 1) s = .done s2)) ∧
    (∀ k eqn1, ∃ o, o ≠ Outcome.hang ∧
      ∀ f, eqn1.length - k < f → discardLoop C f k eqn1 = o) :=
  ⟨recassign_stable C hflat eqn vars soleqs,
   fun _ _ h => recassign_numsolved_le C h,
   fun _ _ _ _ h => passes_step C h,
   fun k eqn1 => discardLoop_ends C k eqn1⟩

/-- C4 at a concrete input: with the instance `Demo.C`, whose `flatten` never
changes anything, the call on `x - 3 = 0`, `y - (x + 2) = 0` ends. -/
theorem recassign_terminates_witness :
    ∃ fuel0 o, o ≠ Outcome.hang ∧
      ∀ fuel, fuel0 ≤ fuel → recassign Demo.C fuel Demo.sys1 [0, 1] [] = o :=
  (recassign_terminates Demo.C Demo.sys1 [0, 1] [] (fun _ => ⟨1, rfl⟩)).1

/-! ## Fatal errors -/

section FatalErrors
variable (C : Collab) (fuel : Nat)

/-- A scan of `n1 + n2` iterations is a scan of `n1` iterations followed, when
that ends normally, by a scan of `n2` iterations. -/
theorem scanLoop_add (n2 : Nat) :
    ∀ n1 j s, scanLoop C fuel (n1 + n2) j s =
      match scanLoop C fuel n1 j s with
      | .done s1 => scanLoop C fuel n2 (j + n1) s1
      | .thrown err s1 => .thrown err s1
      | .hang => .hang := by
  intro n1
  induction n1 with
  | zero => intro j s; simp [scanLoop]
  | succ n1 ih =>
    intro j s
    rw [show n1 + 1 + n2 = (n1 + n2) + 1 by omega, scanLoop, scanLoop]
    cases hb : scanBody C fuel j s with
    | done s1 =>
      simp only
      rw [ih (j + 1) s1, show j + 1 + n1 = j + (n1 + 1) by omega]
    | thrown err s1 => rfl
    | hang => rfl

theorem scanLoop_dimenchk {j : Nat} {s : RState} {e0 bad : expr}
    (h : s.eqn[j]? = some e0) (hd : C.dimenchk e0 = some bad) (n : Nat) :
    scanLoop C fuel (n + 1) j s = .thrown (.dimenchkInconsistency bad) s := by
  rw [scanLoop, scanBody_dimenchk C fuel h hd]

theorem passes_thrown {numeqs p : Nat} {s0 st : RState} {err : Fatal}
    (h : scanLoop C fuel (numeqs - s0.numsolved) s0.numsolved s0 = .thrown err st) :
    passes C fuel numeqs (p + 1) s0 = .thrown err st := by
  rw [passes, h]

theorem recassign_thrown {eqn : List expr} {vars : List Nat} {soleqs : List expr}
    {err : Fatal} {st : RState}
    (h : passes C fuel eqn.length fuel
      { eqn := eqn, vars := vars, soleqs := soleqs, numsolved := 0 } = .thrown err st) :
    recassign C fuel eqn vars soleqs = .thrown err st := by
  unfold recassign
  simp only
  rw [h]

end FatalErrors

/-- C5. If `dimenchk` reports an inconsistent subterm `bad` for the equation in
slot `j` when the scan reaches it in state `s`, then the scan (however many
iterations it has left) ends at once with the fatal error for `bad` in the very
state `s`: no slot has been rewritten since, none beyond `j` has been visited,
and `soleqs` has not grown.  The pass that reached `j` ends with the same
error and state, and so does `recassign` when that pass is its first one; and
`recassign` always passes on a `throw` of its `while` loop unchanged. -/
theorem recassign_dimenchk_aborts (C : Collab) (fuel j : Nat) (s : RState) (e0 bad : expr)
    (h : s.eqn[j]? = some e0) (hd : C.dimenchk e0 = some bad) :
    (∀ n, scanLoop C fuel (n + 1) j s = .thrown (.dimenchkInconsistency bad) s) ∧
    (∀ numeqs p s0 n1 n, s0.numsolved + n1 = j → numeqs - s0.numsolved = n1 + (n + 1) →
      scanLoop C fuel n1 s0.numsolved s0 = .done s →
      passes C fuel numeqs (p + 1) s0 = .thrown (.dimenchkInconsistency bad) s) ∧
    (∀ eqn vars soleqs, 0 < fuel → j < eqn.length →
      scanLoop C fuel j 0 { eqn := eqn, vars := vars, soleqs := soleqs, numsolved := 0 }
        = .done s →
      recassign C fuel eqn vars soleqs = .thrown (.dimenchkInconsistency bad) s) ∧
    (∀ eqn vars soleqs err st,
      passes C fuel eqn.length fuel
        { eqn := eqn, vars := vars, soleqs := soleqs, numsolved := 0 } = .thrown err st →
      recassign C fuel eqn vars soleqs = .thrown err st) := by
  have hpass : ∀ numeqs p s0 n1 n, s0.numsolved + n1 = j →
      numeqs - s0.numsolved = n1 + (n + 1) →
      scanLoop C fuel n1 s0.numsolved s0 = .done s →
      passes C fuel numeqs (p + 1) s0 = .thrown (.dimenchkInconsistency bad) s := by
    intro numeqs p s0 n1 n hj hn hscan
    apply passes_thrown
    rw [hn, scanLoop_add, hscan]
    simp only
    rw [hj]
    exact scanLoop_dimenchk C fuel h hd n
  refine ⟨scanLoop_dimenchk C fuel h hd, hpass, ?_, fun _ _ _ _ _ hp => recassign_thrown C fuel hp⟩
  intro eqn vars soleqs hfuel hjlt hscan
  apply recassign_thrown
  obtain ⟨p, rfl⟩ : ∃ p, fuel = p + 1 := ⟨fuel - 1, by omega⟩
  exact hpass eqn.length p _ j (eqn.length - j - 1) (by simp) (by simp; omega) hscan

/-- C5 at a concrete input: the scan skips `x + y = 5`, the check fails on
`z = 3` (a length equated with a number) in slot 1, and the call ends with the
list as it then is, `y - 2 = 0` not visited. -/
theorem recassign_dimenchk_aborts_witness :
    recassign Demo.C 5 Demo.sysdim [0, 1, 2] [] =
      .thrown (.dimenchkInconsistency (Demo.eq (.physvarptr 2 (.dims 1 0 0 0 0)) (Demo.num 3)))
        ⟨Demo.sysdim, [0, 1, 2], [], 0⟩ :=
  (recassign_dimenchk_aborts Demo.C 5 1 ⟨Demo.sysdim, [0, 1, 2], [], 0⟩
    (Demo.eq (.physvarptr 2 (.dims 1 0 0 0 0)) (Demo.num 3))
    (Demo.eq (.physvarptr 2 (.dims 1 0 0 0 0)) (Demo.num 3))
    rfl (by with_unfolding_all rfl)).2.2.1 Demo.sysdim [0, 1, 2] [] (by decide) (by decide)
    (by with_unfolding_all rfl)

section NonBinop
variable (C : Collab) (fuel : Nat)

theorem scanLoop_nonbinop {j : Nat} {s : RState} {e0 e2 : expr}
    (h : s.eqn[j]? = some e0) (hd : C.dimenchk e0 = none)
    (hl : linOne C (C.eqnumsimp e0))
    (hs : C.solveknownvar (C.eqnumsimp e0) = (true, e2)) (hb : e2.etype ≠ .binop) (n : Nat) :
    scanLoop C fuel (n + 1) j s =
      .thrown .solveknownvarNonBinop { s with eqn := swapped s j } := by
  rw [scanLoop, scanBody_nonbinop C fuel h hd hl hs hb]

theorem substStep_nonbinop {assign e e1 e3 : expr}
    (hs : C.substin e assign = (true, e1))
    (hf : flattenLoop C fuel (C.eqnumsimp e1) = some e3) (hb : e3.etype ≠ .binop) :
    substStep C fuel assign e = .thrown .substinNonBinop e3 := by
  simp [substStep, hs, hf, hb]

theorem substLoop_nonbinop {ns n q : Nat} {eqn : List expr} {assign e e1 e3 : expr}
    (hq : eqn[q]? = some e) (ha : eqn[ns - 1]? = some assign)
    (hs : C.substin e assign = (true, e1))
    (hf : flattenLoop C fuel (C.eqnumsimp e1) = some e3) (hb : e3.etype ≠ .binop) :
    substLoop C fuel ns (n + 1) q eqn = .thrown .substinNonBinop eqn := by
  rw [substLoop, hq, ha]
  simp only
  rw [substStep_nonbinop C fuel hs hf hb]

theorem discardLoop_nonbinop {f k : Nat} {eqn : List expr} {e0 : expr}
    (hk : eqn[k]? = some e0) (hord : C.ordunknowns (C.eqnumsimp e0) ≠ 0)
    (hb : (C.eqnumsimp e0).etype ≠ .binop) :
    discardLoop C (f + 1) k eqn = .thrown .eqnumsimpNonBinop eqn := by
  rw [discardLoop, hk]
  simp [hord, hb]

theorem cleanup_thrown {s : RState} {err : Fatal} {eqn1 : List expr}
    (h : discardLoop C fuel s.numsolved s.eqn = .thrown err eqn1) :
    cleanup C fuel s = .thrown err { s with eqn := eqn1 } := by
  rw [cleanup, h]

end NonBinop

/-- C6 (amended). `recassign` raises a fatal error instead of keeping a tree
that is not a `binopexp`: (1) when `solveknownvar` reports success and leaves
such a tree, (2) when `substin` reports a change and simplification and
flattening leave such a tree, (3) when the cleanup simplification leaves such a
tree of non-zero order.  Each `throw` comes before the statement that would
store the tree (lines 97, 126, 176), so the list at the `throw` does not hold
it: it is the list after line 90 in case (1) and the list as it was in cases
(2) and (3).  (4) So on a normal return every equation left in `eqn` and every
equation appended to `soleqs` is a `binopexp`.  The operator of the `binopexp`
is not inspected anywhere. -/
theorem recassign_nonbinop_fatal (C : Collab) (fuel : Nat) :
    (∀ j s e0 e2 n, s.eqn[j]? = some e0 → C.dimenchk e0 = none →
      linOne C (C.eqnumsimp e0) → C.solveknownvar (C.eqnumsimp e0) = (true, e2) →
      e2.etype ≠ .binop →
      scanLoop C fuel (n + 1) j s =
        .thrown .solveknownvarNonBinop { s with eqn := swapped s j }) ∧
    (∀ ns n q eqn assign e e1 e3, eqn[q]? = some e → eqn[ns - 1]? = some assign →
      C.substin e assign = (true, e1) → flattenLoop C fuel (C.eqnumsimp e1) = some e3 →
      e3.etype ≠ .binop →
      substLoop C fuel ns (n + 1) q eqn = .thrown .substinNonBinop eqn) ∧
    (∀ f k s e0, s.numsolved = k → s.eqn[k]? = some e0 →
      C.ordunknowns (C.eqnumsimp e0) ≠ 0 → (C.eqnumsimp e0).etype ≠ .binop →
      cleanup C (f + 1) s = .thrown .eqnumsimpNonBinop s) ∧
    (∀ eqn vars soleqs s, recassign C fuel eqn vars soleqs = .done s →
      (∀ y ∈ s.eqn, y.etype = .binop) ∧
      ∃ new, s.soleqs = soleqs ++ new ∧ ∀ e ∈ new, e.etype = .binop) := by
  refine ⟨?_, ?_, ?_, ?_⟩
  · intro j s e0 e2 n h hd hl hs hb
    exact scanLoop_nonbinop C fuel h hd hl hs hb n
  · intro ns n q eqn assign e e1 e3 hq ha hs hf hb
    exact substLoop_nonbinop C fuel hq ha hs hf hb
  · intro f k s e0 hns hk hord hb
    subst hns
    exact cleanup_thrown C (f + 1) (discardLoop_nonbinop C hk hord hb)
  · intro eqn vars soleqs s h
    obtain ⟨_, _, _, _, _, _, _, _, _, _, _, hbin, _⟩ := recassign_done_shape C fuel h
    obtain ⟨new, h1, h2⟩ := recassign_appended C fuel h
    exact ⟨hbin, new, h1, fun e he => (h2 e he).1⟩

/-- C6 (as stated) fails: the solve step leaves `x - 3`, a `binopexp` whose
operator is not the equality, and `recassign` returns normally with that tree
appended to `soleqs`. -/
theorem recassign_keeps_non_equality_counterexample :
    recassign (Demo.withSolve Demo.solveMinus) 5 [Demo.eqX] [0] [] =
      .done ⟨[], [], [Demo.minus Demo.X (Demo.num 3)], 1⟩ ∧
    (Demo.withSolve Demo.solveMinus).solveknownvar
        ((Demo.withSolve Demo.solveMinus).eqnumsimp Demo.eqX) =
      (true, .binopexp ⟨.minuse, "-"⟩ Demo.X (Demo.num 3) Demo.nodim) ∧
    opertype.minuse ≠ opertype.equalse :=
  ⟨by with_unfolding_all rfl, rfl, by decide⟩

/-- C6 (amended) at a concrete input: the solve step leaves the bare number 3
for `x - 3 = 0` and the scan throws; the slot still holds `x - 3 = 0`. -/
theorem recassign_nonbinop_fatal_witness :
    scanLoop (Demo.withSolve Demo.solveBare) 5 1 0 ⟨[Demo.eqX], [0], [], 0⟩ =
      .thrown .solveknownvarNonBinop ⟨[Demo.eqX], [0], [], 0⟩ :=
  (recassign_nonbinop_fatal (Demo.withSolve Demo.solveBare) 5).1 0 ⟨[Demo.eqX], [0], [], 0⟩
    Demo.eqX (Demo.num 3) 0 rfl (by with_unfolding_all rfl) (by with_unfolding_all decide)
    rfl (by simp [Demo.num, expr.etype])

/-- C7 (the code at the failing input). The scan skips `x + y = 5`, then the
solve step reports success on `z - 3 = 0` in slot 1 but leaves the bare number
3: line 90 has already copied slot 0 into slot 1 when line 91 throws, so at the
`throw` the list holds `x + y = 5` twice and the offending equation is in no
slot. -/
theorem recassign_throw_overwrites_slot :
    recassign (Demo.withSolve Demo.solveBare) 5 [Demo.eqXY, Demo.eqZ] [0, 1, 2] [] =
      .thrown .solveknownvarNonBinop ⟨[Demo.eqXY, Demo.eqXY], [0, 1, 2], [], 0⟩ := by
  with_unfolding_all rfl

/-! ## A call that solves nothing -/

section Nothing
variable (C : Collab) (fuel : Nat)

/-- What the scan leaves in the slot of an equation that it does not solve. -/
theorem scanBody_leave {j : Nat} {s : RState} {x : expr} (h : s.eqn[j]? = some x)
    (hd : C.dimenchk x = none)
    (hl : linOne C (C.eqnumsimp x) → C.solveknownvar (C.eqnumsimp x) = (false, C.eqnumsimp x)) :
    scanBody C fuel j s = .done { s with eqn := s.eqn.set j (C.eqnumsimp x) } := by
  by_cases hlin : linOne C (C.eqnumsimp x)
  · exact scanBody_decline C fuel h hd hlin (hl hlin)
  · exact scanBody_skip C fuel h hd hlin

/-- A scan over equations none of which is solved simplifies each in place. -/
theorem scanLoop_leave (vars : List Nat) (soleqs : List expr) (ns : Nat) :
    ∀ (L pre : List expr),
      (∀ x ∈ L, C.dimenchk x = none ∧
        (linOne C (C.eqnumsimp x) →
          C.solveknownvar (C.eqnumsimp x) = (false, C.eqnumsimp x))) →
      scanLoop C fuel L.length pre.length
          { eqn := pre ++ L, vars := vars, soleqs := soleqs, numsolved := ns } =
        .done { eqn := pre ++ L.map C.eqnumsimp, vars := vars, soleqs := soleqs,
                numsolved := ns } := by
  intro L
  induction L with
  | nil => intro pre _; simp [scanLoop]
  | cons x rest ih =>
    intro pre hall
    have hget : (pre ++ x :: rest)[pre.length]? = some x := by
      rw [List.getElem?_append_right (Nat.le_refl _)]; simp
    have hx := hall x (by simp)
    rw [List.length_cons, scanLoop,
      scanBody_leave C fuel (s := ⟨pre ++ x :: rest, vars, soleqs, ns⟩) hget hx.1 hx.2]
    simp only
    have hset : (pre ++ x :: rest).set pre.length (C.eqnumsimp x) =
        (pre ++ [C.eqnumsimp x]) ++ rest := by
      rw [List.set_append_right _ _ (Nat.le_refl _)]; simp
    rw [hset]
    have := ih (pre ++ [C.eqnumsimp x]) fun y hy => hall y (List.mem_cons_of_mem _ hy)
    simp only [List.length_append, List.length_singleton] at this
    rw [this]
    simp

/-- A call in which no equation is solved: one pass, then the cleanup of the
whole list; `vars` and `soleqs` are returned as they were. -/
theorem recassign_nothing_solved {eqn : List expr} (vars : List Nat) (soleqs : List expr)
    (hfuel : eqn.length < fuel)
    (hall : ∀ x ∈ eqn, C.dimenchk x = none ∧
      (linOne C (C.eqnumsimp x) →
        C.solveknownvar (C.eqnumsimp x) = (false, C.eqnumsimp x)))
    (hbin : ∀ x ∈ eqn, C.ordunknowns (C.eqnumsimp (C.eqnumsimp x)) ≠ 0 →
      (C.eqnumsimp (C.eqnumsimp x)).etype = .binop) :
    passes C fuel eqn.length fuel
        { eqn := eqn, vars := vars, soleqs := soleqs, numsolved := 0 } =
      .done { eqn := eqn.map C.eqnumsimp, vars := vars, soleqs := soleqs, numsolved := 0 } ∧
    ∃ R, recassign C fuel eqn vars soleqs =
        .done { eqn := R, vars := vars, soleqs := soleqs, numsolved := 0 } ∧
      R.Perm (((eqn.map C.eqnumsimp).map C.eqnumsimp).filter
        fun y => decide (C.ordunknowns y ≠ 0)) ∧
      ((∀ x ∈ eqn, C.ordunknowns (C.eqnumsimp (C.eqnumsimp x)) ≠ 0) →
        R = (eqn.map C.eqnumsimp).map C.eqnumsimp) := by
  have hscan := scanLoop_leave C fuel vars soleqs 0 eqn [] hall
  simp only [List.nil_append, List.length_nil] at hscan
  have hpass : passes C fuel eqn.length fuel
      { eqn := eqn, vars := vars, soleqs := soleqs, numsolved := 0 } =
      .done { eqn := eqn.map C.eqnumsimp, vars := vars, soleqs := soleqs, numsolved := 0 } := by
    obtain ⟨p, rfl⟩ : ∃ p, fuel = p + 1 := ⟨fuel - 1, by omega⟩
    rw [passes]
    simp only [Nat.sub_zero]
    rw [hscan]
    simp
  refine ⟨hpass, ?_⟩
  obtain ⟨eqn1, hd⟩ := discardLoop_total C fuel [] (eqn.map C.eqnumsimp) (by simpa using hfuel)
    (by
      intro y hy
      obtain ⟨x, hx, rfl⟩ := List.mem_map.1 hy
      exact hbin x hx)
  simp only [List.nil_append, List.length_nil] at hd
  obtain ⟨R, hR, hperm, _, hmap⟩ := discardLoop_spec C fuel [] (eqn.map C.eqnumsimp) eqn1
    (by simpa using hd)
  simp only [List.nil_append] at hR
  subst hR
  refine ⟨eqn1, ?_, hperm, ?_⟩
  · unfold recassign
    simp only
    rw [hpass]
    simp only [cleanup]
    rw [hd]
    simp only [removeSolvedVars, Nat.sub_zero]
    have := compact_eq 0 eqn1 (Nat.zero_le _)
    simp only [Nat.sub_zero, List.drop_zero] at this
    rw [this]
  · intro h
    apply hmap
    intro y hy
    obtain ⟨x, hx, rfl⟩ := List.mem_map.1 hy
    exact h x hx

end Nothing

/-- C8. When the scan reaches in slot `j` an equation that, simplified, is of
order 1 in exactly one unknown and `solveknownvar` declines it, the iteration
ends normally: no error, `numsolved`, `soleqs` and `vars` as before, and the
list changed in slot `j` only, which holds what the solve step left.  And in a
call in which no equation is solved (each fails the test or is declined and
left as it was) and the equations stay `binopexp` trees, `recassign` returns
normally with `vars` and `soleqs` unchanged and the declined equation still in
`eqn`, given a simplification that does not change a simplified equation. -/
theorem recassign_decline_keeps_pending (C : Collab) (fuel : Nat) :
    (∀ j s e0 e2, s.eqn[j]? = some e0 → C.dimenchk e0 = none →
      linOne C (C.eqnumsimp e0) → C.solveknownvar (C.eqnumsimp e0) = (false, e2) →
      scanBody C fuel j s = .done { s with eqn := s.eqn.set j e2 }) ∧
    (∀ eqn vars soleqs e,
      (∀ x, C.eqnumsimp (C.eqnumsimp x) = C.eqnumsimp x) →
      eqn.length < fuel →
      (∀ x ∈ eqn, C.dimenchk x = none ∧
        (linOne C (C.eqnumsimp x) →
          C.solveknownvar (C.eqnumsimp x) = (false, C.eqnumsimp x))) →
      (∀ x ∈ eqn, C.ordunknowns (C.eqnumsimp x) ≠ 0 → (C.eqnumsimp x).etype = .binop) →
      e ∈ eqn → linOne C (C.eqnumsimp e) →
      ∃ R, recassign C fuel eqn vars soleqs =
          .done { eqn := R, vars := vars, soleqs := soleqs, numsolved := 0 } ∧
        C.eqnumsimp e ∈ R) := by
  refine ⟨fun j s e0 e2 h hd hl hs => scanBody_decline C fuel h hd hl hs, ?_⟩
  intro eqn vars soleqs e hidem hfuel hall hbin he hlin
  obtain ⟨_, R, hR, hperm, _⟩ := recassign_nothing_solved C fuel vars soleqs hfuel hall
    (by intro x hx; rw [hidem]; exact hbin x hx)
  refine ⟨R, hR, ?_⟩
  rw [hperm.mem_iff, List.mem_filter]
  refine ⟨?_, ?_⟩
  · rw [List.mem_map]
    exact ⟨C.eqnumsimp e, List.mem_map.2 ⟨e, he, rfl⟩, hidem e⟩
  · have : C.ordunknowns (C.eqnumsimp e) = 1 := hlin.1
    simp [this]

/-- C8 at a concrete input: `x - x = 3` is declined, `x + y = 5` fails the test;
the call returns normally and `x - x = 3` is still in `eqn`. -/
theorem recassign_decline_keeps_pending_witness :
    ∃ R, recassign Demo.C 5 [Demo.unsolvable, Demo.eqXY] [0, 1] [] =
        .done { eqn := R, vars := [0, 1], soleqs := [], numsolved := 0 } ∧
      Demo.C.eqnumsimp Demo.unsolvable ∈ R :=
  (recassign_decline_keeps_pending Demo.C 5).2 [Demo.unsolvable, Demo.eqXY] [0, 1] []
    Demo.unsolvable Demo.eqnumsimp_idem (by decide)
    (by
      intro x hx
      simp only [List.mem_cons, List.mem_singleton, List.not_mem_nil, or_false] at hx
      rcases hx with rfl | rfl
      · exact ⟨by with_unfolding_all rfl, fun _ => by with_unfolding_all rfl⟩
      · exact ⟨by with_unfolding_all rfl, fun _ => by with_unfolding_all rfl⟩)
    (by
      intro x hx _
      simp only [List.mem_cons, List.mem_singleton, List.not_mem_nil, or_false] at hx
      rcases hx with rfl | rfl <;> with_unfolding_all rfl)
    (by simp) (by with_unfolding_all decide)

section NothingLinear
variable (C : Collab) (fuel : Nat)

/-- While the scan meets no equation that passes the test of line 79, the slots
it has not visited hold the equations of the call, nothing is solved, and
`vars` and `soleqs` are as at entry. -/
theorem scanBody_nothing_linear {eqn : List expr} {vars : List Nat} {soleqs : List expr}
    (hnl : ∀ x ∈ eqn, ¬ linOne C (C.eqnumsimp x)) {j : Nat} {s : RState}
    (hP : s.vars = vars ∧ s.soleqs = soleqs ∧ s.numsolved = 0 ∧
      ∀ i, j ≤ i → s.eqn[i]? = eqn[i]?) :
    (∀ s1, scanBody C fuel j s = .done s1 →
      s1.vars = vars ∧ s1.soleqs = soleqs ∧ s1.numsolved = 0 ∧
        ∀ i, j + 1 ≤ i → s1.eqn[i]? = eqn[i]?) ∧
    (∀ err s1, scanBody C fuel j s = .thrown err s1 →
      s1.vars = vars ∧ s1.soleqs = soleqs ∧ s1.numsolved = 0) := by
  obtain ⟨hv, hs, hn, hslots⟩ := hP
  have hcase := scanBody_case C fuel j s
  have hmem : ∀ e0, s.eqn[j]? = some e0 → e0 ∈ eqn := fun e0 h0 =>
    List.getElem?_mem (by rw [← hslots j (Nat.le_refl _)]; exact h0)
  generalize scanBody C fuel j s = o at hcase
  cases hcase with
  | none h0 =>
    exact ⟨fun s1 h => (by cases h; exact ⟨hv, hs, hn, fun i hi => hslots i (by omega)⟩),
      fun err s1 h => (by cases h)⟩
  | dimenchk e0 bad h0 hd =>
    exact ⟨fun s1 h => (by cases h), fun err s1 h => (by cases h; exact ⟨hv, hs, hn⟩)⟩
  | skip e0 h0 hd hl =>
    refine ⟨fun s1 h => ?_, fun err s1 h => (by cases h)⟩
    cases h
    refine ⟨hv, hs, hn, fun i hi => ?_⟩
    show (s.eqn.set j (C.eqnumsimp e0))[i]? = eqn[i]?
    rw [List.getElem?_set_ne (by omega)]
    exact hslots i (by omega)
  | decline e0 e2 h0 hd hl hs2 => exact absurd hl (hnl e0 (hmem e0 h0))
  | nonbinop e0 e2 h0 hd hl hs2 hb2 => exact absurd hl (hnl e0 (hmem e0 h0))
  | solve e0 e2 h0 hd hl hs2 hb2 => exact absurd hl (hnl e0 (hmem e0 h0))

/-- In a call that meets no equation passing the test of line 79, whatever the
outcome, nothing has been solved: `vars` and `soleqs` are as at entry. -/
theorem nothing_linear_any_outcome {eqn : List expr} {vars : List Nat} {soleqs : List expr}
    (hnl : ∀ x ∈ eqn, ¬ linOne C (C.eqnumsimp x)) {st : RState}
    (h : recassign C fuel eqn vars soleqs = .done st ∨
      ∃ err, recassign C fuel eqn vars soleqs = .thrown err st) :
    st.vars = vars ∧ st.soleqs = soleqs ∧ st.numsolved = 0 := by
  have hdone : ∀ n j s s1,
      (s.vars = vars ∧ s.soleqs = soleqs ∧ s.numsolved = 0 ∧
        ∀ i, j ≤ i → s.eqn[i]? = eqn[i]?) →
      scanLoop C fuel n j s = .done s1 →
      (s1.vars = vars ∧ s1.soleqs = soleqs ∧ s1.numsolved = 0 ∧
        ∀ i, j + n ≤ i → s1.eqn[i]? = eqn[i]?) :=
    scanLoop_done_inv C fuel
      (fun j s => s.vars = vars ∧ s.soleqs = soleqs ∧ s.numsolved = 0 ∧
        ∀ i, j ≤ i → s.eqn[i]? = eqn[i]?)
      (fun j s s1 hP hb => (scanBody_nothing_linear C fuel hnl hP).1 s1 hb)
  have hthrown : ∀ n j s err s1,
      (s.vars = vars ∧ s.soleqs = soleqs ∧ s.numsolved = 0 ∧
        ∀ i, j ≤ i → s.eqn[i]? = eqn[i]?) →
      scanLoop C fuel n j s = .thrown err s1 →
      (s1.vars = vars ∧ s1.soleqs = soleqs ∧ s1.numsolved = 0) :=
    scanLoop_thrown_inv C fuel
      (fun j s => s.vars = vars ∧ s.soleqs = soleqs ∧ s.numsolved = 0 ∧
        ∀ i, j ≤ i → s.eqn[i]? = eqn[i]?)
      (fun _ s1 => s1.vars = vars ∧ s1.soleqs = soleqs ∧ s1.numsolved = 0)
      (fun j s s1 hP hb => (scanBody_nothing_linear C fuel hnl hP).1 s1 hb)
      (fun j s err s1 hP hb => (scanBody_nothing_linear C fuel hnl hP).2 err s1 hb)
  have hinit : (RState.mk eqn vars soleqs 0).vars = vars ∧
      (RState.mk eqn vars soleqs 0).soleqs = soleqs ∧
      (RState.mk eqn vars soleqs 0).numsolved = 0 ∧
      ∀ i, 0 ≤ i → (RState.mk eqn vars soleqs 0).eqn[i]? = eqn[i]? :=
    ⟨rfl, rfl, rfl, fun _ _ => rfl⟩
  -- the `while` loop
  have hpass : ∀ o, passes C fuel eqn.length fuel (RState.mk eqn vars soleqs 0) = o →
      (∀ s1, o = .done s1 → s1.vars = vars ∧ s1.soleqs = soleqs ∧ s1.numsolved = 0) ∧
      (∀ err s1, o = .thrown err s1 →
        s1.vars = vars ∧ s1.soleqs = soleqs ∧ s1.numsolved = 0) := by
    intro o ho
    cases fuel with
    | zero =>
      rw [passes] at ho; subst ho
      exact ⟨fun _ h => (by cases h), fun _ _ h => (by cases h)⟩
    | succ p =>
      rw [passes] at ho
      simp only at ho
      cases hsc : scanLoop C (p + 1) (eqn.length - 0) 0 (RState.mk eqn vars soleqs 0) with
      | done s1 =>
        have h1 := hdone _ _ _ s1 hinit hsc
        rw [hsc] at ho
        simp only [h1.2.2.1, ne_eq, not_true_eq_false, if_false] at ho
        subst ho
        exact ⟨fun s2 h => (by cases h; exact ⟨h1.1, h1.2.1, h1.2.2.1⟩),
          fun _ _ h => (by cases h)⟩
      | thrown err s1 =>
        have h1 := hthrown _ _ _ err s1 hinit hsc
        rw [hsc] at ho
        subst ho
        exact ⟨fun _ h => (by cases h), fun err2 s2 h => (by cases h; exact h1)⟩
      | hang =>
        rw [hsc] at ho
        subst ho
        exact ⟨fun _ h => (by cases h), fun _ _ h => (by cases h)⟩
  have hp := hpass _ rfl
  unfold recassign at h
  simp only at h
  cases hpo : passes C fuel eqn.length fuel (RState.mk eqn vars soleqs 0) with
  | hang => rw [hpo] at h; rcases h with h | ⟨_, h⟩ <;> cases h
  | thrown err s1 =>
    rw [hpo] at h
    have h1 := hp.2 err s1 hpo
    rcases h with h | ⟨_, h⟩
    · cases h
    · cases h; exact h1
  | done s1 =>
    rw [hpo] at h
    have h1 := hp.1 s1 hpo
    simp only [cleanup] at h
    cases hdl : discardLoop C fuel s1.numsolved s1.eqn with
    | hang => rw [hdl] at h; rcases h with h | ⟨_, h⟩ <;> cases h
    | thrown err eqn1 =>
      rw [hdl] at h
      rcases h with h | ⟨_, h⟩
      · cases h
      · cases h; exact h1
    | done eqn1 =>
      rw [hdl] at h
      rcases h with h | ⟨_, h⟩
      · cases h
        refine ⟨?_, h1.2.1, h1.2.2⟩
        show removeSolvedVars eqn1 s1.numsolved 0 s1.vars = vars
        rw [h1.2.2, h1.1]
        rfl
      · cases h

end NothingLinear

/-- C10 (amended). In a call in which no equation, simplified, is of order 1 in
exactly one unknown, nothing is solved: whatever the outcome, `soleqs` and
`vars` are as at entry and `numsolved` is 0.  When moreover no dimension error
arises, the equations stay `binopexp` trees and the fuel exceeds their number,
the `while` loop ends after its first pass and `recassign` returns normally;
`eqn` then holds exactly the re-simplified equations of non-zero order, as a
rearrangement of their original order, and in their original order when no
equation is discarded. -/
theorem recassign_nothing_linear (C : Collab) (fuel : Nat) (eqn : List expr)
    (vars : List Nat) (soleqs : List expr)
    (hnl : ∀ x ∈ eqn, ¬ linOne C (C.eqnumsimp x)) :
    (∀ st, (recassign C fuel eqn vars soleqs = .done st ∨
        ∃ err, recassign C fuel eqn vars soleqs = .thrown err st) →
      st.vars = vars ∧ st.soleqs = soleqs ∧ st.numsolved = 0) ∧
    (eqn.length < fuel → (∀ x ∈ eqn, C.dimenchk x = none) →
      (∀ x ∈ eqn, C.ordunknowns (C.eqnumsimp (C.eqnumsimp x)) ≠ 0 →
        (C.eqnumsimp (C.eqnumsimp x)).etype = .binop) →
      passes C fuel eqn.length fuel
          { eqn := eqn, vars := vars, soleqs := soleqs, numsolved := 0 } =
        scanLoop C fuel eqn.length 0
          { eqn := eqn, vars := vars, soleqs := soleqs, numsolved := 0 } ∧
      ∃ R, recassign C fuel eqn vars soleqs =
          .done { eqn := R, vars := vars, soleqs := soleqs, numsolved := 0 } ∧
        R.Perm (((eqn.map C.eqnumsimp).map C.eqnumsimp).filter
          fun y => decide (C.ordunknowns y ≠ 0)) ∧
        ((∀ x ∈ eqn, C.ordunknowns (C.eqnumsimp (C.eqnumsimp x)) ≠ 0) →
          R = (eqn.map C.eqnumsimp).map C.eqnumsimp)) := by
  refine ⟨fun st h => nothing_linear_any_outcome C fuel hnl h, ?_⟩
  intro hfuel hdim hbin
  have hall : ∀ x ∈ eqn, C.dimenchk x = none ∧
      (linOne C (C.eqnumsimp x) →
        C.solveknownvar (C.eqnumsimp x) = (false, C.eqnumsimp x)) :=
    fun x hx => ⟨hdim x hx, fun hl => absurd hl (hnl x hx)⟩
  obtain ⟨hpass, hR⟩ := recassign_nothing_solved C fuel vars soleqs hfuel hall hbin
  refine ⟨?_, hR⟩
  rw [hpass]
  have hscan := scanLoop_leave C fuel vars soleqs 0 eqn [] hall
  simp only [List.nil_append, List.length_nil] at hscan
  exact hscan.symm

/-- C10 (as stated) fails: no equation of `5 = 5`, `x + y = 5`, `x + z = 1` is of
order 1 in exactly one unknown, and `recassign` returns the two equations that
have unknowns in the opposite order, the discarded `5 = 5` having been replaced
by the last equation. -/
theorem recassign_order_counterexample :
    recassign Demo.C 5 [Demo.eq55, Demo.eqXY, Demo.eqXZ] [0, 1, 2] [] =
      .done ⟨[Demo.eqXZ, Demo.eqXY], [0, 1, 2], [], 0⟩ ∧
    ¬ linOne Demo.C (Demo.C.eqnumsimp Demo.eq55) ∧
    ¬ linOne Demo.C (Demo.C.eqnumsimp Demo.eqXY) ∧
    ¬ linOne Demo.C (Demo.C.eqnumsimp Demo.eqXZ) :=
  ⟨by with_unfolding_all rfl, by with_unfolding_all decide, by with_unfolding_all decide,
    by with_unfolding_all decide⟩

/-- C10 (amended) at a concrete input: the single equation `x + y = 5`. -/
theorem recassign_nothing_linear_witness :
    ∃ R, recassign Demo.C 5 [Demo.eqXY] [0, 1] [] =
        .done { eqn := R, vars := [0, 1], soleqs := [], numsolved := 0 } ∧
      R.Perm ((([Demo.eqXY].map Demo.C.eqnumsimp).map Demo.C.eqnumsimp).filter
        fun y => decide (Demo.C.ordunknowns y ≠ 0)) ∧
      ((∀ x ∈ [Demo.eqXY], Demo.C.ordunknowns (Demo.C.eqnumsimp (Demo.C.eqnumsimp x)) ≠ 0) →
        R = ([Demo.eqXY].map Demo.C.eqnumsimp).map Demo.C.eqnumsimp) :=
  ((recassign_nothing_linear Demo.C 5 [Demo.eqXY] [0, 1] []
    (by
      intro x hx
      simp only [List.mem_singleton] at hx
      subst hx
      with_unfolding_all decide)).2 (by decide)
    (by
      intro x hx
      simp only [List.mem_singleton] at hx
      subst hx
      with_unfolding_all rfl)
    (by
      intro x hx _
      simp only [List.mem_singleton] at hx
      subst hx
      with_unfolding_all rfl)).2

section Sweep
variable (C : Collab) (fuel : Nat)

/-- A successful solve in slot `j`: the solved equation goes to slot
`numsolved` and, copied, to the end of `soleqs`; every slot from the new
`numsolved` on then holds the result of substituting it into the equation the
slot held after the exchange, be it already visited or not. -/
theorem scanBody_solve_done {j : Nat} {s s1 : RState} {e0 e2 : expr}
    (hj : s.numsolved ≤ j)
    (h : s.eqn[j]? = some e0) (hd : C.dimenchk e0 = none)
    (hl : linOne C (C.eqnumsimp e0))
    (hs : C.solveknownvar (C.eqnumsimp e0) = (true, e2)) (hb : e2.etype = .binop)
    (hdone : scanBody C fuel j s = .done s1) :
    s1.soleqs = s.soleqs ++ [e2] ∧ s1.numsolved = s.numsolved + 1 ∧ s1.vars = s.vars ∧
    s1.eqn.length = s.eqn.length ∧ s1.eqn[s.numsolved]? = some e2 ∧
    (∀ i, i < s.numsolved → s1.eqn[i]? = s.eqn[i]?) ∧
    (∀ i y, s.numsolved + 1 ≤ i → (if i = j then s.eqn[s.numsolved]? else s.eqn[i]?) = some y →
      ∃ y1, s1.eqn[i]? = some y1 ∧ substStep C fuel e2 y = .done y1) := by
  rw [scanBody_solve C fuel h hd hl hs hb] at hdone
  obtain ⟨eqn3, hsub, hst⟩ := Outcome.map_eq_done hdone
  subst hst
  have hjlt := getElem?_lt h
  obtain ⟨hlen, hpre⟩ := (substLoop_frame C fuel _ _ _ _).1 eqn3 hsub
  have hassign : ((swapped s j).set s.numsolved e2)[s.numsolved + 1 - 1]? = some e2 := by
    rw [Nat.add_sub_cancel, List.getElem?_set_self (by rw [swapped_length]; omega)]
  have hd2 := substLoop_done C fuel _ _ _ _ e2 eqn3 hassign (by omega) hsub
  have hlen2 : ((swapped s j).set s.numsolved e2).length = s.eqn.length := by
    simp [swapped_length]
  refine ⟨rfl, rfl, rfl, by rw [hlen, hlen2], ?_, ?_, ?_⟩
  · show eqn3[s.numsolved]? = some e2
    rw [hpre _ (by omega), List.getElem?_set_self (by rw [swapped_length]; omega)]
  · intro i hi
    show eqn3[i]? = s.eqn[i]?
    rw [hpre _ (by omega), List.getElem?_set_ne (by omega), swapped_getElem?_ne s j (by omega)]
  · intro i y hi hy
    have hilt : i < s.eqn.length := by
      split at hy
      · omega
      · exact getElem?_lt hy
    apply hd2.1 i y hi (by rw [hlen2]; omega)
    rw [List.getElem?_set_ne (by omega)]
    by_cases hij : i = j
    · rw [if_pos hij] at hy
      subst hij
      rw [swapped_getElem?_self s i (by omega) hilt (by omega)]
      exact hy
    · rw [if_neg hij] at hy
      rw [swapped_getElem?_ne s j hij]
      exact hy

/-- The scenario of two equations solved in one sweep, for any collaborators
that behave on the trees involved as the hypotheses say. -/
theorem recassign_two_solved {e0 e1 sol0 sol1 b1 b3 : expr} {v0 v1 : Nat}
    (hfuel : 2 ≤ fuel)
    (hd0 : C.dimenchk e0 = none) (hl0 : linOne C (C.eqnumsimp e0))
    (hs0 : C.solveknownvar (C.eqnumsimp e0) = (true, sol0)) (hb0 : sol0.etype = .binop)
    (hsub : C.substin e1 sol0 = (true, b1))
    (hfl : C.flatten (C.eqnumsimp b1) = (false, b3)) (hb3 : b3.etype = .binop)
    (hd1 : C.dimenchk b3 = none) (hl1 : linOne C (C.eqnumsimp b3))
    (hs1 : C.solveknownvar (C.eqnumsimp b3) = (true, sol1)) (hb1 : sol1.etype = .binop)
    (hv0 : sol0.lhsvar? = some v0) (hv1 : sol1.lhsvar? = some v1) :
    recassign C fuel [e0, e1] [v0, v1] [] = .done ⟨[], [], [sol0, sol1], 2⟩ := by
  obtain ⟨p, rfl⟩ : ∃ p, fuel = p + 2 := ⟨fuel - 2, by omega⟩
  -- first iteration: `e0` is solved and substituted into `e1`
  have hflat : flattenLoop C (p + 2) (C.eqnumsimp b1) = some b3 := by
    rw [flattenLoop, hfl]
  have hstep : substStep C (p + 2) sol0 e1 = .done b3 := by
    simp [substStep, hsub, hflat, hb3]
  have hbody0 : scanBody C (p + 2) 0 ⟨[e0, e1], [v0, v1], [], 0⟩ =
      .done ⟨[sol0, b3], [v0, v1], [sol0], 1⟩ := by
    rw [scanBody_solve C (p + 2) (s := ⟨[e0, e1], [v0, v1], [], 0⟩) (j := 0) rfl hd0 hl0 hs0 hb0]
    simp [swapped, substLoop, hstep, Outcome.map, copyexpr]
  -- second iteration: the rewritten `e1` is solved
  have hbody1 : scanBody C (p + 2) 1 ⟨[sol0, b3], [v0, v1], [sol0], 1⟩ =
      .done ⟨[sol0, sol1], [v0, v1], [sol0, sol1], 2⟩ := by
    rw [scanBody_solve C (p + 2) (s := ⟨[sol0, b3], [v0, v1], [sol0], 1⟩) (j := 1) rfl hd1 hl1
      hs1 hb1]
    simp [swapped, substLoop, Outcome.map, copyexpr]
  have hscan : scanLoop C (p + 2) 2 0 ⟨[e0, e1], [v0, v1], [], 0⟩ =
      .done ⟨[sol0, sol1], [v0, v1], [sol0, sol1], 2⟩ := by
    rw [scanLoop, hbody0]
    simp only
    rw [scanLoop, hbody1]
    simp only
    rw [scanLoop]
  have hpass : passes C (p + 2) 2 (p + 2) ⟨[e0, e1], [v0, v1], [], 0⟩ =
      .done ⟨[sol0, sol1], [v0, v1], [sol0, sol1], 2⟩ := by
    rw [passes]
    simp only [Nat.sub_zero]
    rw [hscan]
    simp only [ne_eq, OfNat.zero_ne_ofNat, not_false_eq_true, if_true]
    rw [passes]
    simp [scanLoop]
  unfold recassign
  simp only [List.length_cons, List.length_nil, Nat.zero_add, Nat.reduceAdd]
  rw [hpass]
  simp only [cleanup]
  have hdl : discardLoop C (p + 2) 2 [sol0, sol1] = .done [sol0, sol1] := by
    rw [discardLoop]; rfl
  rw [hdl]
  simp only
  have hl0' : (sol0.lhs?.bind expr.varindex?) = some v0 := hv0
  have hl1' : (sol1.lhs?.bind expr.varindex?) = some v1 := hv1
  have hvars : removeSolvedVars [sol0, sol1] 2 0 [v0, v1] = [] := by
    simp [removeSolvedVars, hl0', hl1', removeVar]
  rw [hvars]
  rfl

end Sweep

/-- C9. Within a pass the scan visits the slots in ascending order (the loop at
`j` runs the body at `j`, then the loop at `j + 1`).  A successful solve in
slot `j` appends the solved equation to the end of `soleqs`, puts it in slot
`numsolved`, and at once substitutes it into every slot from the new
`numsolved` on, visited or not.  So for the equations `x - 3 = 0`,
`y - (x + 2) = 0` and unknowns `x`, `y`, with collaborators that solve the first
to `x = 3`, rewrite the second by substitution, simplification and flattening
to an equation they solve to `y = 5`, one call returns `soleqs = [x = 3, y = 5]`
and empty `vars` and `eqn`. -/
theorem recassign_forward_sweep (C : Collab) (fuel : Nat) :
    (∀ n j s, scanLoop C fuel (n + 1) j s =
      match scanBody C fuel j s with
      | .done s1 => scanLoop C fuel n (j + 1) s1
      | .thrown err s1 => .thrown err s1
      | .hang => .hang) ∧
    (∀ j s s1 e0 e2, s.numsolved ≤ j → s.eqn[j]? = some e0 → C.dimenchk e0 = none →
      linOne C (C.eqnumsimp e0) → C.solveknownvar (C.eqnumsimp e0) = (true, e2) →
      e2.etype = .binop → scanBody C fuel j s = .done s1 →
      s1.soleqs = s.soleqs ++ [e2] ∧ s1.numsolved = s.numsolved + 1 ∧ s1.vars = s.vars ∧
      s1.eqn.length = s.eqn.length ∧ s1.eqn[s.numsolved]? = some e2 ∧
      (∀ i, i < s.numsolved → s1.eqn[i]? = s.eqn[i]?) ∧
      (∀ i y, s.numsolved + 1 ≤ i →
        (if i = j then s.eqn[s.numsolved]? else s.eqn[i]?) = some y →
        ∃ y1, s1.eqn[i]? = some y1 ∧ substStep C fuel e2 y = .done y1)) ∧
    (∀ b1 b3, 2 ≤ fuel →
      C.dimenchk Demo.eqX = none → linOne C (C.eqnumsimp Demo.eqX) →
      C.solveknownvar (C.eqnumsimp Demo.eqX) = (true, Demo.eq Demo.X (Demo.num 3)) →
      C.substin (Demo.eq (Demo.minus Demo.Y (Demo.plus Demo.X (Demo.num 2))) (Demo.num 0))
        (Demo.eq Demo.X (Demo.num 3)) = (true, b1) →
      C.flatten (C.eqnumsimp b1) = (false, b3) → b3.etype = .binop →
      C.dimenchk b3 = none → linOne C (C.eqnumsimp b3) →
      C.solveknownvar (C.eqnumsimp b3) = (true, Demo.eq Demo.Y (Demo.num 5)) →
      recassign C fuel Demo.sys1 [0, 1] [] =
        .done ⟨[], [], [Demo.eq Demo.X (Demo.num 3), Demo.eq Demo.Y (Demo.num 5)], 2⟩) := by
  refine ⟨fun n j s => by rw [scanLoop], ?_, ?_⟩
  · intro j s s1 e0 e2 hj h hd hl hs hb hdone
    exact scanBody_solve_done C fuel hj h hd hl hs hb hdone
  · intro b1 b3 hfuel hd0 hl0 hs0 hsub hfl hb3 hd1 hl1 hs1
    exact recassign_two_solved C fuel hfuel hd0 hl0 hs0 rfl hsub hfl hb3 hd1 hl1 hs1 rfl
      rfl rfl

/-- C9 at a concrete input: the scenario run with the instance `Demo.C`. -/
theorem recassign_forward_sweep_witness :
    recassign Demo.C 5 Demo.sys1 [0, 1] [] =
      .done ⟨[], [], [Demo.eq Demo.X (Demo.num 3), Demo.eq Demo.Y (Demo.num 5)], 2⟩ :=
  (recassign_forward_sweep Demo.C 5).2.2
    (Demo.eq (Demo.minus Demo.Y (Demo.plus (Demo.num 3) (Demo.num 2))) (Demo.num 0))
    (Demo.eq (Demo.minus Demo.Y (Demo.num 5)) (Demo.num 0))
    (by decide) (by with_unfolding_all rfl) (by with_unfolding_all decide)
    (by with_unfolding_all rfl) (by with_unfolding_all rfl) (by with_unfolding_all rfl)
    rfl (by with_unfolding_all rfl) (by with_unfolding_all decide)
    (by with_unfolding_all rfl)

/-! ## The cleanup, seen from outside -/

section CleanupSpec
variable (C : Collab) (fuel : Nat)

/-- A normal end of the cleanup: the discard loop left `pre ++ R`, where `pre`
is the solved region and `R` a rearrangement of the re-simplified pending
equations of non-zero order; `R` is what stays in `eqn`. -/
theorem cleanup_done_parts {s s2 : RState} (hle : s.numsolved ≤ s.eqn.length)
    (h : cleanup C fuel s = .done s2) :
    discardLoop C fuel s.numsolved s.eqn = .done (s.eqn.take s.numsolved ++ s2.eqn) ∧
    s2.soleqs = s.soleqs ∧ s2.numsolved = s.numsolved ∧
    s2.vars = removeSolvedVars (s.eqn.take s.numsolved ++ s2.eqn) s.numsolved 0 s.vars ∧
    s2.eqn.Perm (((s.eqn.drop s.numsolved).map C.eqnumsimp).filter
      fun y => decide (C.ordunknowns y ≠ 0)) ∧
    (∀ y ∈ s2.eqn, y.etype = .binop) := by
  obtain ⟨eqn1, hd, hs⟩ := cleanup_done C fuel h
  have hplen : (s.eqn.take s.numsolved).length = s.numsolved := by
    rw [List.length_take]; omega
  have hd2 : discardLoop C fuel (s.eqn.take s.numsolved).length
      (s.eqn.take s.numsolved ++ s.eqn.drop s.numsolved) = .done eqn1 := by
    rw [hplen, List.take_append_drop]; exact hd
  obtain ⟨R, hR, hperm, hbin, _⟩ := discardLoop_spec C fuel _ _ eqn1 hd2
  have hcomp : popLoop s.numsolved (shiftLoop s.numsolved (eqn1.length - s.numsolved) 0 eqn1)
      = R := by
    rw [compact_eq _ _ (by rw [hR, List.length_append, hplen]; omega), hR]
    rw [List.drop_append_of_le_length (by omega), List.drop_of_length_le (by omega)]
    simp [hplen]
  rw [hcomp] at hs
  subst hs
  refine ⟨by rw [← hR]; exact hd, rfl, rfl, ?_, hperm, hbin⟩
  show removeSolvedVars eqn1 s.numsolved 0 s.vars = _
  rw [hR]

theorem cleanup_total {s : RState} (hle : s.numsolved ≤ s.eqn.length)
    (hfuel : s.eqn.length - s.numsolved < fuel)
    (hbin : ∀ x ∈ s.eqn.drop s.numsolved,
      C.ordunknowns (C.eqnumsimp x) ≠ 0 → (C.eqnumsimp x).etype = .binop) :
    ∃ s2, cleanup C fuel s = .done s2 := by
  have hplen : (s.eqn.take s.numsolved).length = s.numsolved := by
    rw [List.length_take]; omega
  obtain ⟨eqn1, hd⟩ := discardLoop_total C fuel (s.eqn.take s.numsolved)
    (s.eqn.drop s.numsolved) (by simpa using hfuel) hbin
  rw [hplen, List.take_append_drop] at hd
  exact ⟨_, by rw [cleanup, hd]⟩

end CleanupSpec

/-- C11. In the cleanup, with an order that is zero exactly for the equations
without unknowns, the pending equations that have no unknown after
re-simplification are removed and the others are kept: after a normal end `eqn`
holds, up to their order, exactly the re-simplified pending equations with at
least one unknown, and `soleqs` is as before.  What such an equation says (a
tautology, an inconsistency, not even a `binopexp`) plays no part: the cleanup
ends normally as soon as the equations with unknowns are `binopexp` trees. -/
theorem cleanup_discards_zero_unknowns (C : Collab) (fuel : Nat) (s : RState)
    (hord : ∀ e, C.ordunknowns e = 0 ↔ C.numunknowns e = 0)
    (hle : s.numsolved ≤ s.eqn.length) :
    (∀ s2, cleanup C fuel s = .done s2 →
      s2.soleqs = s.soleqs ∧
      s2.eqn.Perm (((s.eqn.drop s.numsolved).map C.eqnumsimp).filter
        fun y => decide (C.numunknowns y ≠ 0))) ∧
    (s.eqn.length - s.numsolved < fuel →
      (∀ x ∈ s.eqn.drop s.numsolved,
        C.numunknowns (C.eqnumsimp x) ≠ 0 → (C.eqnumsimp x).etype = .binop) →
      ∃ s2, cleanup C fuel s = .done s2) := by
  have hfilter : (fun y => decide (C.ordunknowns y ≠ 0)) =
      fun y => decide (C.numunknowns y ≠ 0) := by
    funext y
    simp only [ne_eq, decide_not, hord y]
  constructor
  · intro s2 h
    obtain ⟨_, hsol, _, _, hperm, _⟩ := cleanup_done_parts C fuel hle h
    rw [hfilter] at hperm
    exact ⟨hsol, hperm⟩
  · intro hfuel hbin
    exact cleanup_total C fuel hle hfuel fun x hx h0 =>
      hbin x hx fun hn => h0 ((hord _).2 hn)

theorem Demo.ordunknowns_zero_iff (e : expr) :
    Demo.C.ordunknowns e = 0 ↔ Demo.C.numunknowns e = 0 := by
  show Demo.ordunknowns e = 0 ↔ ((e.physvars.dedup.length : Nat) : Int) = 0
  unfold Demo.ordunknowns
  by_cases h : e.physvars = []
  · simp [h]
  · have hne : e.physvars.dedup ≠ [] := by
      intro hd
      apply h
      rw [List.eq_nil_iff_forall_not_mem] at hd ⊢
      intro a ha
      exact hd a (List.mem_dedup.2 ha)
    rw [if_neg h]
    constructor
    · intro h1; split at h1 <;> simp at h1
    · intro h1
      exact absurd (List.length_eq_zero.1 (by exact_mod_cast h1)) hne

/-- C11 at a concrete input: of `5 = 5`, `5 = 3`, `x + y = 5` the cleanup keeps
`x + y = 5` only, without error, and `soleqs` stays empty. -/
theorem cleanup_discards_zero_unknowns_witness :
    cleanup Demo.C 5 ⟨[Demo.eq55, Demo.eq53, Demo.eqXY], [0, 1], [], 0⟩ =
        .done ⟨[Demo.eqXY], [0, 1], [], 0⟩ ∧
    [Demo.eqXY].Perm ((([Demo.eq55, Demo.eq53, Demo.eqXY].drop 0).map Demo.C.eqnumsimp).filter
      fun y => decide (Demo.C.numunknowns y ≠ 0)) :=
  ⟨by with_unfolding_all rfl,
    ((cleanup_discards_zero_unknowns Demo.C 5
      ⟨[Demo.eq55, Demo.eq53, Demo.eqXY], [0, 1], [], 0⟩ Demo.ordunknowns_zero_iff
      (by decide)).1 ⟨[Demo.eqXY], [0, 1], [], 0⟩ (by with_unfolding_all rfl)).2⟩

/-- C12. The discard step is idempotent, given a simplification that does not
change a simplified equation: after it has run once from slot `k`, no equation
from slot `k` on is of order zero (also those moved in from the end of the
list), and a second run from `k` on the resulting list ends normally with the
same list. -/
theorem discardLoop_idempotent (C : Collab) (f k : Nat) (eqn eqn1 : List expr)
    (hidem : ∀ e, C.eqnumsimp (C.eqnumsimp e) = C.eqnumsimp e)
    (h : discardLoop C f k eqn = .done eqn1) :
    (∀ i y, k ≤ i → eqn1[i]? = some y → C.ordunknowns y ≠ 0) ∧
    (∀ f2, eqn1.length - k < f2 → discardLoop C f2 k eqn1 = .done eqn1) := by
  by_cases hk : k ≤ eqn.length
  · have hplen : (eqn.take k).length = k := by rw [List.length_take]; omega
    have h2 : discardLoop C f (eqn.take k).length (eqn.take k ++ eqn.drop k) = .done eqn1 := by
      rw [hplen, List.take_append_drop]; exact h
    obtain ⟨R, hR, hperm, hbin, _⟩ := discardLoop_spec C f _ _ eqn1 h2
    have hRprop : ∀ y ∈ R, C.ordunknowns y ≠ 0 ∧ C.eqnumsimp y = y := by
      intro y hy
      have := hperm.mem_iff.1 hy
      rw [List.mem_filter, List.mem_map] at this
      obtain ⟨⟨x, _, rfl⟩, hord⟩ := this
      exact ⟨by simpa using hord, hidem x⟩
    constructor
    · intro i y hi hy
      rw [hR, List.getElem?_append_right (by omega)] at hy
      exact (hRprop y (List.getElem?_mem hy)).1
    · intro f2 hf2
      have hlen : eqn1.length = k + R.length := by rw [hR, List.length_append, hplen]
      obtain ⟨eqn2, hd2⟩ := discardLoop_total C f2 (eqn.take k) R (by omega)
        (fun x hx _ => by rw [(hRprop x hx).2]; exact hbin x hx)
      obtain ⟨R2, hR2, _, _, hmap⟩ := discardLoop_spec C f2 _ _ eqn2 hd2
      have hR2eq : R2 = R := by
        rw [hmap fun x hx => by rw [(hRprop x hx).2]; exact (hRprop x hx).1]
        conv_rhs => rw [← List.map_id R]
        exact List.map_congr_left fun x hx => (hRprop x hx).2
      rw [hplen] at hd2
      rw [hR, hd2, hR2, hR2eq]
  · have hnone : eqn[k]? = none := by simp; omega
    cases f with
    | zero => simp [discardLoop] at h
    | succ f0 =>
      rw [discardLoop, hnone] at h
      simp only [Outcome.done.injEq] at h
      subst h
      constructor
      · intro i y hi hy
        have : eqn[i]? = none := by simp; omega
        rw [this] at hy; cases hy
      · intro f2 hf2
        obtain ⟨f3, rfl⟩ : ∃ f3, f2 = f3 + 1 := ⟨f2 - 1, by omega⟩
        rw [discardLoop, hnone]

/-- C12 at a concrete input: a second run on `[x + y = 5]`, what the first run
leaves of `5 = 5`, `5 = 3`, `x + y = 5`, changes nothing. -/
theorem discardLoop_idempotent_witness :
    discardLoop Demo.C 5 0 [Demo.eqXY] = .done [Demo.eqXY] :=
  (discardLoop_idempotent Demo.C 5 0 [Demo.eq55, Demo.eq53, Demo.eqXY] [Demo.eqXY]
    Demo.eqnumsimp_idem (by with_unfolding_all rfl)).2 5 (by decide)

section Appends
variable (C : Collab) (fuel : Nat)

/-- The state at a `throw` of an iteration of the scan loop still satisfies
`Core`. -/
theorem scanBody_thrown_core {numeqs : Nat} {vars0 : List Nat} {soleqs0 : List expr}
    {j : Nat} {s s1 : RState} {err : Fatal}
    (h : Core C numeqs vars0 soleqs0 s ∧ s.numsolved ≤ j)
    (hb : scanBody C fuel j s = .thrown err s1) : Core C numeqs vars0 soleqs0 s1 := by
  obtain ⟨hc, hj⟩ := h
  have hcase := scanBody_case C fuel j s
  rw [hb] at hcase
  generalize hgen : Outcome.thrown err s1 = o at hcase
  cases hcase with
  | none h0 => cases hgen
  | dimenchk e0 bad h0 hd => cases hgen; exact hc
  | skip e0 h0 hd hl => cases hgen
  | decline e0 e2 h0 hd hl hs => cases hgen
  | nonbinop e0 e2 h0 hd hl hs hb2 => cases hgen; exact hc.of_swapped C hj
  | solve e0 e2 h0 hd hl hs hb2 =>
    obtain ⟨eqn3, hsub, hst⟩ := Outcome.map_eq_thrown hgen.symm
    subst hst
    obtain ⟨hlen, hpre⟩ := (substLoop_frame C fuel _ _ _ _).2 _ eqn3 hsub
    exact hc.solve C hj (getElem?_lt h0) hs hb2 hlen hpre

/-- Whatever the outcome of `recassign`, `soleqs` is what it was at entry
followed by the solved region of the list at that moment. -/
theorem recassign_soleqs_extends {eqn : List expr} {vars : List Nat} {soleqs : List expr}
    {st : RState}
    (h : recassign C fuel eqn vars soleqs = .done st ∨
      ∃ err, recassign C fuel eqn vars soleqs = .thrown err st) :
    ∃ new, st.soleqs = soleqs ++ new := by
  rcases h with h | ⟨err, h⟩
  · obtain ⟨new, h1, _⟩ := recassign_appended C fuel h
    exact ⟨new, h1⟩
  · unfold recassign at h
    simp only at h
    split at h
    · rename_i s1 hp
      have hcore := passes_core C fuel (core_init C eqn vars soleqs) hp
      unfold cleanup at h
      split at h
      · cases h
      · simp only [Outcome.thrown.injEq] at h
        rw [← h.2]
        exact ⟨_, hcore.sol⟩
      · cases h
    · rename_i err1 s1 hp
      simp only [Outcome.thrown.injEq] at h
      rw [← h.2]
      have hcore : Core C eqn.length vars soleqs s1 :=
        passes_thrown_inv C fuel eqn.length (Core C eqn.length vars soleqs)
          (fun _ st => Core C eqn.length vars soleqs st)
          (fun _ _ hI hsc => (scanLoop_core C fuel ⟨hI, Nat.le_refl _⟩ hsc).1)
          (fun s err2 s2 hI hsc =>
            scanLoop_thrown_inv C fuel
              (fun j s => Core C eqn.length vars soleqs s ∧ s.numsolved ≤ j)
              (fun _ st => Core C eqn.length vars soleqs st)
              (fun _ _ _ hP hbody => scanBody_core C fuel hP hbody)
              (fun _ _ _ _ hP hbody => scanBody_thrown_core C fuel hP hbody)
              _ _ s err2 s2 ⟨hI, Nat.le_refl _⟩ hsc)
          fuel _ err1 s1 (core_init C eqn vars soleqs) hp
      exact ⟨_, hcore.sol⟩
    · cases h

/-- An iteration of the scan loop leaves the solved region as it is and only
appends to `soleqs`. -/
theorem scanBody_keeps_solved {j : Nat} {s s1 : RState} (hj : s.numsolved ≤ j)
    (h : scanBody C fuel j s = .done s1) :
    (∀ i, i < s.numsolved → s1.eqn[i]? = s.eqn[i]?) ∧ ∃ add, s1.soleqs = s.soleqs ++ add := by
  have hcase := scanBody_case C fuel j s
  rw [h] at hcase
  generalize hgen : Outcome.done s1 = o at hcase
  cases hcase with
  | none h0 => cases hgen; exact ⟨fun _ _ => rfl, [], by simp⟩
  | dimenchk e0 bad h0 hd => cases hgen
  | skip e0 h0 hd hl =>
    cases hgen
    exact ⟨fun i hi => List.getElem?_set_ne (by omega), [], by simp⟩
  | decline e0 e2 h0 hd hl hs =>
    cases hgen
    exact ⟨fun i hi => List.getElem?_set_ne (by omega), [], by simp⟩
  | nonbinop e0 e2 h0 hd hl hs hb2 => cases hgen
  | solve e0 e2 h0 hd hl hs hb2 =>
    obtain ⟨h1, _, _, _, _, h6, _⟩ := scanBody_solve_done C fuel hj h0 hd hl hs hb2 h
    exact ⟨h6, [e2], h1⟩

end Appends

/-- C13. `recassign` only appends to `soleqs`: whatever the outcome, the entries
held at entry remain, in order, at the front.  On a normal return the entries
appended are the copies of the solved region `eqn[0 .. numsolved)` as it stands
when the `while` loop ends, in the same order; and no iteration of the scan loop
rewrites a slot of the solved region. -/
theorem recassign_appends_solved_region (C : Collab) (fuel : Nat) (eqn : List expr)
    (vars : List Nat) (soleqs : List expr) :
    (∀ st, (recassign C fuel eqn vars soleqs = .done st ∨
        ∃ err, recassign C fuel eqn vars soleqs = .thrown err st) →
      ∃ new, st.soleqs = soleqs ++ new) ∧
    (∀ s, recassign C fuel eqn vars soleqs = .done s →
      ∃ s1, passes C fuel eqn.length fuel
          { eqn := eqn, vars := vars, soleqs := soleqs, numsolved := 0 } = .done s1 ∧
        s.numsolved = s1.numsolved ∧
        s.soleqs = soleqs ++ (s1.eqn.take s1.numsolved).map copyexpr) ∧
    (∀ j s s1, s.numsolved ≤ j → scanBody C fuel j s = .done s1 →
      (∀ i, i < s.numsolved → s1.eqn[i]? = s.eqn[i]?) ∧
      ∃ add, s1.soleqs = s.soleqs ++ add) := by
  refine ⟨fun st h => recassign_soleqs_extends C fuel h, ?_,
    fun j s s1 hj h => scanBody_keeps_solved C fuel hj h⟩
  intro s h
  obtain ⟨s1, hp, hc⟩ := recassign_done C fuel h
  have hcore := passes_core C fuel (core_init C eqn vars soleqs) hp
  obtain ⟨eqn1, _, hs⟩ := cleanup_done C fuel hc
  subst hs
  refine ⟨s1, hp, rfl, ?_⟩
  show s1.soleqs = _
  rw [hcore.sol]
  congr 1
  exact (List.map_id _).symm

/-- C13 at a concrete input: the call on `x - 3 = 0`, `y - (x + 2) = 0` started
with `soleqs = [x + y = 5]` returns `soleqs = [x + y = 5, x = 3, y = 5]`. -/
theorem recassign_appends_solved_region_witness :
    recassign Demo.C 5 Demo.sys1 [0, 1] [Demo.eqXY] =
      .done ⟨[], [], [Demo.eqXY, Demo.eq Demo.X (Demo.num 3), Demo.eq Demo.Y (Demo.num 5)], 2⟩ ∧
    ∃ s1, passes Demo.C 5 Demo.sys1.length 5
        { eqn := Demo.sys1, vars := [0, 1], soleqs := [Demo.eqXY], numsolved := 0 } = .done s1 ∧
      2 = s1.numsolved ∧
      [Demo.eqXY, Demo.eq Demo.X (Demo.num 3), Demo.eq Demo.Y (Demo.num 5)] =
        [Demo.eqXY] ++ (s1.eqn.take s1.numsolved).map copyexpr :=
  ⟨by with_unfolding_all rfl,
    (recassign_appends_solved_region Demo.C 5 Demo.sys1 [0, 1] [Demo.eqXY]).2.1
      ⟨[], [], [Demo.eqXY, Demo.eq Demo.X (Demo.num 3), Demo.eq Demo.Y (Demo.num 5)], 2⟩
      (by with_unfolding_all rfl)⟩

/-- C14. On a normal return of `recassign`, the discard step had left the list
`solved region ++ eqn`: the final `eqn` is the pending region as the discard
step left it, in that order, without the solved equations; and its length is
the initial length minus the number of equations solved minus the number of
pending equations discarded (those of order zero once re-simplified). -/
theorem recassign_compacts (C : Collab) (fuel : Nat) (eqn : List expr) (vars : List Nat)
    (soleqs : List expr) (s : RState) (h : recassign C fuel eqn vars soleqs = .done s) :
    ∃ s1, passes C fuel eqn.length fuel
        { eqn := eqn, vars := vars, soleqs := soleqs, numsolved := 0 } = .done s1 ∧
      s.numsolved = s1.numsolved ∧
      discardLoop C fuel s1.numsolved s1.eqn = .done (s1.eqn.take s1.numsolved ++ s.eqn) ∧
      s.eqn.length + s1.numsolved +
        (s1.eqn.drop s1.numsolved).countP
          (fun x => decide (C.ordunknowns (C.eqnumsimp x) = 0)) = eqn.length := by
  obtain ⟨s1, hp, hc⟩ := recassign_done C fuel h
  have hcore := passes_core C fuel (core_init C eqn vars soleqs) hp
  have hle : s1.numsolved ≤ s1.eqn.length := by rw [hcore.len]; exact hcore.le
  obtain ⟨hd, _, hns, _, hperm, _⟩ := cleanup_done_parts C fuel hle hc
  refine ⟨s1, hp, hns, hd, ?_⟩
  have hlen := hperm.length_eq
  rw [List.filter_map, List.length_map] at hlen
  have hcount := List.length_eq_countP_add_countP
    (p := fun x => decide (C.ordunknowns (C.eqnumsimp x) ≠ 0)) (s1.eqn.drop s1.numsolved)
  rw [List.countP_eq_length_filter] at hcount
  have hlen2 : (s1.eqn.drop s1.numsolved).length = eqn.length - s1.numsolved := by
    rw [List.length_drop, hcore.len]
  have hfun : (fun a => decide ¬(fun x => decide (C.ordunknowns (C.eqnumsimp x) ≠ 0)) a = true) =
      fun x => decide (C.ordunknowns (C.eqnumsimp x) = 0) := by
    funext a
    simp
  rw [hfun] at hcount
  have hcomp : ((fun y => decide (C.ordunknowns y ≠ 0)) ∘ C.eqnumsimp) =
      fun x => decide (C.ordunknowns (C.eqnumsimp x) ≠ 0) := rfl
  rw [hcomp] at hlen
  have := hcore.le
  omega

/-- C14 at a concrete input: of `5 = 5`, `x - 3 = 0`, `y + z = 5` one equation is
solved, one discarded, and one is left. -/
theorem recassign_compacts_witness :
    ∃ s1, passes Demo.C 5 3 5
        { eqn := [Demo.eq55, Demo.eqX, Demo.eqYZ], vars := [0, 1, 2], soleqs := [],
          numsolved := 0 } = .done s1 ∧
      (1 : Nat) = s1.numsolved ∧
      discardLoop Demo.C 5 s1.numsolved s1.eqn =
        .done (s1.eqn.take s1.numsolved ++ [Demo.eqYZ]) ∧
      1 + s1.numsolved +
        (s1.eqn.drop s1.numsolved).countP
          (fun x => decide (Demo.C.ordunknowns (Demo.C.eqnumsimp x) = 0)) = 3 :=
  recassign_compacts Demo.C 5 [Demo.eq55, Demo.eqX, Demo.eqYZ] [0, 1, 2] []
    ⟨[Demo.eqYZ], [2, 1], [Demo.eq Demo.X (Demo.num 3)], 1⟩ (by with_unfolding_all rfl)

/-- C20. When the dimension check that follows a successful solve (line 93)
reports an inconsistent subterm of the solved equation, the iteration goes on
exactly as if it had reported none: its outcome is that of the substitution
loop run on the list in which the solved equation sits in slot `numsolved`,
with the copy appended to `soleqs` and `numsolved` advanced.  So the iteration
raises no dimension error; when it ends normally the solved equation is in the
solved region, its copy is the last entry of `soleqs`, the solved count has
advanced by one and every pending slot holds the result of the substitution. -/
theorem recassign_second_dimenchk_ignored (C : Collab) (fuel j : Nat) (s : RState)
    (e0 e2 troub : expr) (hj : s.numsolved ≤ j)
    (h : s.eqn[j]? = some e0) (hd : C.dimenchk e0 = none)
    (hl : linOne C (C.eqnumsimp e0))
    (hs : C.solveknownvar (C.eqnumsimp e0) = (true, e2)) (hb : e2.etype = .binop)
    (htroub : C.dimenchk e2 = some troub) :
    scanBody C fuel j s =
      (substLoop C fuel (s.numsolved + 1)
        (((swapped s j).set s.numsolved e2).length - (s.numsolved + 1)) (s.numsolved + 1)
        ((swapped s j).set s.numsolved e2)).map
        (fun eqn3 => { s with eqn := eqn3, soleqs := s.soleqs ++ [copyexpr e2],
                              numsolved := s.numsolved + 1 }) ∧
    (∀ st, scanBody C fuel j s ≠ .thrown (.dimenchkInconsistency troub) st) ∧
    (∀ s1, scanBody C fuel j s = .done s1 →
      s1.soleqs = s.soleqs ++ [e2] ∧ s1.numsolved = s.numsolved + 1 ∧
      s1.eqn[s.numsolved]? = some e2 ∧
      (∀ i y, s.numsolved + 1 ≤ i →
        (if i = j then s.eqn[s.numsolved]? else s.eqn[i]?) = some y →
        ∃ y1, s1.eqn[i]? = some y1 ∧ substStep C fuel e2 y = .done y1)) := by
  have _htroub := htroub
  have hbody := scanBody_solve C fuel h hd hl hs hb
  refine ⟨hbody, ?_, ?_⟩
  · intro st hthrow
    rw [hbody] at hthrow
    obtain ⟨eqn3, hsub, _⟩ := Outcome.map_eq_thrown hthrow
    -- the substitution loop throws `substinNonBinop` only
    have hsubst : ∀ n q eqn err eqn1,
        substLoop C fuel (s.numsolved + 1) n q eqn = .thrown err eqn1 →
        err = .substinNonBinop := by
      intro n
      induction n with
      | zero => intro q eqn err eqn1 h1; simp [substLoop] at h1
      | succ n ih =>
        intro q eqn err eqn1 h1
        rw [substLoop] at h1
        split at h1
        · rename_i eqexpr assign _ _
          cases hst : substStep C fuel assign eqexpr with
          | done e1 => rw [hst] at h1; exact ih _ _ _ _ h1
          | hang => rw [hst] at h1; cases h1
          | thrown err2 e1 =>
            rw [hst] at h1
            simp only [Outcome.thrown.injEq] at h1
            rw [← h1.1]
            unfold substStep at hst
            split at hst
            · split at hst
              · cases hst
              · split at hst
                · simp only [Outcome.thrown.injEq] at hst; exact hst.1.symm
                · cases hst
            · cases hst
        · cases h1
    have := hsubst _ _ _ _ _ hsub
    cases this
  · intro s1 hdone
    obtain ⟨h1, h2, _, _, h5, _, h7⟩ := scanBody_solve_done C fuel hj h hd hl hs hb hdone
    exact ⟨h1, h2, h5, h7⟩

/-- C20 at a concrete input: the solve step leaves `z = 3`, a length equated
with a pure number, for the equation `z - 3 = 0` between lengths; the second
check fails on it and the equation is solved all the same. -/
theorem recassign_second_dimenchk_ignored_witness :
    scanBody (Demo.withSolve Demo.solveDimless) 5 0 ⟨[Demo.eqZlen], [2], [], 0⟩ =
      .done ⟨[Demo.eq (.physvarptr 2 (.dims 1 0 0 0 0)) (Demo.num 3)], [2],
        [Demo.eq (.physvarptr 2 (.dims 1 0 0 0 0)) (Demo.num 3)], 1⟩ ∧
    recassign (Demo.withSolve Demo.solveDimless) 5 [Demo.eqZlen] [2] [] =
      .done ⟨[], [], [Demo.eq (.physvarptr 2 (.dims 1 0 0 0 0)) (Demo.num 3)], 1⟩ :=
  ⟨(recassign_second_dimenchk_ignored (Demo.withSolve Demo.solveDimless) 5 0
      ⟨[Demo.eqZlen], [2], [], 0⟩ Demo.eqZlen
      (Demo.eq (.physvarptr 2 (.dims 1 0 0 0 0)) (Demo.num 3))
      (Demo.eq (.physvarptr 2 (.dims 1 0 0 0 0)) (Demo.num 3))
      (by decide) rfl (by with_unfolding_all rfl) (by with_unfolding_all decide) rfl rfl
      (by with_unfolding_all rfl)).1.trans (by with_unfolding_all rfl),
    by with_unfolding_all rfl⟩

/-! ## The list as a rearrangement of the list at entry -/

section Rearrangement
variable (C : Collab) (fuel : Nat)

theorem Rewr.trans {a b c : expr} (h1 : Rewr C a b) (h2 : Rewr C b c) : Rewr C a c := by
  induction h2 with
  | refl => exact h1
  | eqnumsimp _ ih => exact .eqnumsimp ih
  | solveknownvar _ ih => exact .solveknownvar ih
  | substin assign _ ih => exact .substin assign ih
  | flatten _ ih => exact .flatten ih

theorem flattenLoop_rewr :
    ∀ f e r, flattenLoop C f e = some r → Rewr C e r := by
  intro f
  induction f with
  | zero => intro e r h; simp [flattenLoop] at h
  | succ f ih =>
    intro e r h
    rw [flattenLoop] at h
    have hfl : Rewr C e (C.flatten e).2 := .flatten (.refl e)
    rcases hfe : C.flatten e with ⟨b, e2⟩
    rw [hfe] at h hfl
    cases b with
    | true => exact Rewr.trans C hfl (ih e2 r h)
    | false =>
      simp only [Option.some.injEq] at h
      subst h
      exact hfl

theorem substStep_rewr {assign e e1 : expr} (h : substStep C fuel assign e = .done e1) :
    Rewr C e e1 := by
  unfold substStep at h
  have hsub : Rewr C e (C.substin e assign).2 := .substin assign (.refl e)
  rcases hse : C.substin e assign with ⟨b, e2⟩
  rw [hse] at h hsub
  cases b with
  | true =>
    simp only at h
    cases hfl : flattenLoop C fuel (C.eqnumsimp e2) with
    | none => rw [hfl] at h; cases h
    | some e3 =>
      rw [hfl] at h
      simp only at h
      split at h
      · cases h
      · simp only [Outcome.done.injEq] at h
        subst h
        exact Rewr.trans C (.eqnumsimp hsub) (flattenLoop_rewr C _ _ _ hfl)
  | false =>
    simp only [Outcome.done.injEq] at h
    subst h
    exact hsub

theorem Rearranged.refl (eqn : List expr) : Rearranged C eqn eqn :=
  ⟨rfl, Equiv.refl Nat, fun _ _ => rfl, fun _ e h => ⟨e, h, .refl e⟩⟩

/-- Rewriting one slot in place keeps the arrangement. -/
theorem Rearranged.set_slot {eqn0 eqn : List expr} (h : Rearranged C eqn0 eqn) {j : Nat}
    {x y : expr} (hx : eqn[j]? = some x) (hxy : Rewr C x y) :
    Rearranged C eqn0 (eqn.set j y) := by
  obtain ⟨hlen, σ, hfix, hslots⟩ := h
  refine ⟨by simpa using hlen, σ, hfix, ?_⟩
  intro i e hi
  by_cases hij : i = j
  · subst hij
    rw [List.getElem?_set_self (getElem?_lt hx)] at hi
    cases hi
    obtain ⟨e0, h0, hr⟩ := hslots i x hx
    exact ⟨e0, h0, Rewr.trans C hr hxy⟩
  · rw [List.getElem?_set_ne (by omega)] at hi
    exact hslots i e hi

/-- An iteration of the scan loop that ends normally keeps the arrangement: a
solve exchanges the slots `numsolved` and `j`, everything else rewrites slots
in place. -/
theorem scanBody_rearranged {eqn0 : List expr} {j : Nat} {s s1 : RState}
    (hj : s.numsolved ≤ j) (hr : Rearranged C eqn0 s.eqn)
    (hb : scanBody C fuel j s = .done s1) : Rearranged C eqn0 s1.eqn := by
  have hcase := scanBody_case C fuel j s
  rw [hb] at hcase
  generalize hgen : Outcome.done s1 = o at hcase
  cases hcase with
  | none h0 => cases hgen; exact hr
  | dimenchk e0 bad h0 hd => cases hgen
  | skip e0 h0 hd hl =>
    cases hgen
    exact hr.set_slot C h0 (.eqnumsimp (.refl e0))
  | decline e0 e2 h0 hd hl hs =>
    cases hgen
    have : Rewr C e0 (C.solveknownvar (C.eqnumsimp e0)).2 :=
      .solveknownvar (.eqnumsimp (.refl e0))
    rw [hs] at this
    exact hr.set_slot C h0 this
  | nonbinop e0 e2 h0 hd hl hs hb2 => cases hgen
  | solve e0 e2 h0 hd hl hs hb2 =>
    obtain ⟨_, _, _, hlen1, hns, hlow, hhigh⟩ :=
      scanBody_solve_done C fuel hj h0 hd hl hs hb2 hb
    obtain ⟨hlen, σ, hfix, hslots⟩ := hr
    have hjlt := getElem?_lt h0
    have he2 : Rewr C e0 e2 := by
      have : Rewr C e0 (C.solveknownvar (C.eqnumsimp e0)).2 :=
        .solveknownvar (.eqnumsimp (.refl e0))
      rw [hs] at this
      exact this
    refine ⟨by rw [hlen1, hlen], (Equiv.swap s.numsolved j).trans σ, ?_, ?_⟩
    · intro i hi
      rw [Equiv.trans_apply, Equiv.swap_apply_of_ne_of_ne (by omega) (by omega)]
      exact hfix i hi
    · intro i e hi
      have hilt : i < s.eqn.length := by rw [← hlen1]; exact getElem?_lt hi
      rw [Equiv.trans_apply]
      by_cases hin : i = s.numsolved
      · subst hin
        rw [Equiv.swap_apply_left]
        rw [hns] at hi
        cases hi
        obtain ⟨e00, h00, hr0⟩ := hslots j e0 h0
        exact ⟨e00, h00, Rewr.trans C hr0 he2⟩
      · by_cases hlt : i < s.numsolved
        · rw [Equiv.swap_apply_of_ne_of_ne (by omega) (by omega)]
          rw [hlow i hlt] at hi
          exact hslots i e hi
        · by_cases hij : i = j
          · subst hij
            rw [Equiv.swap_apply_right]
            obtain ⟨y1, hy1, hstep⟩ := hhigh i (s.eqn[s.numsolved]) (by omega)
              (by rw [if_pos rfl]; exact List.getElem?_eq_getElem (by omega))
            rw [hi] at hy1
            cases hy1
            obtain ⟨e00, h00, hr0⟩ := hslots s.numsolved _
              (List.getElem?_eq_getElem (by omega))
            exact ⟨e00, h00, Rewr.trans C hr0 (substStep_rewr C fuel hstep)⟩
          · rw [Equiv.swap_apply_of_ne_of_ne (by omega) (by omega)]
            obtain ⟨y1, hy1, hstep⟩ := hhigh i (s.eqn[i]) (by omega)
              (by rw [if_neg hij]; exact List.getElem?_eq_getElem hilt)
            rw [hi] at hy1
            cases hy1
            obtain ⟨e00, h00, hr0⟩ := hslots i _ (List.getElem?_eq_getElem hilt)
            exact ⟨e00, h00, Rewr.trans C hr0 (substStep_rewr C fuel hstep)⟩

/-- What holds at every iteration boundary of the main loop. -/
theorem reach_inv {eqn : List expr} {vars : List Nat} {soleqs : List expr} {j : Nat}
    {s : RState} (h : Reach C fuel eqn vars soleqs j s) :
    s.numsolved ≤ j ∧ j ≤ eqn.length ∧ Core C eqn.length vars soleqs s ∧
      Rearranged C eqn s.eqn := by
  induction h with
  | entry => exact ⟨Nat.le_refl _, Nat.zero_le _, core_init C eqn vars soleqs,
      Rearranged.refl C eqn⟩
  | iteration _ hlt hb ih =>
    obtain ⟨hns, _, hcore, hr⟩ := ih
    obtain ⟨hc1, hns1⟩ := scanBody_core C fuel ⟨hcore, hns⟩ hb
    exact ⟨hns1, hlt, hc1, scanBody_rearranged C fuel hns hr hb⟩
  | pass _ ih =>
    obtain ⟨_, _, hcore, hr⟩ := ih
    exact ⟨Nat.le_refl _, hcore.le, hcore, hr⟩

theorem scanLoop_reach {eqn : List expr} {vars : List Nat} {soleqs : List expr} :
    ∀ n j s s1, Reach C fuel eqn vars soleqs j s → j + n ≤ eqn.length →
      scanLoop C fuel n j s = .done s1 → Reach C fuel eqn vars soleqs (j + n) s1 := by
  intro n
  induction n with
  | zero => intro j s s1 hr _ h; simp [scanLoop] at h; subst h; exact hr
  | succ n ih =>
    intro j s s1 hr hle h
    rw [scanLoop] at h
    cases hb : scanBody C fuel j s with
    | done s2 =>
      rw [hb] at h
      have := ih (j + 1) s2 s1 (.iteration hr (by omega) hb) (by omega) h
      rwa [show j + (n + 1) = j + 1 + n by omega]
    | thrown err s2 => rw [hb] at h; cases h
    | hang => rw [hb] at h; cases h

theorem passes_reach {eqn : List expr} {vars : List Nat} {soleqs : List expr} :
    ∀ p s s1, Reach C fuel eqn vars soleqs s.numsolved s →
      passes C fuel eqn.length p s = .done s1 → Reach C fuel eqn vars soleqs eqn.length s1 := by
  intro p
  induction p with
  | zero => intro s s1 _ h; simp [passes] at h
  | succ p ih =>
    intro s s1 hr h
    rw [passes] at h
    have hle := (reach_inv C fuel hr).2.1
    cases hsc : scanLoop C fuel (eqn.length - s.numsolved) s.numsolved s with
    | done s2 =>
      rw [hsc] at h
      have hr2 := scanLoop_reach C fuel _ _ s s2 hr (by omega) hsc
      rw [show s.numsolved + (eqn.length - s.numsolved) = eqn.length by omega] at hr2
      by_cases hprog : s.numsolved = s2.numsolved
      · simp [hprog] at h
        subst h
        exact hr2
      · simp [hprog] at h
        exact ih s2 s1 (.pass hr2) h
    | thrown err s2 => rw [hsc] at h; cases h
    | hang => rw [hsc] at h; cases h

end Rearrangement

/-- C18 (as stated) fails inside an iteration.  In iteration `j = 0` on
`x - 3 = 0`, `x + y = 5` the solve advances `numsolved` to 1 before the
substitution loop runs, and a `throw` of that loop (line 124) shows the state:
the solved count 1 is above the scan index 0.  In iteration `j = 1` on
`y + z = 5`, `x - 3 = 0` line 90 copies slot 0 into slot 1 before line 97 stores
the solved equation, and the `throw` of line 91 shows the state: `y + z = 5`
sits in both slots and `x - 3 = 0` in none. -/
theorem recassign_main_loop_counterexample :
    scanBody Demo.substBare 5 0 ⟨[Demo.eqX, Demo.eqXY], [0, 1], [], 0⟩ =
      .thrown .substinNonBinop ⟨[Demo.eq Demo.X (Demo.num 3), Demo.eqXY], [0, 1],
        [Demo.eq Demo.X (Demo.num 3)], 1⟩ ∧
    ¬ (1 ≤ 0) ∧
    scanBody (Demo.withSolve Demo.solveBare) 5 1 ⟨[Demo.eqYZ, Demo.eqX], [0, 1, 2], [], 0⟩ =
      .thrown .solveknownvarNonBinop ⟨[Demo.eqYZ, Demo.eqYZ], [0, 1, 2], [], 0⟩ ∧
    Demo.eqX ∉ [Demo.eqYZ, Demo.eqYZ] :=
  ⟨by with_unfolding_all rfl, by decide, by with_unfolding_all rfl,
    by simp [Demo.eqX, Demo.eqYZ, Demo.eq, Demo.minus, Demo.plus]⟩

/-- C18 (amended). At every iteration boundary of the main loop of `recassign` (state `s`,
next index `j`): the solved count is at most `j`, the list has the length it
had at entry, it is a rearrangement of the list at entry (a permutation of the
slots, each equation possibly rewritten by the collaborators), and its first
`numsolved` entries are the solved equations, those appended to `soleqs`.  A
successful solve in slot `j` puts the solved equation in slot `numsolved` and
the equation displaced from there, after substitution, in slot `j`.  Each pass
scans the slots from `numsolved` to the end, and the state in which the loop
ends is such a boundary. -/
theorem recassign_main_loop_invariant (C : Collab) (fuel : Nat) (eqn : List expr)
    (vars : List Nat) (soleqs : List expr) :
    (∀ j s, Reach C fuel eqn vars soleqs j s →
      s.numsolved ≤ j ∧ j ≤ eqn.length ∧ s.eqn.length = eqn.length ∧
      Rearranged C eqn s.eqn ∧
      s.soleqs = soleqs ++ s.eqn.take s.numsolved ∧
      ∀ e ∈ s.eqn.take s.numsolved, ∃ e1, C.solveknownvar e1 = (true, e)) ∧
    (∀ j s s1 e0 e2, Reach C fuel eqn vars soleqs j s → s.eqn[j]? = some e0 →
      C.dimenchk e0 = none → linOne C (C.eqnumsimp e0) →
      C.solveknownvar (C.eqnumsimp e0) = (true, e2) → e2.etype = .binop →
      scanBody C fuel j s = .done s1 →
      s1.numsolved = s.numsolved + 1 ∧ s1.eqn[s.numsolved]? = some e2 ∧
      (j ≠ s.numsolved → ∃ y y1, s.eqn[s.numsolved]? = some y ∧ s1.eqn[j]? = some y1 ∧
        substStep C fuel e2 y = .done y1)) ∧
    (∀ p s, passes C fuel eqn.length (p + 1) s =
      match scanLoop C fuel (eqn.length - s.numsolved) s.numsolved s with
      | .done s1 => if s.numsolved ≠ s1.numsolved then passes C fuel eqn.length p s1
          else .done s1
      | .thrown err s1 => .thrown err s1
      | .hang => .hang) ∧
    (∀ s1, passes C fuel eqn.length fuel
        { eqn := eqn, vars := vars, soleqs := soleqs, numsolved := 0 } = .done s1 →
      Reach C fuel eqn vars soleqs eqn.length s1) := by
  refine ⟨?_, ?_, fun p s => by rw [passes], fun s1 h => passes_reach C fuel fuel _ s1 .entry h⟩
  · intro j s hr
    obtain ⟨hns, hj, hcore, hrr⟩ := reach_inv C fuel hr
    exact ⟨hns, hj, hcore.len, hrr, hcore.sol, fun e he => (hcore.out e he).2⟩
  · intro j s s1 e0 e2 hr h0 hd hl hs hb hdone
    obtain ⟨hns, _, hcore, _⟩ := reach_inv C fuel hr
    obtain ⟨_, h2, _, _, h5, _, h7⟩ := scanBody_solve_done C fuel hns h0 hd hl hs hb hdone
    refine ⟨h2, h5, fun hne => ?_⟩
    have hjlt := getElem?_lt h0
    obtain ⟨y1, hy1, hstep⟩ := h7 j (s.eqn[s.numsolved]) (by omega)
      (by rw [if_pos rfl]; exact List.getElem?_eq_getElem (by omega))
    exact ⟨_, y1, List.getElem?_eq_getElem (by omega), hy1, hstep⟩

/-- C18 (amended) at a concrete input: the state in which the main loop ends for
`5 = 5`, `x - 3 = 0`, `y + z = 5`, where the solve exchanged slots 0 and 1. -/
theorem recassign_main_loop_invariant_witness :
    Reach Demo.C 5 [Demo.eq55, Demo.eqX, Demo.eqYZ] [0, 1, 2] [] 3
      ⟨[Demo.eq Demo.X (Demo.num 3), Demo.eq55, Demo.eqYZ], [0, 1, 2],
        [Demo.eq Demo.X (Demo.num 3)], 1⟩ :=
  (recassign_main_loop_invariant Demo.C 5 [Demo.eq55, Demo.eqX, Demo.eqYZ] [0, 1, 2] []).2.2.2
    _ (by with_unfolding_all rfl)

/-! ## `solprint` -/

section Solprint
variable (G : PrintEnv) (numsols : Option (List ℚ)) (forhelp : Bool)

theorem solprint_not_equation {op : oper} (lhs rhs : expr) (MKS : dimens)
    (h : op.opty ≠ .equalse) :
    solprint G numsols forhelp op lhs rhs MKS =
      (.thrown "Tried to write a solution that is not an equation", numsols) := by
  simp [solprint, h]

theorem solprint_lhs {op : oper} {lhs : expr} (rhs : expr) (MKS : dimens)
    (h : op.opty = .equalse) (hl : lhs.etype ≠ .physvart) :
    solprint G numsols forhelp op lhs rhs MKS =
      (.thrown "Tried to write a solution with lhs not a variable", numsols) := by
  cases lhs <;> simp [solprint, h, expr.etype] at hl ⊢

theorem solprint_rhs {op : oper} (v : Nat) (d : dimens) {rhs : expr} (MKS : dimens)
    (h : op.opty = .equalse) (hr : rhs.etype ≠ .numval) :
    solprint G numsols forhelp op (.physvarptr v d) rhs MKS =
      (.thrown "Tried to write a solution with rhs not a value", numsols) := by
  cases rhs <;> simp [solprint, h, expr.etype] at hr ⊢

theorem solprint_no_table {op : oper} (v : Nat) (d : dimens) (c : ℚ) (d2 MKS : dimens)
    (h : op.opty = .equalse) :
    solprint G none forhelp op (.physvarptr v d) (.numvalexp c d2) MKS =
      (.thrown "solprint called without numsols existing", none) := by
  simp [solprint, h]

theorem solprint_small_table {op : oper} (v : Nat) (d : dimens) (c : ℚ) (d2 MKS : dimens)
    {table : List ℚ} (h : op.opty = .equalse) (ht : table.length ≤ v) :
    solprint G (some table) forhelp op (.physvarptr v d) (.numvalexp c d2) MKS =
      (.thrown "solprint called with numsols too small", some table) := by
  simp [solprint, h, ht]

/-- Past the five first tests, with the variable in the canonical table. -/
theorem solprint_written {op : oper} (v : Nat) (d : dimens) (c : ℚ) (d2 MKS : dimens)
    {table : List ℚ} {cv : List physvar} {pv : physvar}
    (h : op.opty = .equalse) (ht : v < table.length) (hcv : G.canonvars = some cv)
    (hpv : cv[v]? = some pv) :
    solprint G (some table) forhelp op (.physvarptr v d) (.numvalexp c d2) MKS =
      if pv.prefUnit ≠ "" then
        if ¬ (d2 = (G.getfromunits pv.prefUnit).2) then
          match (expr.binopexp op (.physvarptr v d) (.numvalexp c d2) MKS).getInfix G with
          | some eqstr =>
            (.thrown (eqstr ++ " inconsistent with preferred units for " ++ pv.clipsname),
              some (table.set v c))
          | none => (.undefined, some (table.set v c))
        else
          (.ok (solstring G forhelp pv.clipsname (c / (G.getfromunits pv.prefUnit).1)
            pv.prefUnit), some (table.set v c))
      else
        match unitprint G d2 with
        | some unitstr => (.ok (solstring G forhelp pv.clipsname c unitstr), some (table.set v c))
        | none => (.undefined, some (table.set v c)) := by
  have hnot : ¬ table.length ≤ v := by omega
  simp only [solprint, h, ne_eq, not_true_eq_false, if_false, hnot, hcv, Option.some_bind, hpv]

/-- Past the five first tests, with the variable outside the canonical table
(or no table): `(*canonvars)[varidx]` is read all the same. -/
theorem solprint_outside {op : oper} (v : Nat) (d : dimens) (c : ℚ) (d2 MKS : dimens)
    {table : List ℚ} (h : op.opty = .equalse) (ht : v < table.length)
    (hcv : G.canonvars.bind (fun cv => cv[v]?) = none) :
    solprint G (some table) forhelp op (.physvarptr v d) (.numvalexp c d2) MKS =
      (.undefined, some (table.set v c)) := by
  have hnot : ¬ table.length ≤ v := by omega
  simp only [solprint, h, ne_eq, not_true_eq_false, if_false, hnot, hcv]

end Solprint


/-- Once the five checks of lines 167-179 are passed, `solprint` has written the
value at the variable's index, whatever happens next. -/
theorem solprint_snd_written (G : PrintEnv) (forhelp : Bool) {op : oper} (v : Nat) (d : dimens)
    (c : ℚ) (d2 MKS : dimens) {table : List ℚ} (h : op.opty = .equalse)
    (ht : v < table.length) :
    (solprint G (some table) forhelp op (.physvarptr v d) (.numvalexp c d2) MKS).2 =
      some (table.set v c) := by
  have hnot : ¬ table.length ≤ v := by omega
  simp only [solprint, h, ne_eq, not_true_eq_false, if_false, hnot]
  split
  · rfl
  · split_ifs
    · split <;> rfl
    · rfl
    · split <;> rfl

/-- A `solprint` call that returns a string was given an equation
`v = c` and a table with an entry for `v`. -/
theorem solprint_ok_shape (G : PrintEnv) (numsols : Option (List ℚ)) (forhelp : Bool)
    (op : oper) (lhs rhs : expr) (MKS : dimens) (str : String)
    (h : (solprint G numsols forhelp op lhs rhs MKS).1 = .ok str) :
    op.opty = .equalse ∧ ∃ v d c d2 table, lhs = .physvarptr v d ∧ rhs = .numvalexp c d2 ∧
      numsols = some table ∧ v < table.length := by
  by_cases h1 : op.opty = .equalse
  swap
  · rw [solprint_not_equation G numsols forhelp lhs rhs MKS h1] at h
    cases h
  by_cases h2 : lhs.etype = .physvart
  swap
  · rw [solprint_lhs G numsols forhelp rhs MKS h1 h2] at h
    cases h
  obtain ⟨v, d, rfl⟩ : ∃ v d, lhs = .physvarptr v d := by
    cases lhs <;> simp [expr.etype] at h2
    exact ⟨_, _, rfl⟩
  by_cases h3 : rhs.etype = .numval
  swap
  · rw [solprint_rhs G numsols forhelp v d MKS h1 h3] at h
    cases h
  obtain ⟨c, d2, rfl⟩ : ∃ c d2, rhs = .numvalexp c d2 := by
    cases rhs <;> simp [expr.etype] at h3
    exact ⟨_, _, rfl⟩
  cases numsols with
  | none =>
    rw [solprint_no_table G forhelp v d c d2 MKS h1] at h
    cases h
  | some table =>
    by_cases h5 : table.length ≤ v
    · rw [solprint_small_table G forhelp v d c d2 MKS h1 h5] at h
      cases h
    · exact ⟨h1, v, d, c, d2, table, rfl, rfl, rfl, by omega⟩

/-- C16. A `solprint` call that returns a string was made on an equation
`v = c` with a solved-value table that has an entry for `v`; it leaves the
table with the value `c` of the equation at index `v` (not the value divided
by the preferred unit's factor that the string shows), with every other entry
and the length unchanged; and a later successful call for the same `v` with a
value `c2` leaves the table as if only `c2` had been written. -/
theorem solprint_writes_table (G : PrintEnv) (numsols numsols1 : Option (List ℚ))
    (forhelp : Bool) (op : oper) (lhs rhs : expr) (MKS : dimens) (str : String)
    (h : solprint G numsols forhelp op lhs rhs MKS = (.ok str, numsols1)) :
    ∃ v d c d2 table, lhs = .physvarptr v d ∧ rhs = .numvalexp c d2 ∧
      numsols = some table ∧ v < table.length ∧
      numsols1 = some (table.set v c) ∧
      (table.set v c)[v]? = some c ∧
      (∀ i, i ≠ v → (table.set v c)[i]? = table[i]?) ∧
      (table.set v c).length = table.length ∧
      ∀ (forhelp2 : Bool) (op2 : oper) (d3 : dimens) (c2 : ℚ) (d4 MKS2 : dimens)
        (str2 : String) (numsols2 : Option (List ℚ)),
        solprint G numsols1 forhelp2 op2 (.physvarptr v d3) (.numvalexp c2 d4) MKS2 =
          (.ok str2, numsols2) →
        numsols2 = some (table.set v c2) := by
  obtain ⟨h1, v, d, c, d2, table, rfl, rfl, rfl, hv⟩ :=
    solprint_ok_shape G numsols forhelp op lhs rhs MKS str (by rw [h])
  have h2 := solprint_snd_written G forhelp v d c d2 MKS h1 hv
  rw [h] at h2
  simp only at h2
  subst h2
  refine ⟨v, d, c, d2, table, rfl, rfl, rfl, hv, rfl, ?_, ?_, ?_, ?_⟩
  · rw [List.getElem?_set_self hv]
  · intro i hi
    rw [List.getElem?_set_ne (Ne.symm hi)]
  · rw [List.length_set]
  · intro forhelp2 op2 d3 c2 d4 MKS2 str2 numsols2 hlater
    obtain ⟨h1b, _⟩ := solprint_ok_shape G _ forhelp2 op2 _ _ MKS2 str2 (by rw [hlater])
    have h3 := @solprint_snd_written G forhelp2 op2 v d3 c2 d4 MKS2 (table.set v c) h1b
      (by rw [List.length_set]; exact hv)
    rw [hlater] at h3
    simp only at h3
    rw [h3, List.set_set]

/-- C16 at a concrete input: `y = 3 m` with preferred unit `cm`; the string
shows 300 cm and the table holds 3 at index 1. -/
theorem solprint_writes_table_witness :
    solprint Demo.G (some [0, 0, 0]) false Demo.eqop Demo.Y (.numvalexp 3 (.dims 1 0 0 0 0))
        Demo.nodim = (.ok "(SVAR y 300 cm )", some [0, 3, 0]) ∧
    ∃ v d c d2 table, Demo.Y = .physvarptr v d ∧
      expr.numvalexp 3 (.dims 1 0 0 0 0) = .numvalexp c d2 ∧
      some [(0 : ℚ), 0, 0] = some table ∧ v < table.length ∧
      some [(0 : ℚ), 3, 0] = some (table.set v c) ∧
      (table.set v c)[v]? = some c ∧
      (∀ i, i ≠ v → (table.set v c)[i]? = table[i]?) ∧
      (table.set v c).length = table.length ∧
      ∀ (forhelp2 : Bool) (op2 : oper) (d3 : dimens) (c2 : ℚ) (d4 MKS2 : dimens)
        (str2 : String) (numsols2 : Option (List ℚ)),
        solprint Demo.G (some [0, 3, 0]) forhelp2 op2 (.physvarptr v d3) (.numvalexp c2 d4)
          MKS2 = (.ok str2, numsols2) →
        numsols2 = some (table.set v c2) :=
  ⟨by with_unfolding_all rfl,
    solprint_writes_table Demo.G (some [0, 0, 0]) (some [0, 3, 0]) false Demo.eqop Demo.Y
      (.numvalexp 3 (.dims 1 0 0 0 0)) Demo.nodim "(SVAR y 300 cm )"
      (by with_unfolding_all rfl)⟩

/-! ## Variable indices outside the canonical variable table -/

/-- `physvarptr::getInfix` (lines 142-149): the name for an index inside the
table, a diagnostic string for an index outside, and another when there is no
table; the table is read only inside its bounds. -/
theorem getInfix_physvarptr (G : PrintEnv) (v : Nat) (d : dimens) :
    (G.canonvars = none → (expr.physvarptr v d).getInfix G = some "no physvar list") ∧
    (∀ cv, G.canonvars = some cv → cv.length ≤ v →
      (expr.physvarptr v d).getInfix G =
        some "physvarptr points to index greater than list size") ∧
    (∀ cv pv, G.canonvars = some cv → cv[v]? = some pv →
      (expr.physvarptr v d).getInfix G = some pv.clipsname) := by
  refine ⟨fun h => ?_, fun cv h hv => ?_, fun cv pv h hv => ?_⟩
  · simp only [expr.getInfix, h]
  · simp only [expr.getInfix, h, List.getElem?_eq_none hv]
  · simp only [expr.getInfix, h, hv]

/-- `physvarptr::getLisp` (lines 384-394): the name, between vertical bars when
`withbarp` is set, for an index inside the table, a diagnostic string for an
index outside, and another when there is no table. -/
theorem getLisp_physvarptr (G : PrintEnv) (withbarp : Bool) (v : Nat) (d : dimens) :
    (G.canonvars = none → (expr.physvarptr v d).getLisp G withbarp = some "no physvar list") ∧
    (∀ cv, G.canonvars = some cv → cv.length ≤ v →
      (expr.physvarptr v d).getLisp G withbarp =
        some "physvarptr points to index greater than list size") ∧
    (∀ cv pv, G.canonvars = some cv → cv[v]? = some pv →
      (expr.physvarptr v d).getLisp G withbarp =
        some (if withbarp then "|" ++ pv.clipsname ++ "|" else pv.clipsname)) := by
  refine ⟨fun h => ?_, fun cv h hv => ?_, fun cv pv h hv => ?_⟩
  · simp only [expr.getLisp, h]
  · simp only [expr.getLisp, h, List.getElem?_eq_none hv]
  · simp only [expr.getLisp, h, hv]
    cases withbarp <;> simp

/-- C17 (the code at the failing input). With three canonical variables and a
solved-value table of four entries, `solprint` on the equation `v3 = 3` passes
its checks, writes entry 3 of the table and then reads `(*canonvars)[3]`, one
past the end of the variable table, where `getInfix` and `getLisp` of the same
variable answer with their diagnostic string; with no variable table at all
`solprint` reads through the NULL pointer. -/
theorem solprint_reads_outside_canonvars :
    solprint Demo.G (some [0, 0, 0, 0]) false Demo.eqop (.physvarptr 3 Demo.nodim)
        (Demo.num 3) Demo.nodim = (.undefined, some [0, 0, 0, 3]) ∧
    (expr.physvarptr 3 Demo.nodim).getInfix Demo.G =
      some "physvarptr points to index greater than list size" ∧
    (expr.physvarptr 3 Demo.nodim).getLisp Demo.G true =
      some "physvarptr points to index greater than list size" ∧
    solprint { Demo.G with canonvars := none } (some [0]) false Demo.eqop Demo.X
        (Demo.num 3) Demo.nodim = (.undefined, some [3]) ∧
    Demo.X.getInfix { Demo.G with canonvars := none } = some "no physvar list" := by
  refine ⟨by with_unfolding_all rfl, ?_, ?_, by with_unfolding_all rfl, ?_⟩
  · simp [expr.getInfix, Demo.G]
  · simp [expr.getLisp, Demo.G]
  · simp [expr.getInfix, Demo.X]

/-! ## `unitprint` -/

/-- An exponent that looks like the integer 1 is printed as nothing. -/
theorem ustrp_one (G : PrintEnv) (e : ℚ) (h : G.lookslikeint e = some 1) :
    ustrp G e = some "" := by
  simp only [ustrp, h, if_true]

/-- A print of fewer than 8 characters fits the buffer of `ustrp`; a longer one
overflows it. -/
theorem ustrp_cases (G : PrintEnv) (e : ℚ) :
    (∀ q, G.lookslikeint e = some q → q ≠ 1 →
      ustrp G e = if ("^" ++ G.sprintf_d q).length < 8 then some ("^" ++ G.sprintf_d q)
        else none) ∧
    (G.lookslikeint e = none →
      ustrp G e = if ("^" ++ G.sprintf_1lf e).length < 8 then some ("^" ++ G.sprintf_1lf e)
        else none) := by
  constructor
  · intro q h hq
    simp only [ustrp, h, hq, if_false, sprintfBuf]
  · intro h
    simp only [ustrp, h, sprintfBuf]

theorem appendIf_of (G : PrintEnv) (pw : ℚ → String) (cond : Prop) [Decidable cond] (e : ℚ)
    (f : String → String) (h : cond → ustrp G e = some (pw e)) (u : String) :
    appendIf cond u ((ustrp G e).map f) = some (u ++ (if cond then f (pw e) else "")) := by
  unfold appendIf
  split_ifs with hc
  · rw [h hc]
    rfl
  · simp

theorem eraseLast_append_dot (s : String) : eraseLast (s ++ ".") = s := by
  apply String.ext
  show (s ++ ".").data.dropLast = s.data
  rw [String.data_append]
  exact List.dropLast_concat

theorem lastIs_append_dot (s : String) : lastIs (s ++ ".") '.' = true := by
  unfold lastIs
  rw [String.data_append]
  show ((s.data ++ ['.']).getLast? == some '.') = true
  rw [List.getLast?_concat]
  rfl

theorem length_append_dot_pos (s : String) : (s ++ ".").length > 0 := by
  rw [String.length_append]
  show s.length + 1 > 0
  omega

theorem join_nil : String.join [] = "" := rfl

theorem join_cons (a : String) (l : List String) : String.join (a :: l) = a ++ String.join l := by
  apply String.ext
  simp [String.data_join, String.data_append]

theorem join_map_filter_cons {α : Type} (p : α → Bool) (f : α → String) (u : α) (us : List α) :
    String.join (((u :: us).filter p).map f) =
      (if p u = true then f u else "") ++ String.join ((us.filter p).map f) := by
  by_cases h : p u = true
  · simp [List.filter_cons, h, join_cons]
  · simp [List.filter_cons, h]

theorem intercalate_go (s : String) : ∀ (as : List String) (acc : String),
    String.intercalate.go acc s as = acc ++ String.join (as.map (fun x => s ++ x))
  | [], acc => by simp [String.intercalate.go, join_nil]
  | a :: as, acc => by
    rw [String.intercalate.go, intercalate_go s as]
    simp [join_cons, String.append_assoc]

theorem intercalate_cons (s a : String) (as : List String) :
    s.intercalate (a :: as) = a ++ String.join (as.map (fun x => s ++ x)) := by
  rw [String.intercalate, intercalate_go]

theorem join_dot_shift : ∀ as : List String,
    String.join (as.map (fun x => "." ++ x)) ++ "." = "." ++ String.join (as.map (fun x => x ++ "."))
  | [] => by simp [join_nil]
  | a :: as => by
    rw [List.map_cons, List.map_cons, join_cons, join_cons, String.append_assoc,
      String.append_assoc, join_dot_shift as, String.append_assoc]

/-- The pieces of a non-empty list, each followed by a dot, are the pieces
joined by dots and one more dot. -/
theorem join_dotted (a : String) (as : List String) :
    String.join ((a :: as).map (fun x => x ++ ".")) = ".".intercalate (a :: as) ++ "." := by
  rw [intercalate_cons, List.map_cons, join_cons, String.append_assoc, String.append_assoc,
    join_dot_shift]


/-- The code of `unitprint` on exponents, when every print of an exponent fits
its buffer (`pw` gives the prints): the units with a positive exponent, each
followed by a dot, then the trailing dot erased and the denominators, or the
units with a negative exponent. -/
theorem unitprint_dims (G : PrintEnv) (pw : ℚ → String) (l m t c k : ℚ)
    (hnone : G.unittable_match (.dims l m t c k) = "None")
    (hfit : ∀ e ∈ [l, m, t, c, k], (0 < e → ustrp G e = some (pw e)) ∧
      (e < 0 → ustrp G e = some (pw e) ∧ ustrp G (-e) = some (pw (-e)))) :
    unitprint G (.dims l m t c k) = some (
      if (String.join (((baseUnits l m t c k).filter (fun u => 0 < u.2)).map
          (fun u => u.1 ++ pw u.2 ++ "."))).length > 0 then
        (if lastIs (String.join (((baseUnits l m t c k).filter (fun u => 0 < u.2)).map
            (fun u => u.1 ++ pw u.2 ++ "."))) '.' then
          eraseLast (String.join (((baseUnits l m t c k).filter (fun u => 0 < u.2)).map
            (fun u => u.1 ++ pw u.2 ++ ".")))
        else String.join (((baseUnits l m t c k).filter (fun u => 0 < u.2)).map
            (fun u => u.1 ++ pw u.2 ++ "."))) ++
          String.join (((baseUnits l m t c k).filter (fun u => u.2 < 0)).map
            (fun u => "/" ++ u.1 ++ pw (-u.2)))
      else
        if (String.join (((baseUnits l m t c k).filter (fun u => 0 < u.2)).map
              (fun u => u.1 ++ pw u.2 ++ ".")) ++
            String.join (((baseUnits l m t c k).filter (fun u => u.2 < 0)).map
              (fun u => u.1 ++ pw u.2 ++ "."))).length > 0 ∧
            lastIs (String.join (((baseUnits l m t c k).filter (fun u => 0 < u.2)).map
              (fun u => u.1 ++ pw u.2 ++ ".")) ++
            String.join (((baseUnits l m t c k).filter (fun u => u.2 < 0)).map
              (fun u => u.1 ++ pw u.2 ++ "."))) '.' then
          eraseLast (String.join (((baseUnits l m t c k).filter (fun u => 0 < u.2)).map
              (fun u => u.1 ++ pw u.2 ++ ".")) ++
            String.join (((baseUnits l m t c k).filter (fun u => u.2 < 0)).map
              (fun u => u.1 ++ pw u.2 ++ ".")))
        else String.join (((baseUnits l m t c k).filter (fun u => 0 < u.2)).map
              (fun u => u.1 ++ pw u.2 ++ ".")) ++
            String.join (((baseUnits l m t c k).filter (fun u => u.2 < 0)).map
              (fun u => u.1 ++ pw u.2 ++ "."))) := by
  have e1 : ("/m" : String) = "/" ++ "m" := by decide
  have e2 : ("/kg" : String) = "/" ++ "kg" := by decide
  have e3 : ("/s" : String) = "/" ++ "s" := by decide
  have e4 : ("/C" : String) = "/" ++ "C" := by decide
  have e5 : ("/K" : String) = "/" ++ "K" := by decide
  have hl := hfit l (by simp)
  have hm := hfit m (by simp)
  have ht := hfit t (by simp)
  have hc := hfit c (by simp)
  have hk := hfit k (by simp)
  simp only [unitprint, hnone, if_true]
  simp only [
    appendIf_of G pw (l > 0) l (fun p => "m" ++ p ++ ".") hl.1,
    appendIf_of G pw (m > 0) m (fun p => "kg" ++ p ++ ".") hm.1,
    appendIf_of G pw (t > 0) t (fun p => "s" ++ p ++ ".") ht.1,
    appendIf_of G pw (c > 0) c (fun p => "C" ++ p ++ ".") hc.1,
    appendIf_of G pw (k > 0) k (fun p => "K" ++ p ++ ".") hk.1,
    appendIf_of G pw (l < 0) (-l) (fun p => "/m" ++ p) (fun h => (hl.2 h).2),
    appendIf_of G pw (m < 0) (-m) (fun p => "/kg" ++ p) (fun h => (hm.2 h).2),
    appendIf_of G pw (t < 0) (-t) (fun p => "/s" ++ p) (fun h => (ht.2 h).2),
    appendIf_of G pw (c < 0) (-c) (fun p => "/C" ++ p) (fun h => (hc.2 h).2),
    appendIf_of G pw (k < 0) (-k) (fun p => "/K" ++ p) (fun h => (hk.2 h).2),
    appendIf_of G pw (l < 0) l (fun p => "m" ++ p ++ ".") (fun h => (hl.2 h).1),
    appendIf_of G pw (m < 0) m (fun p => "kg" ++ p ++ ".") (fun h => (hm.2 h).1),
    appendIf_of G pw (t < 0) t (fun p => "s" ++ p ++ ".") (fun h => (ht.2 h).1),
    appendIf_of G pw (c < 0) c (fun p => "C" ++ p ++ ".") (fun h => (hc.2 h).1),
    appendIf_of G pw (k < 0) k (fun p => "K" ++ p ++ ".") (fun h => (hk.2 h).1),
    Option.some_bind]
  simp only [e1, e2, e3, e4, e5, baseUnits, join_map_filter_cons,
    List.filter_nil, List.map_nil, join_nil, decide_eq_true_eq, gt_iff_lt,
    String.append_assoc, String.empty_append, String.append_empty]
  have key : ∀ (p : Prop) [Decidable p] (a b : String),
      (if p then some a else some b) = some (if p then a else b) := by
    intro p _ a b
    split <;> rfl
  exact key _ _ _

/-- The trailing dot of a dotted list is erased: what is left is the list
joined by dots. -/
theorem dotted_erase (xs : List String) :
    (if (String.join (xs.map (fun x => x ++ "."))).length > 0 ∧
        lastIs (String.join (xs.map (fun x => x ++ "."))) '.' then
      eraseLast (String.join (xs.map (fun x => x ++ ".")))
    else String.join (xs.map (fun x => x ++ "."))) = ".".intercalate xs := by
  cases xs with
  | nil => simp [join_nil, String.intercalate]
  | cons a as =>
    rw [join_dotted, if_pos ⟨length_append_dot_pos _, lastIs_append_dot _⟩,
      eraseLast_append_dot]


theorem unitprint_refines_dims (G : PrintEnv) (pw : ℚ → String) (l m t c k : ℚ)
    (hnone : G.unittable_match (.dims l m t c k) = "None")
    (hfit : ∀ e ∈ [l, m, t, c, k], (0 < e → ustrp G e = some (pw e)) ∧
      (e < 0 → ustrp G e = some (pw e) ∧ ustrp G (-e) = some (pw (-e)))) :
    unitprint G (.dims l m t c k) = some (unitprintSpec pw (.dims l m t c k)) := by
  rw [unitprint_dims G pw l m t c k hnone hfit]
  congr 1
  have hmap : ∀ us : List (String × ℚ),
      us.map (fun u => u.1 ++ pw u.2 ++ ".") =
        (us.map (fun u => u.1 ++ pw u.2)).map (fun x => x ++ ".") := by
    intro us
    rw [List.map_map]
    rfl
  have habs : ∀ us : List (String × ℚ),
      (us.filter (fun u => u.2 < 0)).map (fun u => "/" ++ u.1 ++ pw (-u.2)) =
        (us.filter (fun u => u.2 < 0)).map (fun u => "/" ++ u.1 ++ pw |u.2|) := by
    intro us
    apply List.map_congr_left
    intro u hu
    have h : u.2 < 0 := by simpa using (List.mem_filter.mp hu).2
    rw [abs_of_neg h]
  simp only [unitprintSpec, hmap, habs]
  cases hpos : (baseUnits l m t c k).filter (fun u => 0 < u.2) with
  | nil =>
    simp only [List.map_nil, join_nil, String.empty_append, List.isEmpty_nil, if_true]
    rw [if_neg (by decide)]
    exact dotted_erase _
  | cons a as =>
    simp only [List.isEmpty_cons, Bool.false_eq_true, if_false]
    have hc : List.map (fun u : String × ℚ => u.1 ++ pw u.2) (a :: as) =
        (a.1 ++ pw a.2) :: List.map (fun u => u.1 ++ pw u.2) as := rfl
    rw [hc, join_dotted, if_pos (length_append_dot_pos _),
      if_pos (lastIs_append_dot _), eraseLast_append_dot]

/-! ### The last character of a unit string -/

theorem lastIs_append_false {a b : String} {c : Char} (ha : lastIs a c = false)
    (hb : lastIs b c = false) : lastIs (a ++ b) c = false := by
  unfold lastIs at *
  rw [String.data_append, List.getLast?_append]
  cases h : b.data.getLast? with
  | none => simpa using ha
  | some x =>
    rw [h] at hb
    simpa using hb

theorem lastIs_append_right {a b : String} (c : Char) (hb : b ≠ "") :
    lastIs (a ++ b) c = lastIs b c := by
  unfold lastIs
  rw [String.data_append, List.getLast?_append]
  cases h : b.data.getLast? with
  | none => exact absurd (String.ext (List.getLast?_eq_none_iff.mp h)) hb
  | some x => rfl

theorem append_ne_empty {a : String} (b : String) (ha : a ≠ "") : a ++ b ≠ "" := by
  intro h
  apply ha
  have h2 := congrArg String.data h
  rw [String.data_append] at h2
  exact String.ext (List.append_eq_nil.mp h2).1

theorem lastIs_join_false {c : Char} : ∀ xs : List String,
    (∀ x ∈ xs, lastIs x c = false) → lastIs (String.join xs) c = false
  | [], _ => by simp [join_nil, lastIs]
  | a :: as, h => by
    rw [join_cons]
    exact lastIs_append_false (h a (List.mem_cons_self _ _))
      (lastIs_join_false as (fun x hx => h x (List.mem_cons_of_mem _ hx)))

theorem lastIs_intercalate_false (xs : List String)
    (h : ∀ x ∈ xs, x ≠ "" ∧ lastIs x '.' = false) :
    lastIs (".".intercalate xs) '.' = false := by
  cases xs with
  | nil => simp [String.intercalate, lastIs]
  | cons a as =>
    rw [intercalate_cons]
    refine lastIs_append_false (h a (List.mem_cons_self _ _)).2 (lastIs_join_false _ ?_)
    intro y hy
    obtain ⟨x, hx, rfl⟩ := List.mem_map.mp hy
    have hx2 := h x (List.mem_cons_of_mem _ hx)
    show lastIs ("." ++ x) '.' = false
    rw [lastIs_append_right _ hx2.1]
    exact hx2.2

/-- A print of an exponent does not end with a dot when the `sprintf`
conversions do not. -/
theorem ustrp_lastIs (G : PrintEnv) (hd : ∀ q, lastIs (G.sprintf_d q) '.' = false)
    (hf : ∀ q, lastIs (G.sprintf_1lf q) '.' = false) (e : ℚ) (p : String)
    (h : ustrp G e = some p) : lastIs p '.' = false := by
  unfold ustrp sprintfBuf at h
  split at h
  · split_ifs at h
    · cases h
      decide
    · cases h
      exact lastIs_append_false (by decide) (hd _)
  · split_ifs at h
    cases h
    exact lastIs_append_false (by decide) (hf _)

theorem baseUnits_names (l m t c k : ℚ) :
    ∀ u ∈ baseUnits l m t c k, u.1 ≠ "" ∧ lastIs u.1 '.' = false := by
  intro u hu
  simp only [baseUnits, List.mem_cons, List.mem_singleton, List.not_mem_nil, or_false] at hu
  rcases hu with rfl | rfl | rfl | rfl | rfl
  · exact ⟨(by decide : ("m" : String) ≠ ""), (by decide : lastIs "m" '.' = false)⟩
  · exact ⟨(by decide : ("kg" : String) ≠ ""), (by decide : lastIs "kg" '.' = false)⟩
  · exact ⟨(by decide : ("s" : String) ≠ ""), (by decide : lastIs "s" '.' = false)⟩
  · exact ⟨(by decide : ("C" : String) ≠ ""), (by decide : lastIs "C" '.' = false)⟩
  · exact ⟨(by decide : ("K" : String) ≠ ""), (by decide : lastIs "K" '.' = false)⟩

theorem unitprintSpec_lastIs (pw : ℚ → String) (hpw : ∀ e, lastIs (pw e) '.' = false)
    (dim : dimens) : lastIs (unitprintSpec pw dim) '.' = false := by
  cases dim with
  | unknown => exact (by decide : lastIs "unknown_units" '.' = false)
  | inconsistent => exact (by decide : lastIs "inconsistent_units" '.' = false)
  | dims l m t c k =>
    have hpiece : ∀ (p : String × ℚ → Bool),
        ∀ x ∈ ((baseUnits l m t c k).filter p).map (fun u => u.1 ++ pw u.2),
          x ≠ "" ∧ lastIs x '.' = false := by
      intro p x hx
      obtain ⟨u, hu, rfl⟩ := List.mem_map.mp hx
      have hn := baseUnits_names l m t c k u (List.mem_filter.mp hu).1
      exact ⟨append_ne_empty _ hn.1, lastIs_append_false hn.2 (hpw _)⟩
    simp only [unitprintSpec]
    split_ifs
    · exact lastIs_intercalate_false _ (hpiece _)
    · refine lastIs_append_false (lastIs_intercalate_false _ (hpiece _)) (lastIs_join_false _ ?_)
      intro x hx
      obtain ⟨u, hu, rfl⟩ := List.mem_map.mp hx
      have hn := baseUnits_names l m t c k u (List.mem_filter.mp hu).1
      refine lastIs_append_false ?_ (hpw _)
      rw [lastIs_append_right _ hn.1]
      exact hn.2

/-- The unit string of a dimension that matches no named unit, when every print
of an exponent that `unitprint` asks for fits the buffer of `ustrp`: it is the
string `unitprintSpec` describes, with `unknown_units` and `inconsistent_units`
for the two sentinels and the empty string when the five exponents are zero,
and it does not end with a dot, given that the `sprintf` conversions of an
exponent do not. -/
theorem unitprint_fits_structure (G : PrintEnv) (dim : dimens)
    (hnone : G.unittable_match dim = "None")
    (hfit : ∀ l m t c k, dim = .dims l m t c k → ∀ e ∈ [l, m, t, c, k],
      (0 < e → (ustrp G e).isSome) ∧ (e < 0 → (ustrp G e).isSome ∧ (ustrp G (-e)).isSome)) :
    unitprint G dim = some (unitprintSpec (fun e => (ustrp G e).getD "") dim) ∧
    (dim = .unknown → unitprint G dim = some "unknown_units") ∧
    (dim = .inconsistent → unitprint G dim = some "inconsistent_units") ∧
    (dim = .dims 0 0 0 0 0 → unitprint G dim = some "") ∧
    ((∀ q, lastIs (G.sprintf_d q) '.' = false) →
      (∀ q, lastIs (G.sprintf_1lf q) '.' = false) →
      ∀ str, unitprint G dim = some str → lastIs str '.' = false) := by
  have hsome : ∀ e, (ustrp G e).isSome → ustrp G e = some ((ustrp G e).getD "") := by
    intro e he
    obtain ⟨p, hp⟩ := Option.isSome_iff_exists.mp he
    rw [hp]
    rfl
  have href : unitprint G dim = some (unitprintSpec (fun e => (ustrp G e).getD "") dim) := by
    cases dim with
    | unknown => simp only [unitprint, hnone, if_true, unitprintSpec]
    | inconsistent => simp only [unitprint, hnone, if_true, unitprintSpec]
    | dims l m t c k =>
      refine unitprint_refines_dims G _ l m t c k hnone fun e he => ?_
      have h := hfit l m t c k rfl e he
      exact ⟨fun hp => hsome e (h.1 hp), fun hn => ⟨hsome e (h.2 hn).1, hsome _ (h.2 hn).2⟩⟩
  refine ⟨href, ?_, ?_, ?_, ?_⟩
  · rintro rfl
    rw [href]
    rfl
  · rintro rfl
    rw [href]
    rfl
  · rintro rfl
    rw [href]
    simp [unitprintSpec, baseUnits, String.intercalate]
  · intro hd hf str hstr
    rw [href] at hstr
    cases hstr
    apply unitprintSpec_lastIs
    intro e
    cases hp : ustrp G e with
    | none => exact (by decide : lastIs "" '.' = false)
    | some p => exact ustrp_lastIs G hd hf e p hp

/-! ### The demonstration environment prints no trailing dot -/

theorem Demo.digitChar_ne_dot (n : Nat) : Nat.digitChar (n % 10) ≠ '.' := by
  have h : n % 10 < 10 := Nat.mod_lt _ (by decide)
  generalize n % 10 = m at h
  interval_cases m <;> decide

theorem lastIs_append_singleton (X : String) {ch : Char} (h : ch ≠ '.') :
    lastIs (X ++ String.singleton ch) '.' = false := by
  unfold lastIs
  rw [String.data_append]
  show ((X.data ++ [ch]).getLast? == some '.') = false
  rw [List.getLast?_concat]
  simpa using h

theorem append_singleton_ne_empty (X : String) (ch : Char) : X ++ String.singleton ch ≠ "" := by
  intro h
  have h2 := congrArg String.data h
  rw [String.data_append] at h2
  have h3 : X.data ++ [ch] = [] := h2
  simp at h3

theorem Demo.natstr_lastIs (n : Nat) : lastIs (Demo.natstr n) '.' = false := by
  unfold Demo.natstr
  rw [Demo.natstrAux]
  exact lastIs_append_singleton _ (Demo.digitChar_ne_dot n)

theorem Demo.natstr_ne_empty (n : Nat) : Demo.natstr n ≠ "" := by
  unfold Demo.natstr
  rw [Demo.natstrAux]
  exact append_singleton_ne_empty _ _

theorem Demo.sprintf_d_lastIs (q : Int) : lastIs (Demo.sprintf_d q) '.' = false := by
  unfold Demo.sprintf_d
  rw [lastIs_append_right _ (Demo.natstr_ne_empty _)]
  exact Demo.natstr_lastIs _

theorem Demo.fixed_one_lastIs (q : ℚ) : lastIs (Demo.fixed 1 q) '.' = false := by
  have hdrop : ("" : String).drop 1 = "" := by decide
  simp only [Demo.fixed, le_refl, if_true, hdrop, String.append_empty]
  rw [lastIs_append_right _ (Demo.natstr_ne_empty _)]
  exact Demo.natstr_lastIs _


/-- A print of an exponent that does not fit makes `unitprint` overflow: here
for a positive exponent of the length. -/
theorem unitprint_overflow_length (G : PrintEnv) (l m t c k : ℚ)
    (hnone : G.unittable_match (.dims l m t c k) = "None") (hl : 0 < l)
    (h : ustrp G l = none) : unitprint G (.dims l m t c k) = none := by
  simp only [unitprint, hnone, if_true, appendIf, gt_iff_lt, hl, h, Option.map_none',
    Option.none_bind]

/-- The strings of `unitprint` on dimensions whose exponents fit: a force, a
dimension with negative exponents only, and the largest integer exponent that
fits. -/
theorem unitprint_fits_examples :
    unitprint Demo.G (.dims 1 1 (-2) 0 0) = some "m.kg/s^2" ∧
    unitprint Demo.G (.dims 0 0 (-2) (-1) 0) = some "s^-2.C^-1" ∧
    unitprint Demo.G (.dims 999999 0 0 0 0) = some "m^999999" ∧
    unitprint Demo.G (.dims 0 0 0 0 0) = some "" :=
  ⟨by with_unfolding_all rfl, by with_unfolding_all rfl, by with_unfolding_all rfl,
    by with_unfolding_all rfl⟩

/-- C19 (the code at the failing input). For the dimension m^1000000, which
matches no named unit, `ustrp` is asked for the exponent 1000000: it looks like
an integer other than 1, and `sprintf(buf, "^%d", q)` prints the 8 characters
`^1000000`, which with the closing NUL are 9 bytes written into `char buf[8]`.
The call overflows its buffer and `unitprint` returns no string. -/
theorem unitprint_overflows_buffer :
    Demo.G.unittable_match (.dims 1000000 0 0 0 0) = "None" ∧
    Demo.G.lookslikeint 1000000 = some 1000000 ∧
    "^" ++ Demo.G.sprintf_d 1000000 = "^1000000" ∧
    ("^" ++ Demo.G.sprintf_d 1000000).length = 8 ∧
    ustrp Demo.G 1000000 = none ∧
    unitprint Demo.G (.dims 1000000 0 0 0 0) = none :=
  ⟨rfl, by with_unfolding_all rfl, by with_unfolding_all rfl, by with_unfolding_all rfl,
    by with_unfolding_all rfl, by with_unfolding_all rfl⟩

/-! ## The `throw`s of `solprint` -/

/-- The `throw`s of `solprint` when the prints of `ustrp` fit.  For a `binopexp`
whose left-hand variable (if it is one) has its index inside the canonical
variable table and whose value has a dimension that `unitprint` can print,
`solprint` throws if and only if its operator is not the equality, or its left
side is not a variable, or its right side is not a number, or the solved-value
table is absent, or that table's size is not greater than the variable's index,
or the variable has a non-empty preferred unit whose dimension differs from the
dimension of the value; and when it does not throw it returns a solution
string. -/
theorem solprint_throws_iff_of_fits (G : PrintEnv) (numsols : Option (List ℚ)) (forhelp : Bool)
    (op : oper) (lhs rhs : expr) (MKS : dimens) (cv : List physvar)
    (hcv : G.canonvars = some cv) (hin : ∀ v, lhs.varindex? = some v → v < cv.length)
    (hfit : ∀ c d2, rhs = .numvalexp c d2 → (unitprint G d2).isSome) :
    ((∃ msg, (solprint G numsols forhelp op lhs rhs MKS).1 = .thrown msg) ↔
      (op.opty ≠ .equalse ∨ lhs.etype ≠ .physvart ∨ rhs.etype ≠ .numval ∨ numsols = none ∨
        (∃ table v, numsols = some table ∧ lhs.varindex? = some v ∧ table.length ≤ v) ∨
        (∃ v pv, lhs.varindex? = some v ∧ cv[v]? = some pv ∧ pv.prefUnit ≠ "" ∧
          (G.getfromunits pv.prefUnit).2 ≠ rhs.MKS))) ∧
    ((¬ ∃ msg, (solprint G numsols forhelp op lhs rhs MKS).1 = .thrown msg) →
      ∃ str, (solprint G numsols forhelp op lhs rhs MKS).1 = .ok str) := by
  by_cases h1 : op.opty = .equalse
  swap
  · rw [solprint_not_equation G numsols forhelp lhs rhs MKS h1]
    exact ⟨⟨fun _ => Or.inl h1, fun _ => ⟨_, rfl⟩⟩, fun h => absurd ⟨_, rfl⟩ h⟩
  by_cases h2 : lhs.etype = .physvart
  swap
  · rw [solprint_lhs G numsols forhelp rhs MKS h1 h2]
    exact ⟨⟨fun _ => Or.inr (Or.inl h2), fun _ => ⟨_, rfl⟩⟩, fun h => absurd ⟨_, rfl⟩ h⟩
  obtain ⟨v, d, rfl⟩ : ∃ v d, lhs = .physvarptr v d := by
    cases lhs <;> simp [expr.etype] at h2
    exact ⟨_, _, rfl⟩
  by_cases h3 : rhs.etype = .numval
  swap
  · rw [solprint_rhs G numsols forhelp v d MKS h1 h3]
    exact ⟨⟨fun _ => Or.inr (Or.inr (Or.inl h3)), fun _ => ⟨_, rfl⟩⟩,
      fun h => absurd ⟨_, rfl⟩ h⟩
  obtain ⟨c, d2, rfl⟩ : ∃ c d2, rhs = .numvalexp c d2 := by
    cases rhs <;> simp [expr.etype] at h3
    exact ⟨_, _, rfl⟩
  cases numsols with
  | none =>
    rw [solprint_no_table G forhelp v d c d2 MKS h1]
    exact ⟨⟨fun _ => by simp, fun _ => ⟨_, rfl⟩⟩, fun h => absurd ⟨_, rfl⟩ h⟩
  | some table =>
    by_cases h5 : table.length ≤ v
    · rw [solprint_small_table G forhelp v d c d2 MKS h1 h5]
      refine ⟨⟨fun _ => ?_, fun _ => ⟨_, rfl⟩⟩, fun h => absurd ⟨_, rfl⟩ h⟩
      exact Or.inr (Or.inr (Or.inr (Or.inr (Or.inl ⟨table, v, rfl, rfl, h5⟩))))
    · obtain ⟨unitstr, hunit⟩ := Option.isSome_iff_exists.mp (hfit c d2 rfl)
      have hinf : ∃ eqstr, (expr.binopexp op (.physvarptr v d) (.numvalexp c d2) MKS).getInfix G =
          some eqstr := by
        have h1 : ∃ l, (expr.physvarptr v d).getInfix G = some l := by
          simp only [expr.getInfix, hcv]
          split <;> exact ⟨_, rfl⟩
        have h2 : ∃ r, (expr.numvalexp c d2).getInfix G = some r := by
          simp only [expr.getInfix, hunit]
          split_ifs <;> exact ⟨_, rfl⟩
        obtain ⟨l, hl⟩ := h1
        obtain ⟨r, hr⟩ := h2
        exact ⟨_, by rw [expr.getInfix, hl, hr]⟩
      obtain ⟨eqstr, heq⟩ := hinf
      have hv : v < cv.length := hin v rfl
      have hpv : cv[v]? = some cv[v] := List.getElem?_eq_getElem hv
      rw [solprint_written G forhelp v d c d2 MKS h1 (by omega) hcv hpv, heq, hunit]
      -- the first five conditions fail
      have hfirst : ∀ P : Prop,
          ((op.opty ≠ .equalse ∨ (expr.physvarptr v d).etype ≠ .physvart ∨
            (expr.numvalexp c d2).etype ≠ .numval ∨ some table = none ∨
            (∃ table1 v1, some table = some table1 ∧
              (expr.physvarptr v d).varindex? = some v1 ∧ table1.length ≤ v1) ∨ P) ↔ P) := by
        intro P
        constructor
        · rintro (h | h | h | h | ⟨t1, v1, ht, hv1, hle⟩ | h)
          · exact absurd h1 h
          · exact absurd rfl h
          · exact absurd rfl h
          · cases h
          · cases ht
            simp only [expr.varindex?, Option.some.injEq] at hv1
            subst hv1
            exact absurd hle h5
          · exact h
        · intro h
          exact Or.inr (Or.inr (Or.inr (Or.inr (Or.inr h))))
      rw [hfirst]
      have hsixth : (∃ v1 pv, (expr.physvarptr v d).varindex? = some v1 ∧ cv[v1]? = some pv ∧
          pv.prefUnit ≠ "" ∧ (G.getfromunits pv.prefUnit).2 ≠ (expr.numvalexp c d2).MKS) ↔
          (cv[v].prefUnit ≠ "" ∧ (G.getfromunits cv[v].prefUnit).2 ≠ d2) := by
        constructor
        · rintro ⟨v1, pv, hv1, hpv1, hp, hd⟩
          simp only [expr.varindex?, Option.some.injEq] at hv1
          subst hv1
          rw [hpv] at hpv1
          cases hpv1
          exact ⟨hp, hd⟩
        · rintro ⟨hp, hd⟩
          exact ⟨v, cv[v], rfl, hpv, hp, hd⟩
      rw [hsixth]
      by_cases hp : cv[v].prefUnit = ""
      · simp [hp]
      · by_cases hd : d2 = (G.getfromunits cv[v].prefUnit).2
        · simp only [ne_eq, hp, not_false_eq_true, if_true, hd, not_true_eq_false, if_false,
            and_false]
          simp
        · have hd' : (G.getfromunits cv[v].prefUnit).2 ≠ d2 := fun h => hd h.symm
          simp only [ne_eq, hp, not_false_eq_true, if_true, hd, hd', and_self]
          simp


/-- The lemma above at a concrete input: `y = 3 m.s` with preferred unit `cm`
for `y`; the dimensions differ and `solprint` throws. -/
theorem solprint_throws_iff_of_fits_example :
    ∃ msg, (solprint Demo.G (some [0, 0, 0]) false Demo.eqop Demo.Y
        (.numvalexp 3 (.dims 1 0 1 0 0)) Demo.nodim).1 = .thrown msg :=
  ((solprint_throws_iff_of_fits Demo.G (some [0, 0, 0]) false Demo.eqop Demo.Y
    (.numvalexp 3 (.dims 1 0 1 0 0)) Demo.nodim
    [⟨"x", ""⟩, ⟨"y", "cm"⟩, ⟨"z", ""⟩] rfl
    (by
      intro v hv
      simp only [Demo.Y, expr.varindex?, Option.some.injEq] at hv
      subst hv
      decide)
    (by
      intro c d2 h
      cases h
      with_unfolding_all rfl)).1).2
    (Or.inr (Or.inr (Or.inr (Or.inr (Or.inr
      ⟨1, ⟨"y", "cm"⟩, rfl, rfl, by decide, by with_unfolding_all decide⟩)))))

/-- C15 (the code at the failing input). `solprint` on `x = 3 m^1000000`, with
`x` in the variable table, no preferred unit for `x` and a solved-value table
of three entries: none of the six conditions holds, the value is written to the
table, and `unitprint` (line 195) overflows the buffer of `ustrp`, so that no
solution string is returned.  On `y = 3 m^1000000`, `y` with the preferred unit
cm, the sixth condition holds and it is the `getInfix` of the message (line
187) that overflows, so that no error is raised.  With the exponent 999999 the
first call returns its string. -/
theorem solprint_overflows_buffer :
    solprint Demo.G (some [0, 0, 0]) false Demo.eqop Demo.X
        (.numvalexp 3 (.dims 1000000 0 0 0 0)) Demo.nodim = (.undefined, some [3, 0, 0]) ∧
    (Demo.eqop.opty = .equalse ∧ Demo.X.etype = .physvart ∧
      Demo.G.canonvars.bind (fun cv => cv[0]?) = some ⟨"x", ""⟩) ∧
    solprint Demo.G (some [0, 0, 0]) false Demo.eqop Demo.Y
        (.numvalexp 3 (.dims 1000000 0 0 0 0)) Demo.nodim = (.undefined, some [0, 3, 0]) ∧
    (expr.binopexp Demo.eqop Demo.Y (.numvalexp 3 (.dims 1000000 0 0 0 0))
      Demo.nodim).getInfix Demo.G = none ∧
    solprint Demo.G (some [0, 0, 0]) false Demo.eqop Demo.X
        (.numvalexp 3 (.dims 999999 0 0 0 0)) Demo.nodim =
      (.ok "(SVAR x 3 m^999999 )", some [3, 0, 0]) :=
  ⟨by with_unfolding_all rfl, ⟨rfl, rfl, rfl⟩, by with_unfolding_all rfl,
    by with_unfolding_all rfl, by with_unfolding_all rfl⟩

/-! ## The table after a `throw` of `solprint` -/

/-- C21. The solved-value table after a `throw` of `solprint`.  Each of the five
first checks (not an equation, left side not a variable, right side not a value,
table absent, table too small) throws with the table as it was.  The last
`throw`, for a preferred unit whose dimension differs from the value's, comes
after the write of line 180: the table then holds the value at the variable's
index, so it differs from the table at entry unless that entry held the value
already (this whether the message of the `throw` can be printed or its
`getInfix` overflows the buffer of `ustrp`).  Every `throw` of `solprint` is
one of these. -/
theorem solprint_throw_table (G : PrintEnv) (numsols : Option (List ℚ)) (forhelp : Bool)
    (op : oper) (lhs rhs : expr) (MKS : dimens) :
    ((op.opty ≠ .equalse ∨ lhs.etype ≠ .physvart ∨ rhs.etype ≠ .numval ∨ numsols = none ∨
        (∃ table v, numsols = some table ∧ lhs.varindex? = some v ∧ table.length ≤ v)) →
      ∃ msg, solprint G numsols forhelp op lhs rhs MKS = (.thrown msg, numsols)) ∧
    (∀ v d c d2 table cv pv, op.opty = .equalse → lhs = .physvarptr v d →
      rhs = .numvalexp c d2 → numsols = some table → v < table.length →
      G.canonvars = some cv → cv[v]? = some pv → pv.prefUnit ≠ "" →
      (G.getfromunits pv.prefUnit).2 ≠ d2 →
      (solprint G numsols forhelp op lhs rhs MKS).2 = some (table.set v c) ∧
      (∀ eqstr, (expr.binopexp op lhs rhs MKS).getInfix G = some eqstr →
        solprint G numsols forhelp op lhs rhs MKS =
          (.thrown (eqstr ++ " inconsistent with preferred units for " ++ pv.clipsname),
            some (table.set v c))) ∧
      (table.set v c)[v]? = some c ∧
      (table[v]? ≠ some c → some (table.set v c) ≠ numsols)) ∧
    (∀ msg numsols1, solprint G numsols forhelp op lhs rhs MKS = (.thrown msg, numsols1) →
      numsols1 = numsols ∨
      ∃ v d c d2 table cv pv, lhs = .physvarptr v d ∧ rhs = .numvalexp c d2 ∧
        numsols = some table ∧ v < table.length ∧ G.canonvars = some cv ∧
        cv[v]? = some pv ∧ pv.prefUnit ≠ "" ∧ (G.getfromunits pv.prefUnit).2 ≠ d2 ∧
        numsols1 = some (table.set v c)) := by
  refine ⟨?_, ?_, ?_⟩
  · intro hc
    by_cases h1 : op.opty = .equalse
    swap
    · exact ⟨_, solprint_not_equation G numsols forhelp lhs rhs MKS h1⟩
    by_cases h2 : lhs.etype = .physvart
    swap
    · exact ⟨_, solprint_lhs G numsols forhelp rhs MKS h1 h2⟩
    obtain ⟨v, d, rfl⟩ : ∃ v d, lhs = .physvarptr v d := by
      cases lhs <;> simp [expr.etype] at h2
      exact ⟨_, _, rfl⟩
    by_cases h3 : rhs.etype = .numval
    swap
    · exact ⟨_, solprint_rhs G numsols forhelp v d MKS h1 h3⟩
    obtain ⟨c, d2, rfl⟩ : ∃ c d2, rhs = .numvalexp c d2 := by
      cases rhs <;> simp [expr.etype] at h3
      exact ⟨_, _, rfl⟩
    cases numsols with
    | none => exact ⟨_, solprint_no_table G forhelp v d c d2 MKS h1⟩
    | some table =>
      rcases hc with h | h | h | h | ⟨table1, v1, ht, hv1, hle⟩
      · exact absurd h1 h
      · exact absurd rfl h
      · exact absurd rfl h
      · cases h
      · cases ht
        simp only [expr.varindex?, Option.some.injEq] at hv1
        subst hv1
        exact ⟨_, solprint_small_table G forhelp v d c d2 MKS h1 hle⟩
  · rintro v d c d2 table cv pv h1 rfl rfl rfl hv hcv hpv hp hd
    refine ⟨solprint_snd_written G forhelp v d c d2 MKS h1 hv, ?_,
      List.getElem?_set_self hv, ?_⟩
    · intro eqstr heq
      rw [solprint_written G forhelp v d c d2 MKS h1 hv hcv hpv, if_pos hp,
        if_pos (fun h => hd h.symm), heq]
    · intro hne heq
      apply hne
      have h2 : table.set v c = table := Option.some.inj heq
      rw [← h2]
      exact List.getElem?_set_self hv
  · intro msg numsols1 h
    by_cases h1 : op.opty = .equalse
    swap
    · rw [solprint_not_equation G numsols forhelp lhs rhs MKS h1] at h
      exact Or.inl (Prod.mk.inj h).2.symm
    by_cases h2 : lhs.etype = .physvart
    swap
    · rw [solprint_lhs G numsols forhelp rhs MKS h1 h2] at h
      exact Or.inl (Prod.mk.inj h).2.symm
    obtain ⟨v, d, rfl⟩ : ∃ v d, lhs = .physvarptr v d := by
      cases lhs <;> simp [expr.etype] at h2
      exact ⟨_, _, rfl⟩
    by_cases h3 : rhs.etype = .numval
    swap
    · rw [solprint_rhs G numsols forhelp v d MKS h1 h3] at h
      exact Or.inl (Prod.mk.inj h).2.symm
    obtain ⟨c, d2, rfl⟩ : ∃ c d2, rhs = .numvalexp c d2 := by
      cases rhs <;> simp [expr.etype] at h3
      exact ⟨_, _, rfl⟩
    cases numsols with
    | none =>
      rw [solprint_no_table G forhelp v d c d2 MKS h1] at h
      exact Or.inl (Prod.mk.inj h).2.symm
    | some table =>
      by_cases h5 : table.length ≤ v
      · rw [solprint_small_table G forhelp v d c d2 MKS h1 h5] at h
        exact Or.inl (Prod.mk.inj h).2.symm
      · have hv : v < table.length := by omega
        right
        cases hb : G.canonvars.bind (fun cv => cv[v]?) with
        | none =>
          rw [solprint_outside G forhelp v d c d2 MKS h1 hv hb] at h
          cases h
        | some pv =>
          obtain ⟨cv, hcv, hpv⟩ := Option.bind_eq_some.mp hb
          rw [solprint_written G forhelp v d c d2 MKS h1 hv hcv hpv] at h
          by_cases hp : pv.prefUnit = ""
          · rw [if_neg (fun hn => hn hp)] at h
            split at h <;> cases h
          · rw [if_pos hp] at h
            by_cases hd : d2 = (G.getfromunits pv.prefUnit).2
            · rw [if_neg (fun hn => hn hd)] at h
              cases h
            · rw [if_pos hd] at h
              refine ⟨v, d, c, d2, table, cv, pv, rfl, rfl, rfl, hv, hcv, hpv, hp,
                fun he => hd he.symm, ?_⟩
              split at h
              · exact (Prod.mk.inj h).2.symm
              · cases h

/-- C21 at a concrete input: `y = 3 m.s` with preferred unit `cm` for `y` throws
and leaves 3 in entry 1 of the table, which held 0; `y + 3` (not an equation)
throws and leaves the table as it was. -/
theorem solprint_throw_table_witness :
    (solprint Demo.G (some [0, 0, 0]) false Demo.eqop Demo.Y
        (.numvalexp 3 (.dims 1 0 1 0 0)) Demo.nodim =
        (.thrown ("(y = (3 m.s))" ++ " inconsistent with preferred units for " ++ "y"),
          some ([0, 0, 0].set 1 3)) ∧
      ([(0 : ℚ), 0, 0].set 1 3)[1]? = some 3 ∧
      (([(0 : ℚ), 0, 0])[1]? ≠ some 3 → some ([(0 : ℚ), 0, 0].set 1 3) ≠ some [0, 0, 0])) ∧
    (∃ msg, solprint Demo.G (some [0, 0, 0]) false ⟨.pluse, "+"⟩ Demo.Y (Demo.num 3)
        Demo.nodim = (.thrown msg, some [0, 0, 0])) :=
  ⟨((solprint_throw_table Demo.G (some [0, 0, 0]) false Demo.eqop Demo.Y
      (.numvalexp 3 (.dims 1 0 1 0 0)) Demo.nodim).2.1 1 Demo.nodim 3 (.dims 1 0 1 0 0)
      [0, 0, 0] [⟨"x", ""⟩, ⟨"y", "cm"⟩, ⟨"z", ""⟩] ⟨"y", "cm"⟩ rfl rfl rfl rfl (by decide) rfl
      rfl (by decide) (by with_unfolding_all decide)).2.imp_left
      (fun h => h "(y = (3 m.s))" (by with_unfolding_all rfl)),
    (solprint_throw_table Demo.G (some [0, 0, 0]) false ⟨.pluse, "+"⟩ Demo.Y (Demo.num 3)
      Demo.nodim).1 (Or.inl (by decide))⟩


/-! ## Printing an n-ary node -/

theorem intercalate_cons_cons (s a b : String) (l : List String) :
    s.intercalate (a :: b :: l) = a ++ s ++ s.intercalate (b :: l) := by
  rw [intercalate_cons, intercalate_cons, List.map_cons, join_cons]
  simp only [String.append_assoc]

theorem intercalate_singleton (s a : String) : s.intercalate [a] = a := by
  rw [intercalate_cons, List.map_nil, join_nil, String.append_empty]

/-- The loop of `n_opexp::getInfix` on a non-empty argument vector whose
arguments all have a rendering: the renderings with the operator between them,
then `)`. -/
theorem getInfixArgs_eq (G : PrintEnv) (op : oper) :
    ∀ (args : List expr) (rs : List String) (ans : String), args ≠ [] →
    args.map (fun a => a.getInfix G) = rs.map some →
    getInfixArgs G op ans args =
      some (ans ++ (" " ++ op.printname ++ " ").intercalate rs ++ ")")
  | [], _, _, h, _ => absurd rfl h
  | [a], rs, ans, _, hr => by
    cases rs with
    | nil => simp at hr
    | cons r rs1 =>
      cases rs1 with
      | cons r2 rs2 => simp at hr
      | nil =>
        simp only [List.map_cons, List.map_nil, List.cons.injEq, and_true] at hr
        rw [getInfixArgs, hr, intercalate_singleton]
        simp only [String.append_assoc]
  | a :: b :: rest, rs, ans, _, hr => by
    cases rs with
    | nil => simp at hr
    | cons r rs1 =>
      cases rs1 with
      | nil => simp at hr
      | cons r2 rs2 =>
        rw [List.map_cons, List.map_cons (f := some), List.cons.injEq] at hr
        rw [getInfixArgs, hr.1]
        simp only
        rw [getInfixArgs_eq G op (b :: rest) (r2 :: rs2) _ (List.cons_ne_nil _ _) hr.2,
          intercalate_cons_cons]
        simp only [String.append_assoc]

/-- The loop of `n_opexp::getLisp` on a non-empty argument vector whose
arguments all have a rendering: the renderings with one space between them,
then `)`. -/
theorem getLispArgs_eq (G : PrintEnv) (withbarp : Bool) :
    ∀ (args : List expr) (rs : List String) (ans : String), args ≠ [] →
    args.map (fun a => a.getLisp G withbarp) = rs.map some →
    getLispArgs G withbarp ans args = some (ans ++ " ".intercalate rs ++ ")")
  | [], _, _, h, _ => absurd rfl h
  | [a], rs, ans, _, hr => by
    cases rs with
    | nil => simp at hr
    | cons r rs1 =>
      cases rs1 with
      | cons r2 rs2 => simp at hr
      | nil =>
        simp only [List.map_cons, List.map_nil, List.cons.injEq, and_true] at hr
        rw [getLispArgs, hr, intercalate_singleton]
        simp only [String.append_assoc]
  | a :: b :: rest, rs, ans, _, hr => by
    cases rs with
    | nil => simp at hr
    | cons r rs1 =>
      cases rs1 with
      | nil => simp at hr
      | cons r2 rs2 =>
        rw [List.map_cons, List.map_cons (f := some), List.cons.injEq] at hr
        rw [getLispArgs, hr.1]
        simp only
        rw [getLispArgs_eq G withbarp (b :: rest) (r2 :: rs2) _ (List.cons_ne_nil _ _) hr.2,
          intercalate_cons_cons]
        simp only [String.append_assoc]

/-- C22. For an n-ary node with at least one argument, each argument having a
rendering, `getLisp` returns `(`, the operator name, a space, the `getLisp`
renderings of the arguments in order with one space between them, and `)`, and
`getInfix` returns `( `, the `getInfix` renderings of the arguments in order
with the operator name between spaces between them, and `)`.  With no argument
`getInfix` returns `( `, the operator name and `)`, whereas `getLisp` reads the
argument of index 0 of the empty vector. -/
theorem n_opexp_renderings (G : PrintEnv) (withbarp : Bool) (op : oper) (args : List expr)
    (MKS : dimens) :
    (args ≠ [] → ∀ rs, args.map (fun a => a.getLisp G withbarp) = rs.map some →
      (expr.n_opexp op args MKS).getLisp G withbarp =
        some ("(" ++ op.printname ++ " " ++ " ".intercalate rs ++ ")")) ∧
    (args ≠ [] → ∀ rs, args.map (fun a => a.getInfix G) = rs.map some →
      (expr.n_opexp op args MKS).getInfix G =
        some ("( " ++ (" " ++ op.printname ++ " ").intercalate rs ++ ")")) ∧
    (expr.n_opexp op [] MKS).getInfix G = some ("( " ++ op.printname ++ ")") ∧
    (expr.n_opexp op [] MKS).getLisp G withbarp = none := by
  refine ⟨fun hne rs hr => ?_, fun hne rs hr => ?_, ?_, ?_⟩
  · rw [expr.getLisp, getLispArgs_eq G withbarp args rs _ hne hr]
    simp only [String.append_assoc]
  · have hlen : ¬ args.length = 0 := fun h => hne (List.length_eq_zero.mp h)
    rw [expr.getInfix, if_neg hlen, getInfixArgs_eq G op args rs _ hne hr]
  · rw [expr.getInfix, if_pos List.length_nil]
    simp only [String.append_assoc]
  · rw [expr.getLisp, getLispArgs]

/-- C22 at a concrete input: the sum of `x`, `y` and 3, and the sum without
arguments. -/
theorem n_opexp_renderings_witness :
    (expr.n_opexp ⟨.pluse, "+"⟩ [Demo.X, Demo.Y, Demo.num 3] Demo.nodim).getLisp Demo.G true =
      some ("(" ++ "+" ++ " " ++ " ".intercalate ["|x|", "|y|", "( 3 )"] ++ ")") ∧
    " ".intercalate ["|x|", "|y|", "( 3 )"] = "|x| |y| ( 3 )" ∧
    (expr.n_opexp ⟨.pluse, "+"⟩ [Demo.X, Demo.Y, Demo.num 3] Demo.nodim).getInfix Demo.G =
      some ("( " ++ (" " ++ "+" ++ " ").intercalate ["x", "y", "3"] ++ ")") ∧
    (" " ++ "+" ++ " ").intercalate ["x", "y", "3"] = "x + y + 3" ∧
    (expr.n_opexp ⟨.pluse, "+"⟩ [] Demo.nodim).getInfix Demo.G = some ("( " ++ "+" ++ ")") ∧
    (expr.n_opexp ⟨.pluse, "+"⟩ [] Demo.nodim).getLisp Demo.G true = none :=
  ⟨(n_opexp_renderings Demo.G true ⟨.pluse, "+"⟩ [Demo.X, Demo.Y, Demo.num 3] Demo.nodim).1
      (by simp) ["|x|", "|y|", "( 3 )"] (by with_unfolding_all rfl),
    by decide,
    (n_opexp_renderings Demo.G true ⟨.pluse, "+"⟩ [Demo.X, Demo.Y, Demo.num 3] Demo.nodim).2.1
      (by simp) ["x", "y", "3"] (by with_unfolding_all rfl),
    by decide,
    (n_opexp_renderings Demo.G true ⟨.pluse, "+"⟩ [] Demo.nodim).2.2.1,
    (n_opexp_renderings Demo.G true ⟨.pluse, "+"⟩ [] Demo.nodim).2.2.2⟩

end Andes
